import Mathlib

/-!
# NachOS indexed file header (`filesys/filehdr.cc`)

A shallow embedding of `FileHeader::Allocate`, `AllocSector`, `Deallocate`,
`DeallocSector`, `GetSector`, `ByteToSector`, `FetchFrom` and `WriteBack`.

* C `int` values are `Int`.  For every `fileSize` that fits a 32-bit `int`, no
  intermediate value of `Allocate`, or of the other routines on the header it
  builds, leaves the 32-bit range, so no wrap-around is modelled.  The one
  conversion that can leave the range on a header not built by `Allocate`,
  `pow(NumInDirect, numLevel-1)` passed as an `int`, is modelled on its whole
  range (`powNumInDirect`); the free map has at most `INT_MAX` bits.
* The free map and the disk are passed explicitly.  A disk sector holds 32
  four-byte words (`SectorSize = 128`), which is also the shape of an
  `indirectTable`.
* The fields `claimed`, `leaves`, `written` of `AllocState` (and `cleared` of
  `DeallocState`, and the list of sectors returned by `GetSector`) are traces of
  what the routine did; they never influence control flow.
-/

namespace NachOS

/-! ## Constants and helpers declared outside `filehdr.cc` -/

/-- Modelled from the spec: `SectorSize` of `disk.h` (not in the sources), the
sector size of the concrete scenario, 128 bytes. -/
def SectorSize : Int := 128

/-- Modelled from the spec: `NumInDirect` of `filehdr.h` (not in the sources), the
fan-out of an indirection node, 32 sector numbers per sector. -/
def NumInDirect : Nat := 32

/-- Modelled from the spec: `NumDirect` of `filehdr.h` (not in the sources).  The
header record occupies exactly one sector: 32 words, four of them scalar fields. -/
def NumDirect : Nat := 28

/-- Modelled from the spec: `divRoundUp` of `utility.h` (not in the sources),
`ceil(n / s)` for a positive `s`. -/
def divRoundUp (n s : Int) : Int := -((-n) / s)

/-- An indirection node: `int dataSectors[NumInDirect]`. -/
abbrev indirectTable := List Int

/-- The table after `memset(indirTbl, -1, sizeof(indirectTable))`. -/
def emptyTable : indirectTable := List.replicate NumInDirect (-1)

/-- The slot `tbl->dataSectors[idx]`; `none` stands for an index outside the array. -/
def slot (tbl : indirectTable) (idx : Int) : Option Int :=
  if idx < 0 then none else tbl[idx.toNat]?

/-! ## Free-space map -/

/-- Modelled from the spec: the free-space bitmap (`PersistentBitmap`, not in the
sources); `true` marks an allocated sector.  Sector numbers and the count of clear
bits are `int` values, so the map has at most `INT_MAX` bits. -/
structure PersistentBitmap where
  map : List Bool
  bounded : map.length ≤ 2147483647
deriving DecidableEq

/-- Index of the first clear bit. -/
def firstClear : List Bool → Option Nat
  | [] => none
  | false :: _ => some 0
  | true :: rest => (firstClear rest).map (· + 1)

namespace PersistentBitmap

/-- Modelled from the spec: `countFree()`, the number of clear bits. -/
def NumClear (b : PersistentBitmap) : Nat := b.map.count false

/-- Modelled from the spec: `test(sectorNumber)`; a number outside the map reads as
clear. -/
def Test (b : PersistentBitmap) (which : Int) : Bool :=
  decide (0 ≤ which) && b.map.getD which.toNat false

/-- Modelled from the spec: `findAndSetFreeSector()`: find and mark one free
sector, the first clear one; `-1` when no bit is clear. -/
def FindAndSet (b : PersistentBitmap) : Int × PersistentBitmap :=
  match firstClear b.map with
  | some i => ((i : Int), ⟨b.map.set i true, by rw [List.length_set]; exact b.bounded⟩)
  | none => (-1, b)

/-- Modelled from the spec: `clear(sectorNumber)`; a number outside the map leaves
the map unchanged. -/
def Clear (b : PersistentBitmap) (which : Int) : PersistentBitmap :=
  if 0 ≤ which then ⟨b.map.set which.toNat false, by rw [List.length_set]; exact b.bounded⟩
  else b

end PersistentBitmap

/-! ## Disk -/

/-- Modelled from the spec: the synchronous disk (`SynchDisk`, not in the sources),
a store of whole sectors that returns on read what was last written.  The sector
number is not range-checked. -/
def SynchDisk := Int → List Int

namespace SynchDisk

/-- Modelled from the spec: `readSector`. -/
def ReadSector (d : SynchDisk) (sector : Int) : List Int := d sector

/-- Modelled from the spec: `writeSector`. -/
def WriteSector (d : SynchDisk) (sector : Int) (data : List Int) : SynchDisk :=
  fun x => if x = sector then data else d x

end SynchDisk

/-! ## File header -/

/-- The fields of `class FileHeader`; `dataSectors` is `int dataSectors[NumDirect]`. -/
structure FileHeader where
  numBytes : Int
  numSectors : Int
  dataSectors : List Int
  fileDescriptor : Int
  numLevel : Int
  wf : dataSectors.length = NumDirect
deriving DecidableEq

/-- `FileHeader::FileHeader()`. -/
def FileHeader.new : FileHeader :=
  { numBytes := -1, numSectors := -1, dataSectors := List.replicate NumDirect (-1),
    fileDescriptor := -1, numLevel := 0, wf := by simp }

/-- Integer part of the base-32 logarithm, by repeated division; the first
argument bounds the number of divisions. -/
def log32Aux : Nat → Nat → Nat
  | 0, _ => 0
  | fuel + 1, n => if n < 32 then 0 else log32Aux fuel (n / 32) + 1

/-- The value of `(int)(log10(numSectors)/log10(32))`, reading the quotient as the
exact real number.  For `numSectors ≤ 0` the quotient is `-inf` or NaN and the
conversion yields `INT_MIN` (x86-64). -/
def log32 (numSectors : Int) : Int :=
  if numSectors ≤ 0 then -2147483648 else (log32Aux numSectors.toNat numSectors.toNat : Nat)

/-- The value of `pow(NumInDirect, e)` once converted to `int`: a negative exponent
gives a fraction, which truncates to zero; `32 ^ e` exceeds `INT_MAX` from `e = 7` on
(`32 ^ 6 = 2 ^ 30`, `32 ^ 7 = 2 ^ 35`), the value is then outside the range of `int`
and the conversion yields `INT_MIN` (x86-64). -/
def powNumInDirect (e : Int) : Int :=
  if e < 0 then 0
  else if e ≤ 6 then ((NumInDirect ^ e.toNat : Nat) : Int)
  else -2147483648

/-! ## Allocate -/

/-- What `AllocSector` threads through its recursion: the free map, the disk and
`*allocSecNum`, with the traces `claimed` (results of `FindAndSet`, in order),
`leaves` (the slot value at each `(*allocSecNum)++`, in order) and `written`
(targets of `WriteSector`, in order). -/
structure AllocState where
  freeMap : PersistentBitmap
  disk : SynchDisk
  allocSecNum : Int
  claimed : List Int
  leaves : List Int
  written : List Int

/-- The body of the `for` loop of `AllocSector` at slot `i`; `child` is the
recursive call `AllocSector(freeMap, n, indirTbl, ...)` on a fresh table. -/
def allocStep (child : indirectTable → AllocState → Bool × indirectTable × AllocState)
    (needSecNum : Int) (i : Nat) (tbl : indirectTable) (s : AllocState) :
    indirectTable × AllocState :=
  let fs := s.freeMap.FindAndSet
  let sec := fs.1
  let tbl1 := tbl.set i sec
  let s1 := { s with freeMap := fs.2, claimed := s.claimed ++ [sec] }
  let r := child emptyTable s1
  let s2 := r.2.2
  let s3 :=
    if r.1 then
      { s2 with disk := s2.disk.WriteSector sec r.2.1, written := s2.written ++ [sec] }
    else if s2.allocSecNum < needSecNum then
      { s2 with allocSecNum := s2.allocSecNum + 1, leaves := s2.leaves ++ [sec] }
    else s2
  (tbl1, s3)

/-- The `for` loop of `AllocSector`; `k` is `NumInDirect - i`, so `i < NumInDirect`
reads `k ≠ 0`. -/
def allocLoop (child : indirectTable → AllocState → Bool × indirectTable × AllocState)
    (needSecNum : Int) : Nat → Nat → indirectTable → AllocState → indirectTable × AllocState
  | 0, _, tbl, s => (tbl, s)
  | k + 1, i, tbl, s =>
    if s.allocSecNum < needSecNum then
      let r := allocStep child needSecNum i tbl s
      allocLoop child needSecNum k (i + 1) r.1 r.2
    else (tbl, s)

/-- `FileHeader::AllocSector` with `n` a natural number (`n <= 0` is `n = 0`). -/
def AllocSectorN (needSecNum : Int) :
    Nat → indirectTable → AllocState → Bool × indirectTable × AllocState
  | 0, tbl, s => (false, tbl, s)
  | n + 1, tbl, s =>
    if s.allocSecNum = needSecNum then (false, tbl, s)
    else
      let r := allocLoop (AllocSectorN needSecNum n) needSecNum NumInDirect 0 tbl s
      (true, r.1, r.2)

/-- `FileHeader::AllocSector(freeMap, n, tbl, allocSecNum, needSecNum)`. -/
def AllocSector (n : Int) (tbl : indirectTable) (s : AllocState) (needSecNum : Int) :
    Bool × indirectTable × AllocState :=
  AllocSectorN needSecNum n.toNat tbl s

/-- `FileHeader::Allocate(freeMap, fileSize)`: the result flag, the header and the
final state. -/
def Allocate (hdr : FileHeader) (freeMap : PersistentBitmap) (disk : SynchDisk) (fileSize : Int) :
    Bool × FileHeader × AllocState :=
  let hdr1 : FileHeader :=
    { hdr with numBytes := fileSize, numSectors := divRoundUp fileSize SectorSize }
  let s0 : AllocState := ⟨freeMap, disk, 0, [], [], []⟩
  if (freeMap.NumClear : Int) < hdr1.numSectors then (false, hdr1, s0)
  else
    let fs := freeMap.FindAndSet
    let hdr2 : FileHeader :=
      { hdr1 with
        dataSectors := hdr1.dataSectors.set 0 fs.1
        numLevel := log32 hdr1.numSectors + 1
        wf := by rw [List.length_set]; exact hdr.wf }
    let r := AllocSector hdr2.numLevel emptyTable
      { s0 with freeMap := fs.2, claimed := [fs.1] } hdr2.numSectors
    let s := r.2.2
    let root := hdr2.dataSectors.getD 0 (-1)
    (true, hdr2, { s with disk := s.disk.WriteSector root r.2.1, written := s.written ++ [root] })

/-! ## Deallocate -/

/-- What `DeallocSector` threads through its recursion: the free map and
`*deallocSecNum`, with the traces `readSecs` (targets of `ReadSector`) and
`cleared` (arguments of `Clear`), in order. -/
structure DeallocState where
  freeMap : PersistentBitmap
  deallocSecNum : Int
  readSecs : List Int
  cleared : List Int

/-- The `for` loop of `DeallocSector`; `k` is `NumInDirect - i`. -/
def deallocLoop (child : indirectTable → DeallocState → Bool × DeallocState)
    (disk : SynchDisk) (needSecNum : Int) :
    Nat → Nat → indirectTable → DeallocState → DeallocState
  | 0, _, _, s => s
  | k + 1, i, tbl, s =>
    if s.deallocSecNum < needSecNum then
      let sec := tbl.getD i (-1)
      let indirTbl := disk.ReadSector sec
      let r := child indirTbl { s with readSecs := s.readSecs ++ [sec] }
      let s1 := r.2
      let s2 := if r.1 then s1 else { s1 with deallocSecNum := s1.deallocSecNum + 1 }
      let s3 := { s2 with freeMap := s2.freeMap.Clear sec, cleared := s2.cleared ++ [sec] }
      deallocLoop child disk needSecNum k (i + 1) tbl s3
    else s

/-- `FileHeader::DeallocSector` with `n` a natural number. -/
def DeallocSectorN (disk : SynchDisk) (needSecNum : Int) :
    Nat → indirectTable → DeallocState → Bool × DeallocState
  | 0, _, s => (false, s)
  | n + 1, tbl, s =>
    (true, deallocLoop (DeallocSectorN disk needSecNum n) disk needSecNum NumInDirect 0 tbl s)

/-- `FileHeader::DeallocSector(freeMap, n, tbl, deallocSecNum, needSecNum)`. -/
def DeallocSector (disk : SynchDisk) (n : Int) (tbl : indirectTable) (s : DeallocState)
    (needSecNum : Int) : Bool × DeallocState :=
  DeallocSectorN disk needSecNum n.toNat tbl s

/-- `FileHeader::Deallocate(freeMap)`; the disk is only read. -/
def Deallocate (hdr : FileHeader) (freeMap : PersistentBitmap) (disk : SynchDisk) : DeallocState :=
  let root := hdr.dataSectors.getD 0 (-1)
  let indirTbl := disk.ReadSector root
  (DeallocSector disk hdr.numLevel indirTbl ⟨freeMap, 0, [root], []⟩ hdr.numSectors).2

/-! ## Address translation -/

/-- `GetSector(secNum, LvlNum, tbl)` with a bound on the recursion depth.  The
result is the list of sectors read, in order, and the sector returned; `none`
stands for a division by zero or an index outside the table. -/
def GetSectorF (disk : SynchDisk) : Nat → Int → Int → indirectTable → List Int × Option Int
  | 0, _, _, _ => ([], none)
  | fuel + 1, secNum, LvlNum, tbl =>
    if LvlNum = 0 then ([], none)
    else
      let thesector := secNum.tdiv LvlNum
      let nextlevl := secNum.tmod LvlNum
      if LvlNum = 1 then ([], slot tbl thesector)
      else
        match slot tbl thesector with
        | none => ([], none)
        | some sec =>
          let r := GetSectorF disk fuel nextlevl (LvlNum.tdiv NumInDirect) (disk.ReadSector sec)
          (sec :: r.1, r.2)

/-- `GetSector(secNum, LvlNum, tbl)`: `LvlNum` is divided by 32 at each call, so
`|LvlNum|` calls are enough. -/
def GetSector (disk : SynchDisk) (secNum LvlNum : Int) (tbl : indirectTable) :
    List Int × Option Int :=
  GetSectorF disk LvlNum.natAbs secNum LvlNum tbl

/-- `FileHeader::ByteToSector(offset)`: the sectors read, in order, and the result. -/
def ByteToSector (hdr : FileHeader) (disk : SynchDisk) (offset : Int) : List Int × Option Int :=
  let root := hdr.dataSectors.getD 0 (-1)
  let indirTbl := disk.ReadSector root
  let r := GetSector disk (offset.tdiv SectorSize) (powNumInDirect (hdr.numLevel - 1)) indirTbl
  (root :: r.1, r.2)

/-! ## Persistence -/

/-- Modelled from the spec: the in-memory image of the header record, one sector
of 32 words (`filehdr.h`, which fixes the layout, is not in the sources). -/
def FileHeader.image (h : FileHeader) : List Int :=
  [h.numBytes, h.numSectors] ++ h.dataSectors ++ [h.fileDescriptor, h.numLevel]

/-- Modelled from the spec: the header whose image is the given sector. -/
def FileHeader.ofImage (ws : List Int) : FileHeader :=
  { numBytes := ws.getD 0 0
    numSectors := ws.getD 1 0
    dataSectors := (List.range NumDirect).map (fun i => ws.getD (2 + i) 0)
    fileDescriptor := ws.getD (2 + NumDirect) 0
    numLevel := ws.getD (3 + NumDirect) 0
    wf := by rw [List.length_map, List.length_range] }

/-- `FileHeader::FetchFrom(sector)`: the header is overwritten by the sector. -/
def FetchFrom (_hdr : FileHeader) (disk : SynchDisk) (sector : Int) : FileHeader :=
  FileHeader.ofImage (disk.ReadSector sector)

/-- `FileHeader::WriteBack(sector)`. -/
def WriteBack (hdr : FileHeader) (disk : SynchDisk) (sector : Int) : SynchDisk :=
  disk.WriteSector sector hdr.image

/-! ## Sector count of a tree -/

/-- Number of sectors of a subtree of height `n` with `x` leaves, its top sector
included: the `x` leaves plus, for each height `k = 1..n`, `ceil(x / 32^k)`
indirection nodes. -/
def treeSectors : Nat → Nat → Nat
  | 0, x => x
  | n + 1, x => treeSectors n x + (x + 32 ^ (n + 1) - 1) / 32 ^ (n + 1)

/-! ## The walk of `GetSector` when `LvlNum` is a power of 32 -/

/-- The walk below a slot holding `sec` whose subtree has height `t`: at height 0
the slot is the leaf; otherwise `sec` is read as a table and the walk continues in
its slot `r / 32^(t-1)`.  The result is the list of sectors read and the leaf. -/
def walkFrom (disk : SynchDisk) : Nat → Int → Nat → List Int × Option Int
  | 0, sec, _ => ([], some sec)
  | t + 1, sec, r =>
    match (disk sec)[r / 32 ^ t]? with
    | none => ([sec], none)
    | some c => (sec :: (walkFrom disk t c (r % 32 ^ t)).1, (walkFrom disk t c (r % 32 ^ t)).2)

/-- The walk from a table whose slots hold subtrees of height `t`. -/
def lookup (disk : SynchDisk) (t : Nat) (tbl : indirectTable) (j : Nat) : List Int × Option Int :=
  match tbl[j / 32 ^ t]? with
  | none => ([], none)
  | some c => walkFrom disk t c (j % 32 ^ t)

/-! ## Invariants of `AllocSector` -/

/-- The state `s'` is reached from `s` by claiming exactly the sectors `new` (all
clear in `s`, pairwise distinct), placing the leaves `lv` and writing the sectors
`w`, all of them among `new`; the disk is unchanged outside `new`. -/
structure Grows (s s' : AllocState) (new lv w : List Int) : Prop where
  claimed : s'.claimed = s.claimed ++ new
  leaves : s'.leaves = s.leaves ++ lv
  written : s'.written = s.written ++ w
  fresh : ∀ x ∈ new, s.freeMap.Test x = false
  nonneg : ∀ x ∈ new, 0 ≤ x
  nodup : new.Nodup
  test : ∀ x, s'.freeMap.Test x = (s.freeMap.Test x || decide (x ∈ new))
  numClear : s'.freeMap.NumClear + new.length = s.freeMap.NumClear
  disk : ∀ x, x ∉ new → s'.disk x = s.disk x
  lv_sub : ∀ x ∈ lv, x ∈ new
  w_sub : ∀ x ∈ w, x ∈ new

/-- What one pass of the loop body of `AllocSector` achieves at a slot whose subtree
has height `n`, when `m > 0` leaves are still to place and the map has a clear bit
for every sector of the subtree: the slot receives a sector `sec`, the subtree gets
`min m 32^n` leaves, and the walk below `sec` finds them in placement order on
every disk that agrees with the resulting one on the subtree's sectors. -/
def StepSpec (needSecNum : Int) (n : Nat) : Prop :=
  ∀ (i : Nat) (tbl : indirectTable) (s : AllocState) (m : Nat),
    s.allocSecNum + (m : Int) = needSecNum → 0 < m →
    treeSectors n (min m (32 ^ n)) ≤ s.freeMap.NumClear →
    ∃ (sec : Int) (new lv w : List Int),
      (allocStep (AllocSectorN needSecNum n) needSecNum i tbl s).1 = tbl.set i sec ∧
      Grows s (allocStep (AllocSectorN needSecNum n) needSecNum i tbl s).2 (sec :: new) lv w ∧
      (allocStep (AllocSectorN needSecNum n) needSecNum i tbl s).2.allocSecNum =
        s.allocSecNum + ((min m (32 ^ n) : Nat) : Int) ∧
      new.length + 1 = treeSectors n (min m (32 ^ n)) ∧
      lv.length = min m (32 ^ n) ∧
      ∀ d : SynchDisk,
        (∀ x ∈ sec :: new,
          d x = (allocStep (AllocSectorN needSecNum n) needSecNum i tbl s).2.disk x) →
        ∀ j, j < lv.length →
          ∃ path, walkFrom d n sec j = (path, lv[j]?) ∧ path.length = n ∧ ∀ x ∈ path, x ∈ w

/-- What the loop of `AllocSector` achieves from slot `i` on, with `k` slots left
and `m` leaves still to place. -/
def LoopSpec (needSecNum : Int) (n : Nat) : Prop :=
  ∀ (k i : Nat) (tbl : indirectTable) (s : AllocState) (m : Nat),
    s.allocSecNum + (m : Int) = needSecNum → i + k ≤ tbl.length →
    treeSectors n (min m (k * 32 ^ n)) ≤ s.freeMap.NumClear →
    ∃ (new lv w : List Int),
      Grows s (allocLoop (AllocSectorN needSecNum n) needSecNum k i tbl s).2 new lv w ∧
      (allocLoop (AllocSectorN needSecNum n) needSecNum k i tbl s).2.allocSecNum =
        s.allocSecNum + ((min m (k * 32 ^ n) : Nat) : Int) ∧
      new.length = treeSectors n (min m (k * 32 ^ n)) ∧
      lv.length = min m (k * 32 ^ n) ∧
      (allocLoop (AllocSectorN needSecNum n) needSecNum k i tbl s).1.length = tbl.length ∧
      (∀ i', i' < i →
        (allocLoop (AllocSectorN needSecNum n) needSecNum k i tbl s).1[i']? = tbl[i']?) ∧
      ∀ d : SynchDisk,
        (∀ x ∈ new,
          d x = (allocLoop (AllocSectorN needSecNum n) needSecNum k i tbl s).2.disk x) →
        ∀ j, j < lv.length →
          ∃ sec path,
            (allocLoop (AllocSectorN needSecNum n) needSecNum k i tbl s).1[i + j / 32 ^ n]? =
              some sec ∧
            walkFrom d n sec (j % 32 ^ n) = (path, lv[j]?) ∧ path.length = n ∧
            ∀ x ∈ path, x ∈ w

/-- Number of sectors of the whole tree of a file of `fileSize` bytes: its
`sectorCount` leaves plus, for `k = 1..treeDepth`, `ceil(sectorCount / 32^k)`
indirection nodes, the last of them the root. -/
def sectorsNeeded (fileSize : Int) : Nat :=
  treeSectors (log32 (divRoundUp fileSize SectorSize) + 1).toNat
    (divRoundUp fileSize SectorSize).toNat

/-! ## Concrete worlds used to instantiate the theorems -/

/-- A disk whose sectors all hold zeros. -/
def zeroDisk : SynchDisk := fun _ => List.replicate NumInDirect 0

/-- A free map over 40 sectors, all clear. -/
def clearMap40 : PersistentBitmap := ⟨List.replicate 40 false, by decide⟩

/-- A free map over 8 sectors of which only the last is clear. -/
def lastFreeMap8 : PersistentBitmap :=
  ⟨[true, true, true, true, true, true, true, false], by decide⟩

/-- A free map over 8 sectors, all marked. -/
def fullMap8 : PersistentBitmap := ⟨List.replicate 8 true, by decide⟩

/-- The arguments `(secNum, LvlNum)` of the successive calls of `GetSector`, the
outermost first, under the same bound on the recursion depth as `GetSectorF`. -/
def GetSectorCallsF (disk : SynchDisk) : Nat → Int → Int → indirectTable → List (Int × Int)
  | 0, secNum, LvlNum, _ => [(secNum, LvlNum)]
  | fuel + 1, secNum, LvlNum, tbl =>
    if LvlNum = 0 then [(secNum, LvlNum)]
    else
      let thesector := secNum.tdiv LvlNum
      let nextlevl := secNum.tmod LvlNum
      if LvlNum = 1 then [(secNum, LvlNum)]
      else
        match slot tbl thesector with
        | none => [(secNum, LvlNum)]
        | some sec =>
          (secNum, LvlNum) ::
            GetSectorCallsF disk fuel nextlevl (LvlNum.tdiv NumInDirect) (disk.ReadSector sec)

/-- The calls of `GetSector` made by `GetSector(secNum, LvlNum, tbl)`, itself included. -/
def GetSectorCalls (disk : SynchDisk) (secNum LvlNum : Int) (tbl : indirectTable) :
    List (Int × Int) :=
  GetSectorCallsF disk LvlNum.natAbs secNum LvlNum tbl

/-- The calls of `GetSector` made by `ByteToSector(offset)`. -/
def ByteToSectorCalls (hdr : FileHeader) (disk : SynchDisk) (offset : Int) : List (Int × Int) :=
  GetSectorCalls disk (offset.tdiv SectorSize) (powNumInDirect (hdr.numLevel - 1))
    (disk.ReadSector (hdr.dataSectors.getD 0 (-1)))

/-- What `Print` emits for one byte of the file contents: `chr` for `printf("%c", ...)`,
`esc` for `printf("\\%x", (unsigned char) ...)`. -/
inductive Glyph where
  | chr (c : Nat) : Glyph
  | esc (b : Nat) : Glyph
deriving DecidableEq, Repr

/-- The byte `data[j]` of a sector buffer, as an unsigned value; the sector's words are
32-bit little-endian. -/
def sectorByte (data : List Int) (j : Nat) : Nat :=
  ((data.getD (j / 4) 0 % 4294967296).toNat / 256 ^ (j % 4)) % 256

/-- The test `'\040' <= data[j] && data[j] <= '\176'` and the two `printf` branches. -/
def renderByte (b : Nat) : Glyph :=
  if 32 ≤ b ∧ b ≤ 126 then Glyph.chr b else Glyph.esc b

/-- The inner loop of `Print` over `j`, with `SectorSize - j` iterations left; returns
the glyphs of the line and the final `k`. -/
def printBytes (data : List Int) (numBytes : Int) : Nat → Nat → Int → List Glyph × Int
  | 0, _, k => ([], k)
  | left + 1, j, k =>
    if k < numBytes then
      let r := printBytes data numBytes left (j + 1) (k + 1)
      (renderByte (sectorByte data j) :: r.1, r.2)
    else ([], k)

/-- The output of `Print`: the file size and the block numbers of the header lines, the
sectors read, and one line of glyphs per sector read. -/
structure PrintOutput where
  fileSize : Int
  blocks : List Int
  readSecs : List Int
  contents : List (List Glyph)
deriving DecidableEq, Repr

/-- The second outer loop of `Print` from `i` on with `numSectors - i` iterations left;
`none` stands for an index `i` outside `dataSectors`. -/
def printLoop (hdr : FileHeader) (disk : SynchDisk) :
    Nat → Nat → Int → Option (List Int × List (List Glyph))
  | 0, _, _ => some ([], [])
  | left + 1, i, k =>
    match hdr.dataSectors[i]? with
    | none => none
    | some sec =>
      let data := disk.ReadSector sec
      let r := printBytes data hdr.numBytes SectorSize.toNat 0 k
      match printLoop hdr disk left (i + 1) r.2 with
      | none => none
      | some rest => some (sec :: rest.1, r.1 :: rest.2)

/-- `FileHeader::Print()`; `none` stands for an index outside `dataSectors`. -/
def Print (hdr : FileHeader) (disk : SynchDisk) : Option PrintOutput :=
  if hdr.numSectors.toNat ≤ hdr.dataSectors.length then
    match printLoop hdr disk hdr.numSectors.toNat 0 0 with
    | none => none
    | some r =>
      some { fileSize := hdr.numBytes
             blocks := hdr.dataSectors.take hdr.numSectors.toNat
             readSecs := r.1
             contents := r.2 }
  else none
/-! ## The tree built by `Allocate`, as a value -/

/-- A left-to-right list of sibling subtrees: `cons sec kids rest` is a slot holding
the sector `sec`, the slots `kids` of the table stored in `sec` (none for a leaf), and
the slots `rest` that follow it in the same table. -/
inductive Forest where
  | nil : Forest
  | cons (sec : Int) (kids : Forest) (rest : Forest) : Forest

namespace Forest

/-- The sectors held by the slots themselves, left to right. -/
def roots : Forest → List Int
  | nil => []
  | cons s _ r => s :: roots r

/-- All sectors, each slot before its subtree, left to right. -/
def pre : Forest → List Int
  | nil => []
  | cons s k r => s :: (pre k ++ pre r)

/-- The leaves below slots of height `t`, left to right. -/
def leavesAt : Nat → Forest → List Int
  | _, nil => []
  | 0, cons s _ r => s :: leavesAt 0 r
  | t + 1, cons _ k r => leavesAt t k ++ leavesAt (t + 1) r

/-- The indirection nodes below slots of height `t`, each after the nodes of its
subtree, left to right. -/
def nodesPost : Nat → Forest → List Int
  | _, nil => []
  | 0, cons _ _ r => nodesPost 0 r
  | t + 1, cons s k r => nodesPost t k ++ [s] ++ nodesPost (t + 1) r

/-- All sectors below slots of height `t`, each after its subtree, left to right. -/
def post : Nat → Forest → List Int
  | _, nil => []
  | 0, cons s _ r => s :: post 0 r
  | t + 1, cons s k r => post t k ++ [s] ++ post (t + 1) r

/-- Concatenation of two sibling lists. -/
def append : Forest → Forest → Forest
  | nil, g => g
  | cons s k r, g => cons s k (append r g)

/-- The slots one level down: the children of all siblings, left to right. -/
def kidsAll : Forest → Forest
  | nil => nil
  | cons _ k r => append k (kidsAll r)

/-- The slots `d` levels down. -/
def down : Nat → Forest → Forest
  | 0, f => f
  | d + 1, f => down d (kidsAll f)

/-- For each sibling, the number of its children. -/
def kidCounts : Forest → List Nat
  | nil => []
  | cons _ k r => (roots k).length :: kidCounts r

end Forest

/-- A table whose first slots hold `l` and whose remaining slots are unset. -/
def padded (l : List Int) : indirectTable := l ++ List.replicate (NumInDirect - l.length) (-1)

/-- The disk `d` stores the forest: below slots of height `t + 1`, the sector of every
slot holds the table of its children; slots of height 0 are leaves. -/
def OnDisk (d : SynchDisk) : Nat → Forest → Prop
  | _, Forest.nil => True
  | 0, Forest.cons _ k r => k = Forest.nil ∧ OnDisk d 0 r
  | t + 1, Forest.cons s k r => d s = padded (Forest.roots k) ∧ OnDisk d t k ∧ OnDisk d (t + 1) r

/-- A sibling list of height `t` holding `m` leaves in all, filled from the left: each
subtree takes `min m 32^t` of the leaves still to place. -/
def Shape : Nat → Forest → Nat → Prop
  | _, Forest.nil, m => m = 0
  | 0, Forest.cons _ k r, m => k = Forest.nil ∧ 0 < m ∧ Shape 0 r (m - 1)
  | t + 1, Forest.cons _ k r, m =>
    0 < m ∧ Shape t k (min m (32 ^ (t + 1))) ∧ Shape (t + 1) r (m - min m (32 ^ (t + 1)))

/-- The populated slots of a table: those that do not hold -1. -/
def populated (tbl : List Int) : List Int := tbl.filter (fun x => x ≠ -1)

/-- The sectors found `d` levels below the nodes `secs` by following the populated
slots of their tables on disk, left to right. -/
def levelNodes (disk : SynchDisk) : Nat → List Int → List Int
  | 0, secs => secs
  | d + 1, secs => levelNodes disk d (secs.flatMap (fun s => populated (disk s)))

/-- The sectors reachable below slots of height `t` holding `slots`, each slot before
its subtree, by following the populated slots of the tables on disk. -/
def treeSecs (disk : SynchDisk) : Nat → List Int → List Int
  | 0, slots => populated slots
  | t + 1, slots => (populated slots).flatMap (fun s => s :: treeSecs disk t (disk s))
/-- What one pass of the loop body of `AllocSector` builds at a slot whose subtree has
height `n`, under the hypotheses of `StepSpec`: a tree `cons sec kids nil` whose sectors
in slot-first order are the sectors claimed, whose leaves and nodes are the leaves placed
and the sectors written, in order, which is filled from the left, which is stored on
every disk that agrees with the resulting one on its sectors, and whose nodes on the way
to any of its leaves were written deepest first. -/
def StepTree (needSecNum : Int) (n : Nat) : Prop :=
  ∀ (i : Nat) (tbl : indirectTable) (s : AllocState) (m : Nat),
    s.allocSecNum + (m : Int) = needSecNum → 0 < m →
    treeSectors n (min m (32 ^ n)) ≤ s.freeMap.NumClear →
    ∃ (sec : Int) (kids : Forest),
      (allocStep (AllocSectorN needSecNum n) needSecNum i tbl s).1 = tbl.set i sec ∧
      (allocStep (AllocSectorN needSecNum n) needSecNum i tbl s).2.claimed =
        s.claimed ++ Forest.pre (Forest.cons sec kids Forest.nil) ∧
      (allocStep (AllocSectorN needSecNum n) needSecNum i tbl s).2.leaves =
        s.leaves ++ Forest.leavesAt n (Forest.cons sec kids Forest.nil) ∧
      (allocStep (AllocSectorN needSecNum n) needSecNum i tbl s).2.written =
        s.written ++ Forest.nodesPost n (Forest.cons sec kids Forest.nil) ∧
      Shape n (Forest.cons sec kids Forest.nil) (min m (32 ^ n)) ∧
      ∀ d : SynchDisk,
        (∀ x ∈ Forest.pre (Forest.cons sec kids Forest.nil),
          d x = (allocStep (AllocSectorN needSecNum n) needSecNum i tbl s).2.disk x) →
        OnDisk d n (Forest.cons sec kids Forest.nil) ∧
        ∀ j, j < (Forest.leavesAt n (Forest.cons sec kids Forest.nil)).length →
          (walkFrom d n sec j).1.reverse.Sublist
            (Forest.nodesPost n (Forest.cons sec kids Forest.nil))

/-- What the loop of `AllocSector` builds from slot `i` on, under the hypotheses of
`LoopSpec`: a sibling list `f` whose roots fill the slots from `i` on, the other slots
of the table being left as they were. -/
def LoopTree (needSecNum : Int) (n : Nat) : Prop :=
  ∀ (k i : Nat) (tbl : indirectTable) (s : AllocState) (m : Nat),
    s.allocSecNum + (m : Int) = needSecNum → i + k ≤ tbl.length →
    treeSectors n (min m (k * 32 ^ n)) ≤ s.freeMap.NumClear →
    ∃ f : Forest,
      (allocLoop (AllocSectorN needSecNum n) needSecNum k i tbl s).2.claimed =
        s.claimed ++ Forest.pre f ∧
      (allocLoop (AllocSectorN needSecNum n) needSecNum k i tbl s).2.leaves =
        s.leaves ++ Forest.leavesAt n f ∧
      (allocLoop (AllocSectorN needSecNum n) needSecNum k i tbl s).2.written =
        s.written ++ Forest.nodesPost n f ∧
      Shape n f (min m (k * 32 ^ n)) ∧
      (Forest.roots f).length ≤ k ∧
      (∀ j, j < (Forest.roots f).length →
        (allocLoop (AllocSectorN needSecNum n) needSecNum k i tbl s).1[i + j]? =
          (Forest.roots f)[j]?) ∧
      (∀ idx, i + (Forest.roots f).length ≤ idx →
        (allocLoop (AllocSectorN needSecNum n) needSecNum k i tbl s).1[idx]? = tbl[idx]?) ∧
      ∀ d : SynchDisk,
        (∀ x ∈ Forest.pre f,
          d x = (allocLoop (AllocSectorN needSecNum n) needSecNum k i tbl s).2.disk x) →
        OnDisk d n f ∧
        ∀ j, j < (Forest.leavesAt n f).length →
          ∃ c, (allocLoop (AllocSectorN needSecNum n) needSecNum k i tbl s).1[i + j / 32 ^ n]? =
              some c ∧
            (walkFrom d n c (j % 32 ^ n)).1.reverse.Sublist (Forest.nodesPost n f)

/-! ## Header record and rounding -/

theorem divRoundUp_eq_ceil (n : Int) :
    divRoundUp n SectorSize = ⌈(n : ℚ) / 128⌉ := by
  unfold divRoundUp SectorSize
  have h : ((-n) / 128 : Int) = ⌊((-n : Int) : ℚ) / ((128 : ℕ) : ℚ)⌋ := by
    rw [Rat.floor_intCast_div_natCast]; rfl
  rw [h, ← Int.ceil_neg]
  push_cast
  rw [neg_div, neg_neg]

theorem getD_image_dataSectors (h : FileHeader) (i : Nat) (hi : i < NumDirect) :
    h.image.getD (2 + i) 0 = h.dataSectors.getD i 0 := by
  have hw := h.wf
  unfold FileHeader.image
  rw [List.append_assoc, List.getD_eq_getElem?_getD, List.getD_eq_getElem?_getD,
    List.getElem?_append_right (by simp), List.getElem?_append_left (by simp; omega)]
  simp

theorem ofImage_image (h : FileHeader) : FileHeader.ofImage h.image = h := by
  have hw := h.wf
  have e1 : h.image.getD 0 0 = h.numBytes := by simp [FileHeader.image]
  have e2 : h.image.getD 1 0 = h.numSectors := by simp [FileHeader.image]
  have e3 : h.image.getD (2 + NumDirect) 0 = h.fileDescriptor := by
    unfold FileHeader.image
    rw [List.getD_eq_getElem?_getD, List.getElem?_append_right (by simp; omega)]
    have : 2 + NumDirect - ([h.numBytes, h.numSectors] ++ h.dataSectors).length = 0 := by
      simp; omega
    rw [this]; rfl
  have e4 : h.image.getD (3 + NumDirect) 0 = h.numLevel := by
    unfold FileHeader.image
    rw [List.getD_eq_getElem?_getD, List.getElem?_append_right (by simp; omega)]
    have : 3 + NumDirect - ([h.numBytes, h.numSectors] ++ h.dataSectors).length = 1 := by
      simp; omega
    rw [this]; rfl
  have e5 : (List.range NumDirect).map (fun i => h.image.getD (2 + i) 0) = h.dataSectors := by
    apply List.ext_getElem
    · simp [hw]
    · intro i h1 h2
      rw [List.getElem_map, List.getElem_range, getD_image_dataSectors h i (by omega),
        List.getD_eq_getElem?_getD, List.getElem?_eq_getElem h2]
      rfl
  cases h with
  | mk nb ns ds fd nl wf =>
    simp only [FileHeader.ofImage, FileHeader.mk.injEq]
    exact ⟨e1, e2, e5, e3, e4⟩
/-! ## The free map -/

theorem firstClear_none {l : List Bool} (h : firstClear l = none) : l.count false = 0 := by
  induction l with
  | nil => rfl
  | cons a r ih =>
    cases a with
    | false => simp [firstClear] at h
    | true =>
      simp only [firstClear, Option.map_eq_none'] at h
      simpa using ih h

theorem firstClear_some {l : List Bool} {i : Nat} (h : firstClear l = some i) :
    i < l.length ∧ l.getD i false = false ∧ (l.set i true).count false + 1 = l.count false ∧
      (l.set i true).getD i false = true ∧
      ∀ j, j ≠ i → (l.set i true).getD j false = l.getD j false := by
  induction l generalizing i with
  | nil => simp [firstClear] at h
  | cons a r ih =>
    cases a with
    | false =>
      simp only [firstClear, Option.some.injEq] at h
      subst h
      refine ⟨by simp, by simp, by simp, by simp, ?_⟩
      intro j hj
      cases j with
      | zero => exact absurd rfl hj
      | succ j => simp
    | true =>
      simp only [firstClear, Option.map_eq_some'] at h
      obtain ⟨i', hi', rfl⟩ := h
      obtain ⟨h1, h2, h3, h4, h5⟩ := ih hi'
      refine ⟨by simpa using h1, by simpa using h2, by simpa using h3, by simpa using h4, ?_⟩
      intro j hj
      cases j with
      | zero => simp
      | succ j =>
        have := h5 j (by omega)
        simpa using this

theorem FindAndSet_spec (b : PersistentBitmap) (h : 0 < b.NumClear) :
    0 ≤ b.FindAndSet.1 ∧ b.Test b.FindAndSet.1 = false ∧
      b.FindAndSet.2.Test b.FindAndSet.1 = true ∧
      (∀ t, t ≠ b.FindAndSet.1 → b.FindAndSet.2.Test t = b.Test t) ∧
      b.FindAndSet.2.NumClear + 1 = b.NumClear := by
  unfold PersistentBitmap.NumClear at h
  cases hf : firstClear b.map with
  | none => rw [firstClear_none hf] at h; exact absurd h (by decide)
  | some i =>
    obtain ⟨h1, h2, h3, h4, h5⟩ := firstClear_some hf
    simp only [List.getD_eq_getElem?_getD] at h2 h4 h5
    simp only [PersistentBitmap.FindAndSet, hf, PersistentBitmap.Test, PersistentBitmap.NumClear]
    refine ⟨by omega, by simp [h2], by simp [h4], ?_, h3⟩
    intro t ht
    by_cases h0 : 0 ≤ t
    · have : t.toNat ≠ i := by omega
      simp [h0, h5 _ this]
    · simp [h0]

theorem FindAndSet_none (b : PersistentBitmap) (h : b.NumClear = 0) : b.FindAndSet = (-1, b) := by
  unfold PersistentBitmap.NumClear at h
  cases hf : firstClear b.map with
  | none => simp [PersistentBitmap.FindAndSet, hf]
  | some i =>
    obtain ⟨_, _, h3, _⟩ := firstClear_some hf
    omega
/-! ## Arithmetic of the tree shape -/

theorem ceilQuot_zero (P : Nat) : (0 + P - 1) / P = 0 := by
  rcases Nat.eq_zero_or_pos P with h | h
  · subst h; simp
  · apply Nat.div_eq_of_lt; omega

theorem ceilQuot_one {x P : Nat} (h0 : 0 < x) (h1 : x ≤ P) : (x + P - 1) / P = 1 := by
  have hP : 0 < P := by omega
  apply Nat.div_eq_of_lt_le <;> omega

theorem ceilQuot_add_of_dvd {a r P : Nat} (hP : 0 < P) (h : P ∣ a) :
    (a + r + P - 1) / P = a / P + (r + P - 1) / P := by
  obtain ⟨c, rfl⟩ := h
  rw [Nat.mul_div_cancel_left c hP]
  have : P * c + r + P - 1 = (r + P - 1) + P * c := by omega
  rw [this, Nat.add_mul_div_left _ _ hP]; omega

theorem ceilQuot_of_dvd {a P : Nat} (hP : 0 < P) (h : P ∣ a) : (a + P - 1) / P = a / P := by
  have := ceilQuot_add_of_dvd (r := 0) hP h
  rw [ceilQuot_zero] at this
  simpa using this

theorem treeSectors_zero (n : Nat) : treeSectors n 0 = 0 := by
  induction n with
  | zero => rfl
  | succ n ih => rw [treeSectors, ih, ceilQuot_zero]

theorem le_treeSectors (n x : Nat) : x ≤ treeSectors n x := by
  induction n with
  | zero => exact le_refl _
  | succ n ih => rw [treeSectors]; exact Nat.le_add_right_of_le ih

theorem treeSectors_add (n a r : Nat) (h : 32 ^ n ∣ a) :
    treeSectors n (a + r) = treeSectors n a + treeSectors n r := by
  induction n with
  | zero => rfl
  | succ n ih =>
    have hd : 32 ^ n ∣ a := Dvd.dvd.trans (pow_dvd_pow 32 (Nat.le_succ n)) h
    have hP : 0 < 32 ^ (n + 1) := Nat.pow_pos (by decide)
    rw [treeSectors, treeSectors, treeSectors, ih hd, ceilQuot_add_of_dvd hP h,
      ceilQuot_of_dvd hP h]
    omega

theorem treeSectors_succ {n x : Nat} (h0 : 0 < x) (h1 : x ≤ 32 ^ (n + 1)) :
    treeSectors (n + 1) x = treeSectors n x + 1 := by
  rw [treeSectors, ceilQuot_one h0 h1]

/-- Splitting the leaves of a loop over `k + 1` slots into the first slot and the rest. -/
theorem treeSectors_split (n k m : Nat) :
    treeSectors n (min m ((k + 1) * 32 ^ n)) =
      treeSectors n (min m (32 ^ n)) + treeSectors n (min (m - min m (32 ^ n)) (k * 32 ^ n)) := by
  have hB : 0 < 32 ^ n := Nat.pow_pos (by decide)
  generalize hBe : 32 ^ n = B at *
  rcases Nat.le_total m B with h | h
  · have e1 : min m B = m := Nat.min_eq_left h
    have e2 : min m ((k + 1) * B) = m := by
      apply Nat.min_eq_left
      calc m ≤ B := h
        _ ≤ (k + 1) * B := Nat.le_mul_of_pos_left _ (by omega)
    rw [e1, e2, Nat.sub_self, Nat.zero_min, treeSectors_zero]; rfl
  · have e1 : min m B = B := Nat.min_eq_right h
    have e2 : min m ((k + 1) * B) = B + min (m - B) (k * B) := by
      rw [Nat.add_mul, Nat.one_mul]; omega
    rw [e1, e2, treeSectors_add n B _ (by rw [hBe])]

theorem min_split (B k m : Nat) :
    min m ((k + 1) * B) = min m B + min (m - min m B) (k * B) := by
  rw [Nat.add_mul, Nat.one_mul]; omega

theorem log32Aux_spec (fuel n : Nat) (h : n ≤ fuel) (h1 : 1 ≤ n) :
    32 ^ log32Aux fuel n ≤ n ∧ n < 32 ^ (log32Aux fuel n + 1) := by
  induction fuel generalizing n with
  | zero => omega
  | succ f ih =>
    unfold log32Aux
    by_cases hn : n < 32
    · simp [hn]; omega
    · simp only [hn, if_false]
      have := ih (n / 32) (by omega) (by omega)
      rw [Nat.pow_succ, Nat.pow_succ]
      constructor <;> omega

theorem log32Aux_eq_log (fuel n : Nat) (h : n ≤ fuel) (h1 : 1 ≤ n) :
    log32Aux fuel n = Nat.log 32 n := by
  obtain ⟨h2, h3⟩ := log32Aux_spec fuel n h h1
  exact (Nat.log_eq_of_pow_le_of_lt_pow h2 h3).symm
/-! ## `GetSector` on powers of 32 -/

theorem slot_natCast (tbl : indirectTable) (q : Nat) : slot tbl (q : Int) = tbl[q]? := by
  unfold slot
  have : ¬ ((q : Int) < 0) := by omega
  simp [this]

theorem GetSectorF_pow (disk : SynchDisk) (t : Nat) :
    ∀ (fuel j : Nat) (tbl : indirectTable), t < fuel →
      GetSectorF disk fuel (j : Int) ((32 ^ t : Nat) : Int) tbl = lookup disk t tbl j := by
  induction t with
  | zero =>
    intro fuel j tbl hf
    obtain ⟨f, rfl⟩ : ∃ f, fuel = f + 1 := ⟨fuel - 1, by omega⟩
    simp only [GetSectorF, lookup, pow_zero, Nat.cast_one, one_ne_zero, if_false, if_true,
      Int.tdiv_one, slot_natCast, Nat.div_one, walkFrom]
    cases tbl[j]? <;> rfl
  | succ t ih =>
    intro fuel j tbl hf
    obtain ⟨f, rfl⟩ : ∃ f, fuel = f + 1 := ⟨fuel - 1, by omega⟩
    have hP : 0 < 32 ^ (t + 1) := Nat.pow_pos (by decide)
    have hP1 : 32 ^ (t + 1) ≠ 1 := by
      have : 1 < 32 ^ (t + 1) := Nat.one_lt_pow (by omega) (by decide)
      omega
    have h0 : ((32 ^ (t + 1) : Nat) : Int) ≠ 0 := by exact_mod_cast hP.ne'
    have h1 : ((32 ^ (t + 1) : Nat) : Int) ≠ 1 := by exact_mod_cast hP1
    have e1 : (j : Int).tdiv ((32 ^ (t + 1) : Nat) : Int) = ((j / 32 ^ (t + 1) : Nat) : Int) := by
      rw [Int.tdiv_eq_ediv (by omega) (by omega)]; norm_cast
    have e2 : (j : Int).tmod ((32 ^ (t + 1) : Nat) : Int) = ((j % 32 ^ (t + 1) : Nat) : Int) := by
      rw [Int.tmod_eq_emod (by omega) (by omega)]; norm_cast
    have e3 : ((32 ^ (t + 1) : Nat) : Int).tdiv (NumInDirect : Int) = ((32 ^ t : Nat) : Int) := by
      rw [Int.tdiv_eq_ediv (by omega) (by simp [NumInDirect])]
      have : 32 ^ (t + 1) / NumInDirect = 32 ^ t := by
        rw [Nat.pow_succ]; exact Nat.mul_div_cancel _ (by decide)
      exact_mod_cast this
    rw [GetSectorF]
    simp only [h0, h1, if_false, e1, e2, e3, slot_natCast]
    unfold lookup
    cases hs : tbl[j / 32 ^ (t + 1)]? with
    | none => rfl
    | some sec =>
      have ihs := ih f (j % 32 ^ (t + 1)) (disk sec) (by omega)
      simp only [SynchDisk.ReadSector, ihs, walkFrom, lookup]
      cases (disk sec)[j % 32 ^ (t + 1) / 32 ^ t]? <;> rfl

theorem GetSector_pow (disk : SynchDisk) (t j : Nat) (tbl : indirectTable) :
    GetSector disk (j : Int) ((32 ^ t : Nat) : Int) tbl = lookup disk t tbl j := by
  unfold GetSector
  apply GetSectorF_pow
  rw [Int.natAbs_ofNat]
  exact Nat.lt_pow_self (by decide) t
/-! ## Composition of allocation steps -/

theorem Grows.refl (s : AllocState) : Grows s s [] [] [] where
  claimed := by simp
  leaves := by simp
  written := by simp
  fresh := by simp
  nonneg := by simp
  nodup := List.nodup_nil
  test := by simp
  numClear := by simp
  disk := by simp
  lv_sub := by simp
  w_sub := by simp

theorem Grows.marked {s s' : AllocState} {new lv w : List Int} (h : Grows s s' new lv w)
    {x : Int} (hx : x ∈ new) : s'.freeMap.Test x = true := by
  rw [h.test]; simp [hx]

theorem Grows.trans {s s' s'' : AllocState} {n1 l1 w1 n2 l2 w2 : List Int}
    (h1 : Grows s s' n1 l1 w1) (h2 : Grows s' s'' n2 l2 w2) :
    Grows s s'' (n1 ++ n2) (l1 ++ l2) (w1 ++ w2) where
  claimed := by rw [h2.claimed, h1.claimed, List.append_assoc]
  leaves := by rw [h2.leaves, h1.leaves, List.append_assoc]
  written := by rw [h2.written, h1.written, List.append_assoc]
  fresh := by
    intro x hx
    rcases List.mem_append.1 hx with hx | hx
    · exact h1.fresh x hx
    · have := h2.fresh x hx
      rw [h1.test] at this
      simp only [Bool.or_eq_false_iff] at this
      exact this.1
  nonneg := by
    intro x hx
    rcases List.mem_append.1 hx with hx | hx
    · exact h1.nonneg x hx
    · exact h2.nonneg x hx
  nodup := by
    rw [List.nodup_append]
    refine ⟨h1.nodup, h2.nodup, ?_⟩
    intro x hx1 hx2
    have a := h1.marked hx1
    have b := h2.fresh x hx2
    rw [a] at b
    exact absurd b (by decide)
  test := by
    intro x
    rw [h2.test, h1.test]
    simp [Bool.or_assoc]
  numClear := by
    have a := h1.numClear
    have b := h2.numClear
    rw [List.length_append]; omega
  disk := by
    intro x hx
    rw [List.mem_append, not_or] at hx
    rw [h2.disk x hx.2, h1.disk x hx.1]
  lv_sub := by
    intro x hx
    rcases List.mem_append.1 hx with hx | hx
    · exact List.mem_append_left _ (h1.lv_sub x hx)
    · exact List.mem_append_right _ (h2.lv_sub x hx)
  w_sub := by
    intro x hx
    rcases List.mem_append.1 hx with hx | hx
    · exact List.mem_append_left _ (h1.w_sub x hx)
    · exact List.mem_append_right _ (h2.w_sub x hx)

theorem Grows.not_mem_of_marked {s s' : AllocState} {new lv w : List Int}
    (h : Grows s s' new lv w) {x : Int} (hx : s.freeMap.Test x = true) : x ∉ new := by
  intro hm
  have := h.fresh x hm
  rw [hx] at this
  exact absurd this (by decide)

/-- Claiming one sector with `FindAndSet` when the map has a clear bit. -/
theorem Grows.claim (s : AllocState) (h : 0 < s.freeMap.NumClear) :
    Grows s { s with freeMap := s.freeMap.FindAndSet.2,
                     claimed := s.claimed ++ [s.freeMap.FindAndSet.1] }
      [s.freeMap.FindAndSet.1] [] [] := by
  obtain ⟨h0, h1, h2, h3, h4⟩ := FindAndSet_spec s.freeMap h
  refine ⟨rfl, by simp, by simp, ?_, ?_, by simp, ?_, ?_, ?_, by simp, by simp⟩
  · intro x hx
    rw [List.mem_singleton] at hx
    subst hx; exact h1
  · intro x hx
    rw [List.mem_singleton] at hx
    subst hx; exact h0
  · intro x
    by_cases hx : x = s.freeMap.FindAndSet.1
    · subst hx; simp [h2]
    · simp [h3 x hx, hx]
  · simpa using h4
  · intro x _; rfl

/-- Writing a claimed sector. -/
theorem Grows.write {s s2 : AllocState} {new lv w : List Int} (h : Grows s s2 new lv w)
    (sec : Int) (data : List Int) (hs : sec ∈ new) :
    Grows s { s2 with disk := s2.disk.WriteSector sec data, written := s2.written ++ [sec] }
      new lv (w ++ [sec]) := by
  refine ⟨h.claimed, h.leaves, ?_, h.fresh, h.nonneg, h.nodup, h.test, h.numClear, ?_,
    h.lv_sub, ?_⟩
  · show s2.written ++ [sec] = s.written ++ (w ++ [sec])
    rw [h.written, List.append_assoc]
  · intro x hx
    have hne : x ≠ sec := fun e => hx (e ▸ hs)
    show s2.disk.WriteSector sec data x = s.disk x
    simp only [SynchDisk.WriteSector, hne, if_false]
    exact h.disk x hx
  · intro x hx
    rcases List.mem_append.1 hx with hx | hx
    · exact h.w_sub x hx
    · rw [List.mem_singleton] at hx; exact hx ▸ hs

/-- Counting a claimed sector as a leaf. -/
theorem Grows.leaf {s s2 : AllocState} {new lv w : List Int} (h : Grows s s2 new lv w)
    (sec : Int) (hs : sec ∈ new) :
    Grows s { s2 with allocSecNum := s2.allocSecNum + 1, leaves := s2.leaves ++ [sec] }
      new (lv ++ [sec]) w := by
  refine ⟨h.claimed, ?_, h.written, h.fresh, h.nonneg, h.nodup, h.test, h.numClear, h.disk,
    ?_, h.w_sub⟩
  · show s2.leaves ++ [sec] = s.leaves ++ (lv ++ [sec])
    rw [h.leaves, List.append_assoc]
  · intro x hx
    rcases List.mem_append.1 hx with hx | hx
    · exact h.lv_sub x hx
    · rw [List.mem_singleton] at hx; exact hx ▸ hs
/-! ## The recursion of `AllocSector` -/

theorem stepSpec_zero (need : Int) : StepSpec need 0 := by
  intro i tbl s m hm hpos hfree
  have hm1 : min m (32 ^ 0) = 1 := by simp; omega
  rw [hm1] at hfree ⊢
  have hclear : 0 < s.freeMap.NumClear := by
    have : treeSectors 0 1 = 1 := rfl
    omega
  have hg := Grows.claim s hclear
  have hlt : s.allocSecNum < need := by omega
  refine ⟨s.freeMap.FindAndSet.1, [], [s.freeMap.FindAndSet.1], [], ?_, ?_, ?_, rfl, rfl, ?_⟩
  · rfl
  · have := hg.leaf s.freeMap.FindAndSet.1 (List.mem_singleton.2 rfl)
    simpa [allocStep, AllocSectorN, hlt] using this
  · simp [allocStep, AllocSectorN, hlt]
  · intro d _ j hj
    have : j = 0 := by simpa using hj
    subst this
    exact ⟨[], rfl, rfl, by simp⟩
theorem loopSpec_of_stepSpec (need : Int) (n : Nat) (hstep : StepSpec need n) :
    LoopSpec need n := by
  intro k
  induction k with
  | zero =>
    intro i tbl s m hm hlen hfree
    refine ⟨[], [], [], ?_, ?_, ?_, ?_, rfl, fun _ _ => rfl, ?_⟩
    · exact Grows.refl s
    · simp [allocLoop]
    · simp [treeSectors_zero]
    · simp
    · intro d _ j hj
      simp at hj
  | succ k ih =>
    intro i tbl s m hm hlen hfree
    have hB : 0 < 32 ^ n := Nat.pow_pos (by decide)
    rcases Nat.eq_zero_or_pos m with hm0 | hpos
    · subst hm0
      have hnlt : ¬ s.allocSecNum < need := by omega
      refine ⟨[], [], [], ?_, ?_, ?_, ?_, ?_, ?_, ?_⟩
      · simpa [allocLoop, hnlt] using Grows.refl s
      · simp [allocLoop, hnlt]
      · simp [treeSectors_zero]
      · simp
      · simp [allocLoop, hnlt]
      · intro i' _; simp [allocLoop, hnlt]
      · intro d _ j hj
        simp at hj
    · have hlt : s.allocSecNum < need := by omega
      rw [treeSectors_split] at hfree
      obtain ⟨sec, new1, lv1, w1, ht1, hg1, ha1, hn1, hl1, hwalk1⟩ :=
        hstep i tbl s m hm hpos (by omega)
      have hrw : allocLoop (AllocSectorN need n) need (k + 1) i tbl s =
          allocLoop (AllocSectorN need n) need k (i + 1)
            (allocStep (AllocSectorN need n) need i tbl s).1
            (allocStep (AllocSectorN need n) need i tbl s).2 := by
        simp [allocLoop, hlt]
      rw [hrw]
      generalize allocStep (AllocSectorN need n) need i tbl s = r1 at *
      obtain ⟨tbl1, s1⟩ := r1
      simp only at ht1 hg1 ha1 hwalk1
      subst ht1
      have hnc := hg1.numClear
      simp only [List.length_cons] at hnc
      obtain ⟨new2, lv2, w2, hg2, ha2, hn2, hl2, hlen2, hpre2, hwalk2⟩ :=
        ih (i + 1) (tbl.set i sec) s1 (m - min m (32 ^ n)) (by rw [ha1]; omega)
          (by rw [List.length_set]; omega) (by omega)
      generalize allocLoop (AllocSectorN need n) need k (i + 1) (tbl.set i sec) s1 = r2 at *
      obtain ⟨tbl2, s2⟩ := r2
      simp only at hg2 ha2 hlen2 hpre2 hwalk2
      have hg := hg1.trans hg2
      refine ⟨(sec :: new1) ++ new2, lv1 ++ lv2, w1 ++ w2, hg, ?_, ?_, ?_, ?_, ?_, ?_⟩
      · rw [ha2, ha1, min_split]; push_cast; ring
      · rw [treeSectors_split, List.length_append, List.length_cons]; omega
      · rw [List.length_append, hl1, hl2, min_split]
      · rw [hlen2, List.length_set]
      · intro i' hi'
        rw [hpre2 i' (by omega), List.getElem?_set]
        have : i ≠ i' := by omega
        simp [this]
      · intro d hd j hj
        by_cases hj1 : j < lv1.length
        · have hjB : j < 32 ^ n := by rw [hl1] at hj1; omega
          obtain ⟨path, hp1, hp2, hp3⟩ := hwalk1 d (by
            intro x hx
            rw [hd x (List.mem_append_left _ hx)]
            apply hg2.disk
            intro hx2
            exact (List.nodup_append.1 hg.nodup).2.2 hx hx2) j hj1
          refine ⟨sec, path, ?_, ?_, hp2, fun x hx => List.mem_append_left _ (hp3 x hx)⟩
          · rw [Nat.div_eq_of_lt hjB, Nat.add_zero, hpre2 i (by omega), List.getElem?_set]
            have : i < tbl.length := by omega
            simp [this]
          · rw [Nat.mod_eq_of_lt hjB, List.getElem?_append_left hj1]
            exact hp1
        · have hl1B : lv1.length = 32 ^ n := by
            rw [List.length_append, hl2] at hj
            rw [hl1] at hj ⊢
            omega
          have hj2 : j - 32 ^ n < lv2.length := by
            rw [List.length_append] at hj; omega
          obtain ⟨sec', path, hs1, hp1, hp2, hp3⟩ := hwalk2 d (by
            intro x hx
            exact hd x (List.mem_append_right _ hx)) (j - 32 ^ n) hj2
          have hje : j = (j - 32 ^ n) + 32 ^ n := by omega
          refine ⟨sec', path, ?_, ?_, hp2, fun x hx => List.mem_append_right _ (hp3 x hx)⟩
          · rw [hje, Nat.add_div_right _ hB, ← hs1]
            congr 1
            omega
          · rw [hje, Nat.add_mod_right, List.getElem?_append_right (by omega), hl1B]
            rw [← hje]
            exact hp1
theorem stepSpec_succ (need : Int) (n : Nat) (hloop : LoopSpec need n) :
    StepSpec need (n + 1) := by
  intro i tbl s m hm hpos hfree
  have hB : 0 < 32 ^ (n + 1) := Nat.pow_pos (by decide)
  have hx0 : 0 < min m (32 ^ (n + 1)) := by omega
  rw [treeSectors_succ hx0 (Nat.min_le_right _ _)] at hfree ⊢
  have hclear : 0 < s.freeMap.NumClear := by omega
  have hg0 := Grows.claim s hclear
  have hne : s.allocSecNum ≠ need := by omega
  have hpow : 32 ^ (n + 1) = NumInDirect * 32 ^ n := by
    rw [Nat.pow_succ, Nat.mul_comm]; rfl
  have hnc0 := hg0.numClear
  simp only [List.length_singleton] at hnc0
  obtain ⟨new, lv, w, hg, ha, hn, hl, hlen, _, hwalk⟩ :=
    hloop NumInDirect 0 emptyTable
      { s with freeMap := s.freeMap.FindAndSet.2,
               claimed := s.claimed ++ [s.freeMap.FindAndSet.1] } m hm
      (by simp [emptyTable]) (by
        rw [← hpow]
        show _ ≤ s.freeMap.FindAndSet.2.NumClear
        omega)
  have hstep : allocStep (AllocSectorN need (n + 1)) need i tbl s =
      (tbl.set i s.freeMap.FindAndSet.1,
        { (allocLoop (AllocSectorN need n) need NumInDirect 0 emptyTable
            { s with freeMap := s.freeMap.FindAndSet.2,
                     claimed := s.claimed ++ [s.freeMap.FindAndSet.1] }).2 with
          disk := (allocLoop (AllocSectorN need n) need NumInDirect 0 emptyTable
            { s with freeMap := s.freeMap.FindAndSet.2,
                     claimed := s.claimed ++ [s.freeMap.FindAndSet.1] }).2.disk.WriteSector
              s.freeMap.FindAndSet.1
              (allocLoop (AllocSectorN need n) need NumInDirect 0 emptyTable
                { s with freeMap := s.freeMap.FindAndSet.2,
                         claimed := s.claimed ++ [s.freeMap.FindAndSet.1] }).1
          written := (allocLoop (AllocSectorN need n) need NumInDirect 0 emptyTable
            { s with freeMap := s.freeMap.FindAndSet.2,
                     claimed := s.claimed ++ [s.freeMap.FindAndSet.1] }).2.written ++
              [s.freeMap.FindAndSet.1] }) := by
    simp [allocStep, AllocSectorN, hne]
  rw [hstep]
  generalize allocLoop (AllocSectorN need n) need NumInDirect 0 emptyTable
      { s with freeMap := s.freeMap.FindAndSet.2,
               claimed := s.claimed ++ [s.freeMap.FindAndSet.1] } = r at *
  obtain ⟨tbl', s2⟩ := r
  simp only at hg ha hlen hwalk ⊢
  generalize s.freeMap.FindAndSet.1 = sec at *
  have hg1 := (hg0.trans hg).write sec tbl' (List.mem_append_left _ (List.mem_singleton.2 rfl))
  have hsec : sec ∉ new := hg.not_mem_of_marked (hg0.marked (List.mem_singleton.2 rfl))
  rw [← hpow] at ha hn hl
  refine ⟨sec, new, lv, w ++ [sec], rfl, ?_, ?_, ?_, hl, ?_⟩
  · simpa using hg1
  · rw [ha]
  · rw [hn]
  · intro d hd j hj
    obtain ⟨c, path, hc, hp1, hp2, hp3⟩ := hwalk d (by
      intro x hx
      rw [hd x (List.mem_cons_of_mem _ hx)]
      have : x ≠ sec := fun e => hsec (e ▸ hx)
      simp [SynchDisk.WriteSector, this]) j hj
    have hdsec : d sec = tbl' := by
      rw [hd sec (List.mem_cons_self _ _)]
      simp [SynchDisk.WriteSector]
    rw [Nat.zero_add] at hc
    refine ⟨sec :: path, ?_, by simp [hp2], ?_⟩
    · simp only [walkFrom, hdsec, hc, hp1]
    · intro x hx
      rcases List.mem_cons.1 hx with hx | hx
      · subst hx; simp
      · exact List.mem_append_left _ (hp3 x hx)

theorem stepSpec_all (need : Int) : ∀ n, StepSpec need n
  | 0 => stepSpec_zero need
  | n + 1 => stepSpec_succ need n (loopSpec_of_stepSpec need n (stepSpec_all need n))

theorem loopSpec_all (need : Int) (n : Nat) : LoopSpec need n :=
  loopSpec_of_stepSpec need n (stepSpec_all need n)
/-! ## `Allocate` -/

theorem divRoundUp_pos {fileSize : Int} (h : 1 ≤ fileSize) :
    1 ≤ divRoundUp fileSize SectorSize := by
  unfold divRoundUp SectorSize; omega

theorem log32_of_pos {ns : Int} (h : 1 ≤ ns) :
    log32 ns = ((Nat.log 32 ns.toNat : Nat) : Int) := by
  unfold log32
  have : ¬ ns ≤ 0 := by omega
  rw [if_neg this, log32Aux_eq_log _ _ (le_refl _) (by omega)]

theorem Allocate_fail (hdr : FileHeader) (fm : PersistentBitmap) (disk : SynchDisk)
    (fileSize : Int)
    (h : (fm.NumClear : Int) < divRoundUp fileSize SectorSize) :
    Allocate hdr fm disk fileSize =
      (false, { hdr with numBytes := fileSize, numSectors := divRoundUp fileSize SectorSize },
        ⟨fm, disk, 0, [], [], []⟩) := by
  simp [Allocate, h]

theorem Allocate_ok (hdr : FileHeader) (fm : PersistentBitmap) (disk : SynchDisk)
    (fileSize : Int)
    (h : ¬ (fm.NumClear : Int) < divRoundUp fileSize SectorSize) :
    (Allocate hdr fm disk fileSize).1 = true ∧
    (Allocate hdr fm disk fileSize).2.1.numBytes = fileSize ∧
    (Allocate hdr fm disk fileSize).2.1.numSectors = divRoundUp fileSize SectorSize ∧
    (Allocate hdr fm disk fileSize).2.1.numLevel = log32 (divRoundUp fileSize SectorSize) + 1 ∧
    (Allocate hdr fm disk fileSize).2.1.dataSectors = hdr.dataSectors.set 0 fm.FindAndSet.1 ∧
    (Allocate hdr fm disk fileSize).2.1.fileDescriptor = hdr.fileDescriptor := by
  simp [Allocate, h]

theorem Allocate_state (hdr : FileHeader) (fm : PersistentBitmap) (disk : SynchDisk)
    (fileSize : Int)
    (h : ¬ (fm.NumClear : Int) < divRoundUp fileSize SectorSize) :
    (Allocate hdr fm disk fileSize).2.2 =
      { (AllocSector (log32 (divRoundUp fileSize SectorSize) + 1) emptyTable
          ⟨fm.FindAndSet.2, disk, 0, [fm.FindAndSet.1], [], []⟩
          (divRoundUp fileSize SectorSize)).2.2 with
        disk := (AllocSector (log32 (divRoundUp fileSize SectorSize) + 1) emptyTable
          ⟨fm.FindAndSet.2, disk, 0, [fm.FindAndSet.1], [], []⟩
          (divRoundUp fileSize SectorSize)).2.2.disk.WriteSector
            ((hdr.dataSectors.set 0 fm.FindAndSet.1).getD 0 (-1))
            (AllocSector (log32 (divRoundUp fileSize SectorSize) + 1) emptyTable
              ⟨fm.FindAndSet.2, disk, 0, [fm.FindAndSet.1], [], []⟩
              (divRoundUp fileSize SectorSize)).2.1
        written := (AllocSector (log32 (divRoundUp fileSize SectorSize) + 1) emptyTable
          ⟨fm.FindAndSet.2, disk, 0, [fm.FindAndSet.1], [], []⟩
          (divRoundUp fileSize SectorSize)).2.2.written ++
            [(hdr.dataSectors.set 0 fm.FindAndSet.1).getD 0 (-1)] } := by
  simp [Allocate, h]

theorem root_slot (hdr : FileHeader) (x : Int) : (hdr.dataSectors.set 0 x).getD 0 (-1) = x := by
  have := hdr.wf
  cases hd : hdr.dataSectors with
  | nil => rw [hd] at this; exact absurd this (by decide)
  | cons a r => rfl
theorem Allocate_tree (hdr : FileHeader) (fm : PersistentBitmap) (disk : SynchDisk)
    (fileSize : Int)
    (h1 : 1 ≤ fileSize) (hfree : sectorsNeeded fileSize ≤ fm.NumClear) :
    ∃ (L : Nat) (root : Int) (new lv w : List Int) (tbl' : indirectTable),
      (Allocate hdr fm disk fileSize).1 = true ∧
      (Allocate hdr fm disk fileSize).2.1.numLevel = (L : Int) + 1 ∧
      32 ^ L ≤ (divRoundUp fileSize SectorSize).toNat ∧
      (divRoundUp fileSize SectorSize).toNat < 32 ^ (L + 1) ∧
      Grows ⟨fm, disk, 0, [], [], []⟩ (Allocate hdr fm disk fileSize).2.2
        (root :: new) lv (w ++ [root]) ∧
      (Allocate hdr fm disk fileSize).2.1.dataSectors.getD 0 (-1) = root ∧
      (Allocate hdr fm disk fileSize).2.2.disk root = tbl' ∧
      new.length + 1 = sectorsNeeded fileSize ∧
      lv.length = (divRoundUp fileSize SectorSize).toNat ∧
      (Allocate hdr fm disk fileSize).2.2.allocSecNum = divRoundUp fileSize SectorSize ∧
      ∀ j, j < lv.length →
        ∃ path, lookup (Allocate hdr fm disk fileSize).2.2.disk L tbl' j = (path, lv[j]?) ∧
          path.length = L ∧ ∀ x ∈ path, x ∈ w := by
  have hns := divRoundUp_pos h1
  generalize hnse : divRoundUp fileSize SectorSize = ns at *
  obtain ⟨N, rfl⟩ : ∃ N : Nat, ns = (N : Int) := ⟨ns.toNat, by omega⟩
  have hN : 1 ≤ N := by omega
  have hlog := log32_of_pos hns
  simp only [Int.toNat_ofNat] at hlog
  have hL1 : 32 ^ Nat.log 32 N ≤ N := Nat.pow_log_le_self 32 (by omega)
  have hL2 : N < 32 ^ (Nat.log 32 N + 1) := Nat.lt_pow_succ_log_self (by decide) N
  generalize Nat.log 32 N = L at *
  have hneed : sectorsNeeded fileSize = treeSectors (L + 1) N := by
    unfold sectorsNeeded
    rw [hnse, hlog]
    have : ((L : Int) + 1).toNat = L + 1 := by omega
    rw [this, Int.toNat_ofNat]
  rw [hneed] at hfree ⊢
  rw [treeSectors_succ hN (le_of_lt hL2)] at hfree ⊢
  have hclear : 0 < fm.NumClear := by omega
  have hgate : ¬ (fm.NumClear : Int) < divRoundUp fileSize SectorSize := by
    have := le_treeSectors L N
    rw [hnse]; omega
  obtain ⟨ok1, -, ok3, ok4, ok5, -⟩ := Allocate_ok hdr fm disk fileSize hgate
  have hst := Allocate_state hdr fm disk fileSize hgate
  rw [hnse] at ok3 ok4 hst
  rw [hlog] at ok4 hst
  rw [root_slot] at hst
  have hg0 := Grows.claim ⟨fm, disk, 0, [], [], []⟩ hclear
  simp only [List.nil_append] at hg0
  have hnc0 := hg0.numClear
  simp only [List.length_singleton] at hnc0
  have hpow : 32 ^ (L + 1) = NumInDirect * 32 ^ L := by
    rw [Nat.pow_succ, Nat.mul_comm]; rfl
  have hmin : min N (NumInDirect * 32 ^ L) = N := by rw [← hpow]; omega
  obtain ⟨new, lv, w, hg, ha, hn, hl, hlen, -, hwalk⟩ :=
    loopSpec_all (N : Int) L NumInDirect 0 emptyTable
      ⟨fm.FindAndSet.2, disk, 0, [fm.FindAndSet.1], [], []⟩ N (by simp)
      (by simp [emptyTable]) (by
        rw [hmin]
        show _ ≤ fm.FindAndSet.2.NumClear
        omega)
  rw [hmin] at ha hn hl
  have hAS : AllocSector ((L : Int) + 1) emptyTable
      ⟨fm.FindAndSet.2, disk, 0, [fm.FindAndSet.1], [], []⟩ (N : Int) =
      (true, allocLoop (AllocSectorN (N : Int) L) (N : Int) NumInDirect 0 emptyTable
        ⟨fm.FindAndSet.2, disk, 0, [fm.FindAndSet.1], [], []⟩) := by
    have e : ((L : Int) + 1).toNat = L + 1 := by omega
    have hne : ¬ (0 : Int) = (N : Int) := by omega
    simp [AllocSector, e, AllocSectorN, hne]
  rw [hAS] at hst
  generalize allocLoop (AllocSectorN (N : Int) L) (N : Int) NumInDirect 0 emptyTable
      ⟨fm.FindAndSet.2, disk, 0, [fm.FindAndSet.1], [], []⟩ = r at *
  obtain ⟨tbl', s2⟩ := r
  simp only at hg ha hlen hwalk hst
  generalize hroot : fm.FindAndSet.1 = root at *
  have hg1 := (hg0.trans hg).write root tbl' (List.mem_append_left _ (List.mem_singleton.2 rfl))
  have hsec : root ∉ new := hg.not_mem_of_marked (hg0.marked (List.mem_singleton.2 rfl))
  refine ⟨L, root, new, lv, w, tbl', ok1, ok4, hL1, hL2, ?_, ?_, ?_, ?_, ?_, ?_, ?_⟩
  · rw [hst]; simpa using hg1
  · rw [ok5, root_slot]
  · rw [hst]; simp [SynchDisk.WriteSector]
  · rw [hn]
  · rw [hl, Int.toNat_ofNat]
  · rw [hst]; simpa using ha
  · intro j hj
    obtain ⟨c, path, hc, hp1, hp2, hp3⟩ := hwalk (Allocate hdr fm disk fileSize).2.2.disk (by
      intro x hx
      rw [hst]
      have : x ≠ root := fun e => hsec (e ▸ hx)
      simp [SynchDisk.WriteSector, this]) j hj
    rw [Nat.zero_add] at hc
    exact ⟨path, by simp only [lookup, hc, hp1], hp2, hp3⟩
/-! ## `ByteToSector` after `Allocate` -/

theorem NumClear_le (b : PersistentBitmap) : b.NumClear ≤ 2147483647 :=
  le_trans (List.count_le_length false b.map) b.bounded

/-- A tree whose leaves are counted by an `int` has at most seven levels. -/
theorem level_le_six {L N : Nat} (h1 : 32 ^ L ≤ N) (h2 : N ≤ 2147483647) : L ≤ 6 := by
  by_contra h
  have h7 : 32 ^ 7 ≤ 32 ^ L := Nat.pow_le_pow_right (by decide) (by omega)
  have h8 : (32 : Nat) ^ 7 = 34359738368 := by norm_num
  omega

/-- The bound of `powNumInDirect` is the range of `int`: `32 ^ e ≤ INT_MAX` exactly
when `e ≤ 6`. -/
theorem pow32_le_intMax_iff (e : Nat) : 32 ^ e ≤ 2147483647 ↔ e ≤ 6 := by
  constructor
  · intro h
    exact level_le_six (le_refl _) h
  · intro h
    have h6 : 32 ^ e ≤ 32 ^ 6 := Nat.pow_le_pow_right (by decide) h
    have h8 : (32 : Nat) ^ 6 = 1073741824 := by norm_num
    omega

theorem powNumInDirect_of_level {numLevel : Int} {L : Nat} (h : numLevel = (L : Int) + 1)
    (hL : L ≤ 6) : powNumInDirect (numLevel - 1) = ((32 ^ L : Nat) : Int) := by
  rw [h]
  unfold powNumInDirect
  have h1 : ¬ ((L : Int) + 1 - 1 < 0) := by omega
  have h2 : ((L : Int) + 1 - 1).toNat = L := by omega
  have h3 : (L : Int) + 1 - 1 ≤ 6 := by omega
  rw [if_neg h1, if_pos h3, h2]; rfl

theorem Allocate_gate {hdr : FileHeader} {fm : PersistentBitmap} {disk : SynchDisk}
    {fileSize : Int} (hok : (Allocate hdr fm disk fileSize).1 = true) :
    ¬ (fm.NumClear : Int) < divRoundUp fileSize SectorSize := by
  intro hg
  rw [Allocate_fail hdr fm disk fileSize hg] at hok
  exact Bool.false_ne_true hok

/-- A successful `Allocate` found at least `numSectors` clear bits in a map of at most
`INT_MAX` bits, so the tree it builds has at most seven levels. -/
theorem Allocate_level_le {hdr : FileHeader} {fm : PersistentBitmap} {disk : SynchDisk}
    {fileSize : Int} (hok : (Allocate hdr fm disk fileSize).1 = true) {L : Nat}
    (hL : 32 ^ L ≤ (divRoundUp fileSize SectorSize).toNat) : L ≤ 6 := by
  have hg := Allocate_gate hok
  have hb := NumClear_le fm
  exact level_le_six hL (by omega)

theorem leafIndex_lt {fileSize o : Int} (ho0 : 0 ≤ o) (ho1 : o < fileSize) :
    (o.tdiv SectorSize) = (((o / SectorSize).toNat : Nat) : Int) ∧
      (o / SectorSize).toNat < (divRoundUp fileSize SectorSize).toNat := by
  constructor
  · rw [Int.tdiv_eq_ediv ho0 (by decide)]
    unfold SectorSize; omega
  · unfold divRoundUp SectorSize; omega

theorem ByteToSector_alloc (hdr : FileHeader) (fm : PersistentBitmap) (disk : SynchDisk)
    (fileSize o : Int)
    (hfree : sectorsNeeded fileSize ≤ fm.NumClear) (ho0 : 0 ≤ o) (ho1 : o < fileSize) :
    ∃ (L : Nat) (root : Int) (path : List Int) (tbl' : indirectTable),
      (Allocate hdr fm disk fileSize).1 = true ∧
      (Allocate hdr fm disk fileSize).2.1.numLevel = (L : Int) + 1 ∧
      (Allocate hdr fm disk fileSize).2.1.dataSectors.getD 0 (-1) = root ∧
      (Allocate hdr fm disk fileSize).2.2.disk root = tbl' ∧
      (Allocate hdr fm disk fileSize).2.2.leaves.length =
        (divRoundUp fileSize SectorSize).toNat ∧
      (o / SectorSize).toNat < (Allocate hdr fm disk fileSize).2.2.leaves.length ∧
      lookup (Allocate hdr fm disk fileSize).2.2.disk L tbl' (o / SectorSize).toNat =
        (path, (Allocate hdr fm disk fileSize).2.2.leaves[(o / SectorSize).toNat]?) ∧
      ByteToSector (Allocate hdr fm disk fileSize).2.1 (Allocate hdr fm disk fileSize).2.2.disk o =
        (root :: path, (Allocate hdr fm disk fileSize).2.2.leaves[(o / SectorSize).toNat]?) ∧
      path.length = L ∧
      (∀ x ∈ path, x ∈ (Allocate hdr fm disk fileSize).2.2.written) ∧
      root ∈ (Allocate hdr fm disk fileSize).2.2.written := by
  obtain ⟨L, root, new, lv, w, tbl', hok, hlvl, hL, -, hg, hroot, htbl, -, hl, -, hwalk⟩ :=
    Allocate_tree hdr fm disk fileSize (by omega) hfree
  obtain ⟨hj1, hj2⟩ := leafIndex_lt ho0 ho1
  have hlv : (Allocate hdr fm disk fileSize).2.2.leaves = lv := by
    rw [hg.leaves]; rfl
  have hw : (Allocate hdr fm disk fileSize).2.2.written = w ++ [root] := by
    rw [hg.written]; rfl
  rw [← hl] at hj2
  obtain ⟨path, hp1, hp2, hp3⟩ := hwalk _ hj2
  refine ⟨L, root, path, tbl', hok, hlvl, hroot, htbl, by rw [hlv, hl], by rw [hlv]; exact hj2,
    by rw [hlv]; exact hp1, ?_, hp2, ?_, ?_⟩
  · have hpw : powNumInDirect ((Allocate hdr fm disk fileSize).2.1.numLevel - 1) =
        ((32 ^ L : Nat) : Int) := powNumInDirect_of_level hlvl (Allocate_level_le hok hL)
    unfold ByteToSector
    simp only [hroot, SynchDisk.ReadSector, htbl, hpw, hj1, GetSector_pow, hp1, hlv]
  · intro x hx
    rw [hw]; exact List.mem_append_left _ (hp3 x hx)
  · rw [hw]; simp
/-! ## The sector count as a sum of ceilings -/

theorem ceilQuot_eq_ceil (x P : Nat) (hP : 0 < P) :
    (((x + P - 1) / P : Nat) : Int) = ⌈((x : Int) : ℚ) / (P : ℚ)⌉ := by
  symm
  rw [Int.ceil_eq_iff]
  have hPq : (0 : ℚ) < (P : ℚ) := by exact_mod_cast hP
  have h1 : x ≤ (x + P - 1) / P * P := by
    have := Nat.lt_div_mul_add (a := x + P - 1) hP
    omega
  have h2 : (x + P - 1) / P * P < x + P := by
    have := Nat.div_mul_le_self (x + P - 1) P
    omega
  generalize (x + P - 1) / P = z at h1 h2
  constructor
  · rw [lt_div_iff₀ hPq]
    have : ((z * P : Nat) : ℚ) < ((x + P : Nat) : ℚ) := by exact_mod_cast h2
    push_cast at this ⊢
    linarith
  · rw [div_le_iff₀ hPq]
    have : ((x : Nat) : ℚ) ≤ ((z * P : Nat) : ℚ) := by exact_mod_cast h1
    push_cast at this ⊢
    linarith

theorem treeSectors_eq_sum (n x : Nat) :
    ((treeSectors n x : Nat) : Int) =
      (x : Int) + ∑ k ∈ Finset.Icc 1 n, ⌈((x : Int) : ℚ) / (32 : ℚ) ^ k⌉ := by
  induction n with
  | zero => simp [treeSectors]
  | succ n ih =>
    rw [Finset.sum_Icc_succ_top (by omega), treeSectors, Nat.cast_add, ih,
      ceilQuot_eq_ceil x (32 ^ (n + 1)) (Nat.pow_pos (by decide))]
    push_cast
    ring

theorem Allocate_empty (hdr : FileHeader) (fm : PersistentBitmap) (disk : SynchDisk)
    (h : 0 < fm.NumClear) :
    (Allocate hdr fm disk 0).1 = true ∧
    Grows ⟨fm, disk, 0, [], [], []⟩ (Allocate hdr fm disk 0).2.2
      [fm.FindAndSet.1] [] [fm.FindAndSet.1] := by
  have e0 : divRoundUp 0 SectorSize = 0 := by decide
  have hgate : ¬ (fm.NumClear : Int) < divRoundUp 0 SectorSize := by rw [e0]; omega
  have hst := Allocate_state hdr fm disk 0 hgate
  have hAS : AllocSector (log32 (divRoundUp 0 SectorSize) + 1) emptyTable
      ⟨fm.FindAndSet.2, disk, 0, [fm.FindAndSet.1], [], []⟩ (divRoundUp 0 SectorSize) =
      (false, emptyTable, ⟨fm.FindAndSet.2, disk, 0, [fm.FindAndSet.1], [], []⟩) := by
    have : (log32 (divRoundUp 0 SectorSize) + 1).toNat = 0 := by decide
    simp [AllocSector, this, AllocSectorN]
  rw [hAS, root_slot] at hst
  have hg0 := Grows.claim ⟨fm, disk, 0, [], [], []⟩ h
  simp only [List.nil_append] at hg0
  have hg1 := hg0.write fm.FindAndSet.1 emptyTable (List.mem_singleton.2 rfl)
  refine ⟨(Allocate_ok hdr fm disk 0 hgate).1, ?_⟩
  rw [hst]
  simpa using hg1
/-! ## The recursion bound of `GetSector` is never reached -/

theorem natAbs_tdiv_lt {L : Int} (h : L ≠ 0) :
    (L.tdiv (NumInDirect : Int)).natAbs < L.natAbs := by
  have h32 : ((NumInDirect : Nat) : Int) = 32 := rfl
  rw [h32]
  rcases Int.le_total 0 L with hL | hL
  · rw [Int.tdiv_eq_ediv hL (by decide)]; omega
  · have : L.tdiv 32 = -((-L).tdiv 32) := by rw [Int.neg_tdiv, neg_neg]
    rw [this, Int.tdiv_eq_ediv (by omega) (by decide)]; omega

theorem GetSectorF_fuel (disk : SynchDisk) :
    ∀ (f1 f2 : Nat) (secNum LvlNum : Int) (tbl : indirectTable),
      LvlNum.natAbs ≤ f1 → LvlNum.natAbs ≤ f2 →
      GetSectorF disk f1 secNum LvlNum tbl = GetSectorF disk f2 secNum LvlNum tbl := by
  intro f1
  induction f1 with
  | zero =>
    intro f2 secNum LvlNum tbl h1 _
    have h0 : LvlNum = 0 := by omega
    subst h0
    cases f2 <;> simp [GetSectorF]
  | succ f1 ih =>
    intro f2 secNum LvlNum tbl h1 h2
    by_cases h0 : LvlNum = 0
    · subst h0
      cases f2 <;> simp [GetSectorF]
    · obtain ⟨g, rfl⟩ : ∃ g, f2 = g + 1 := ⟨f2 - 1, by omega⟩
      have hlt := natAbs_tdiv_lt h0
      simp only [GetSectorF, h0, if_false]
      by_cases h1' : LvlNum = 1
      · simp [h1']
      · simp only [h1', if_false]
        cases slot tbl (secNum.tdiv LvlNum) with
        | none => rfl
        | some sec =>
          simp only
          rw [ih g _ _ _ (by omega) (by omega)]

/-- `GetSector` satisfies the recursive equation of the source for every input. -/
theorem GetSector_unfold (disk : SynchDisk) (secNum LvlNum : Int) (tbl : indirectTable) :
    GetSector disk secNum LvlNum tbl =
      if LvlNum = 0 then ([], none)
      else if LvlNum = 1 then ([], slot tbl (secNum.tdiv LvlNum))
      else
        match slot tbl (secNum.tdiv LvlNum) with
        | none => ([], none)
        | some sec =>
          (sec :: (GetSector disk (secNum.tmod LvlNum) (LvlNum.tdiv NumInDirect)
              (disk.ReadSector sec)).1,
            (GetSector disk (secNum.tmod LvlNum) (LvlNum.tdiv NumInDirect)
              (disk.ReadSector sec)).2) := by
  unfold GetSector
  by_cases h0 : LvlNum = 0
  · subst h0; simp [GetSectorF]
  · have hlt := natAbs_tdiv_lt h0
    obtain ⟨g, hg⟩ : ∃ g, LvlNum.natAbs = g + 1 := ⟨LvlNum.natAbs - 1, by omega⟩
    rw [hg]
    simp only [GetSectorF, h0, if_false]
    by_cases h1 : LvlNum = 1
    · simp [h1]
    · simp only [h1, if_false]
      cases slot tbl (secNum.tdiv LvlNum) with
      | none => rfl
      | some sec =>
        simp only
        rw [GetSectorF_fuel disk g (LvlNum.tdiv (NumInDirect : Int)).natAbs _ _ _ (by omega)
          (le_refl _)]
/-! ## The claims -/

/-- C1 (Allocate / ByteToSector round trip): for `fileSize ≥ 1` and a map with a clear
bit for every sector of the tree (leaves, indirection nodes and root), `Allocate`
returns true and, for every offset `o` with `0 ≤ o < fileSize`, `ByteToSector(o)` returns
the `(o / SectorSize)`-th leaf (0-based) of the placement order of `AllocSector`. -/
theorem C1_allocate_byteToSector (hdr : FileHeader) (fm : PersistentBitmap) (disk : SynchDisk)
    (fileSize : Int) (h1 : 1 ≤ fileSize) (hfree : sectorsNeeded fileSize ≤ fm.NumClear) :
    (Allocate hdr fm disk fileSize).1 = true ∧
    ∀ o : Int, 0 ≤ o → o < fileSize →
      (o / SectorSize).toNat < (Allocate hdr fm disk fileSize).2.2.leaves.length ∧
      (ByteToSector (Allocate hdr fm disk fileSize).2.1
        (Allocate hdr fm disk fileSize).2.2.disk o).2 =
          (Allocate hdr fm disk fileSize).2.2.leaves[(o / SectorSize).toNat]? := by
  obtain ⟨_, _, _, _, _, _, hok, _⟩ := Allocate_tree hdr fm disk fileSize h1 hfree
  refine ⟨hok, ?_⟩
  intro o ho0 ho1
  obtain ⟨_, _, _, _, -, -, -, -, -, hj, -, hb, -⟩ :=
    ByteToSector_alloc hdr fm disk fileSize o hfree ho0 ho1
  exact ⟨hj, by rw [hb]⟩

/-- Instance of `C1_allocate_byteToSector` on a concrete map, disk and file size. -/
theorem C1_allocate_byteToSector_witness :
    ((1 : Int) ≤ 4224 ∧ sectorsNeeded 4224 ≤ clearMap40.NumClear) ∧
    (Allocate FileHeader.new clearMap40 zeroDisk 4224).1 = true ∧
    (ByteToSector (Allocate FileHeader.new clearMap40 zeroDisk 4224).2.1
      (Allocate FileHeader.new clearMap40 zeroDisk 4224).2.2.disk 4223).2 =
        (Allocate FileHeader.new clearMap40 zeroDisk 4224).2.2.leaves[((4223 : Int) /
          SectorSize).toNat]? :=
  have h := C1_allocate_byteToSector FileHeader.new clearMap40 zeroDisk 4224
    (by decide) (by decide)
  ⟨⟨by decide, by decide⟩, h.1, (h.2 4223 (by decide) (by decide)).2⟩

/-- C2 (failing input): on a map of 40 clear sectors, `Allocate` of 128 bytes claims two
sectors (the root node 0 and the leaf 1) and `Deallocate` clears only the leaf: the
free count goes 40, 38, 39 and sector 0 stays marked. -/
theorem C2_deallocate_leaves_root_marked :
    clearMap40.NumClear = 40 ∧
    (Allocate FileHeader.new clearMap40 zeroDisk 128).1 = true ∧
    (Allocate FileHeader.new clearMap40 zeroDisk 128).2.2.claimed = [0, 1] ∧
    (Allocate FileHeader.new clearMap40 zeroDisk 128).2.2.freeMap.NumClear = 38 ∧
    (Deallocate (Allocate FileHeader.new clearMap40 zeroDisk 128).2.1
      (Allocate FileHeader.new clearMap40 zeroDisk 128).2.2.freeMap
      (Allocate FileHeader.new clearMap40 zeroDisk 128).2.2.disk).cleared = [1] ∧
    (Deallocate (Allocate FileHeader.new clearMap40 zeroDisk 128).2.1
      (Allocate FileHeader.new clearMap40 zeroDisk 128).2.2.freeMap
      (Allocate FileHeader.new clearMap40 zeroDisk 128).2.2.disk).freeMap.NumClear = 39 ∧
    (Deallocate (Allocate FileHeader.new clearMap40 zeroDisk 128).2.1
      (Allocate FileHeader.new clearMap40 zeroDisk 128).2.2.freeMap
      (Allocate FileHeader.new clearMap40 zeroDisk 128).2.2.disk).freeMap.Test 0 = true := by
  decide

/-- C3 (failing input): on a map whose only clear sector is 7, `Allocate` of 100 bytes
passes the free-count check, gives sector 7 to the root node, gets -1 from `FindAndSet`
for the leaf, and still returns true; the file's only leaf is sector -1. -/
theorem C3_allocate_true_after_map_ran_out :
    lastFreeMap8.NumClear = 1 ∧
    (Allocate FileHeader.new lastFreeMap8 zeroDisk 100).1 = true ∧
    (Allocate FileHeader.new lastFreeMap8 zeroDisk 100).2.1.numSectors = 1 ∧
    (Allocate FileHeader.new lastFreeMap8 zeroDisk 100).2.2.claimed = [7, -1] ∧
    (Allocate FileHeader.new lastFreeMap8 zeroDisk 100).2.2.leaves = [-1] ∧
    (Allocate FileHeader.new lastFreeMap8 zeroDisk 100).2.2.freeMap.NumClear = 0 ∧
    (ByteToSector (Allocate FileHeader.new lastFreeMap8 zeroDisk 100).2.1
      (Allocate FileHeader.new lastFreeMap8 zeroDisk 100).2.2.disk 0).2 = some (-1) := by
  decide

/-- C4 (insufficient space): when `ceil(fileSize / SectorSize)` exceeds the number of
clear bits of the map, `Allocate` returns false, the map is the same map (so its free
count is unchanged), `FindAndSet` was never called and no disk sector was written. -/
theorem C4_insufficient_space (hdr : FileHeader) (fm : PersistentBitmap) (disk : SynchDisk)
    (fileSize : Int)
    (h : (fm.NumClear : Int) < ⌈(fileSize : ℚ) / 128⌉) :
    (Allocate hdr fm disk fileSize).1 = false ∧
    (Allocate hdr fm disk fileSize).2.2.freeMap = fm ∧
    (Allocate hdr fm disk fileSize).2.2.freeMap.NumClear = fm.NumClear ∧
    (Allocate hdr fm disk fileSize).2.2.claimed = [] ∧
    (Allocate hdr fm disk fileSize).2.2.written = [] ∧
    (Allocate hdr fm disk fileSize).2.2.disk = disk := by
  rw [← divRoundUp_eq_ceil] at h
  rw [Allocate_fail hdr fm disk fileSize h]
  exact ⟨rfl, rfl, rfl, rfl, rfl, rfl⟩

/-- Instance of `C4_insufficient_space` on a concrete map, disk and file size. -/
theorem C4_insufficient_space_witness :
    ((fullMap8.NumClear : Int) < ⌈((1000 : Int) : ℚ) / 128⌉) ∧
    (Allocate FileHeader.new fullMap8 zeroDisk 1000).1 = false ∧
    (Allocate FileHeader.new fullMap8 zeroDisk 1000).2.2.freeMap = fullMap8 ∧
    (Allocate FileHeader.new fullMap8 zeroDisk 1000).2.2.freeMap.NumClear = fullMap8.NumClear ∧
    (Allocate FileHeader.new fullMap8 zeroDisk 1000).2.2.claimed = [] ∧
    (Allocate FileHeader.new fullMap8 zeroDisk 1000).2.2.written = [] ∧
    (Allocate FileHeader.new fullMap8 zeroDisk 1000).2.2.disk = zeroDisk :=
  have h : (fullMap8.NumClear : Int) < ⌈((1000 : Int) : ℚ) / 128⌉ := by
    rw [← divRoundUp_eq_ceil]; decide
  ⟨h, C4_insufficient_space FileHeader.new fullMap8 zeroDisk 1000 h⟩

/-- C5 (counterexample): a file of 4000 bytes needs 32 sectors and a successful
`Allocate` stores `numLevel = 2`, not 1. -/
theorem C5_depth_at_fanout_is_two :
    (Allocate FileHeader.new clearMap40 zeroDisk 4000).1 = true ∧
    (Allocate FileHeader.new clearMap40 zeroDisk 4000).2.1.numSectors = 32 ∧
    (Allocate FileHeader.new clearMap40 zeroDisk 4000).2.1.numLevel = 2 ∧
    (Allocate FileHeader.new clearMap40 zeroDisk 4000).2.1.numLevel ≠ 1 := by
  decide

/-- C5 (amended): after a successful `Allocate`, `numSectors = 1` gives `numLevel = 1`,
`numSectors = 31` gives `numLevel = 1`, `numSectors = 32` (as for `fileSize = 4000`)
gives `numLevel = 2`, and `numSectors = 33` gives `numLevel = 2`. -/
theorem C5_depth_boundaries (hdr : FileHeader) (fm : PersistentBitmap) (disk : SynchDisk)
    (fileSize : Int)
    (hok : (Allocate hdr fm disk fileSize).1 = true) :
    ((Allocate hdr fm disk fileSize).2.1.numSectors = 1 →
      (Allocate hdr fm disk fileSize).2.1.numLevel = 1) ∧
    ((Allocate hdr fm disk fileSize).2.1.numSectors = 31 →
      (Allocate hdr fm disk fileSize).2.1.numLevel = 1) ∧
    ((Allocate hdr fm disk fileSize).2.1.numSectors = 32 →
      (Allocate hdr fm disk fileSize).2.1.numLevel = 2) ∧
    ((Allocate hdr fm disk fileSize).2.1.numSectors = 33 →
      (Allocate hdr fm disk fileSize).2.1.numLevel = 2) ∧
    (fileSize = 4000 → (Allocate hdr fm disk fileSize).2.1.numSectors = 32) := by
  have hg : ¬ (fm.NumClear : Int) < divRoundUp fileSize SectorSize := by
    intro hg
    rw [Allocate_fail hdr fm disk fileSize hg] at hok
    exact Bool.false_ne_true hok
  obtain ⟨-, -, h3, h4, -, -⟩ := Allocate_ok hdr fm disk fileSize hg
  rw [h4, h3]
  refine ⟨?_, ?_, ?_, ?_, ?_⟩
  · intro h; rw [h]; decide
  · intro h; rw [h]; decide
  · intro h; rw [h]; decide
  · intro h; rw [h]; decide
  · intro h; rw [h]; decide

/-- Instances of `C5_depth_boundaries` on a map of 40 clear sectors for the file sizes
128, 3968, 4000 and 4224, which need 1, 31, 32 and 33 sectors. -/
theorem C5_depth_boundaries_witness :
    ((Allocate FileHeader.new clearMap40 zeroDisk 128).1 = true ∧
      (Allocate FileHeader.new clearMap40 zeroDisk 128).2.1.numSectors = 1 ∧
      (Allocate FileHeader.new clearMap40 zeroDisk 128).2.1.numLevel = 1) ∧
    ((Allocate FileHeader.new clearMap40 zeroDisk 3968).1 = true ∧
      (Allocate FileHeader.new clearMap40 zeroDisk 3968).2.1.numSectors = 31 ∧
      (Allocate FileHeader.new clearMap40 zeroDisk 3968).2.1.numLevel = 1) ∧
    ((Allocate FileHeader.new clearMap40 zeroDisk 4000).1 = true ∧
      (Allocate FileHeader.new clearMap40 zeroDisk 4000).2.1.numSectors = 32 ∧
      (Allocate FileHeader.new clearMap40 zeroDisk 4000).2.1.numLevel = 2) ∧
    ((Allocate FileHeader.new clearMap40 zeroDisk 4224).1 = true ∧
      (Allocate FileHeader.new clearMap40 zeroDisk 4224).2.1.numSectors = 33 ∧
      (Allocate FileHeader.new clearMap40 zeroDisk 4224).2.1.numLevel = 2) :=
  have a := C5_depth_boundaries FileHeader.new clearMap40 zeroDisk 128 (by decide)
  have b := C5_depth_boundaries FileHeader.new clearMap40 zeroDisk 3968 (by decide)
  have c := C5_depth_boundaries FileHeader.new clearMap40 zeroDisk 4000 (by decide)
  have d := C5_depth_boundaries FileHeader.new clearMap40 zeroDisk 4224 (by decide)
  ⟨⟨by decide, by decide, a.1 (by decide)⟩,
    ⟨by decide, by decide, b.2.1 (by decide)⟩,
    ⟨by decide, c.2.2.2.2 rfl, c.2.2.1 (c.2.2.2.2 rfl)⟩,
    ⟨by decide, by decide, d.2.2.2.1 (by decide)⟩⟩

/-- C6 (depth formula): for `sectorCount = ceil(fileSize / SectorSize) ≥ 1`, the
`numLevel` stored by a successful `Allocate` is `floor(log10(sectorCount) / log10(32)) + 1`
with the exact real logarithm, that is `floor(log_32(sectorCount)) + 1`, and it is the
unique `d ≥ 1` with `32^(d-1) ≤ sectorCount < 32^d`. -/
theorem C6_depth_formula (hdr : FileHeader) (fm : PersistentBitmap) (disk : SynchDisk)
    (fileSize : Int)
    (hsc : 1 ≤ ⌈(fileSize : ℚ) / 128⌉) (hok : (Allocate hdr fm disk fileSize).1 = true) :
    (Allocate hdr fm disk fileSize).2.1.numSectors = ⌈(fileSize : ℚ) / 128⌉ ∧
    (Allocate hdr fm disk fileSize).2.1.numLevel =
      ⌊Real.logb 10 ((Allocate hdr fm disk fileSize).2.1.numSectors : ℝ) / Real.logb 10 32⌋ + 1 ∧
    (Allocate hdr fm disk fileSize).2.1.numLevel =
      ⌊Real.logb 32 ((Allocate hdr fm disk fileSize).2.1.numSectors : ℝ)⌋ + 1 ∧
    1 ≤ (Allocate hdr fm disk fileSize).2.1.numLevel ∧
    (32 : Int) ^ ((Allocate hdr fm disk fileSize).2.1.numLevel.toNat - 1) ≤
      (Allocate hdr fm disk fileSize).2.1.numSectors ∧
    (Allocate hdr fm disk fileSize).2.1.numSectors <
      (32 : Int) ^ (Allocate hdr fm disk fileSize).2.1.numLevel.toNat ∧
    ∀ d : Nat, 1 ≤ d → (32 : Int) ^ (d - 1) ≤ (Allocate hdr fm disk fileSize).2.1.numSectors →
      (Allocate hdr fm disk fileSize).2.1.numSectors < (32 : Int) ^ d →
      (d : Int) = (Allocate hdr fm disk fileSize).2.1.numLevel := by
  rw [← divRoundUp_eq_ceil] at hsc
  have hg : ¬ (fm.NumClear : Int) < divRoundUp fileSize SectorSize := by
    intro hg
    rw [Allocate_fail hdr fm disk fileSize hg] at hok
    exact Bool.false_ne_true hok
  obtain ⟨-, -, h3, h4, -, -⟩ := Allocate_ok hdr fm disk fileSize hg
  rw [h4, h3, log32_of_pos hsc, ← divRoundUp_eq_ceil]
  generalize divRoundUp fileSize SectorSize = ns at *
  obtain ⟨N, rfl⟩ : ∃ N : Nat, ns = (N : Int) := ⟨ns.toNat, by omega⟩
  have hN : N ≠ 0 := by omega
  simp only [Int.toNat_ofNat]
  have hL1 : 32 ^ Nat.log 32 N ≤ N := Nat.pow_log_le_self 32 hN
  have hL2 : N < 32 ^ (Nat.log 32 N + 1) := Nat.lt_pow_succ_log_self (by decide) N
  have hfl : ⌊Real.logb 32 ((N : Int) : ℝ)⌋ = ((Nat.log 32 N : Nat) : Int) := by
    have := Real.floor_logb_natCast (b := 32) (r := (N : ℝ)) (Nat.cast_nonneg N)
    rw [Int.log_natCast] at this
    rw [Int.cast_natCast]
    exact_mod_cast this
  have hq : Real.logb 10 ((N : Int) : ℝ) / Real.logb 10 32 = Real.logb 32 ((N : Int) : ℝ) := by
    have h10 : Real.log 10 ≠ 0 := ne_of_gt (Real.log_pos (by norm_num))
    unfold Real.logb
    rw [div_div_div_cancel_right₀ h10]
  have ht : ((Nat.log 32 N : Nat) + 1 : Int).toNat = Nat.log 32 N + 1 := by omega
  refine ⟨trivial, by rw [hq, hfl], by rw [hfl], by omega, ?_, ?_, ?_⟩
  · rw [ht, Nat.add_sub_cancel]; exact_mod_cast hL1
  · rw [ht]; exact_mod_cast hL2
  · intro d hd h1 h2
    have h1' : 32 ^ (d - 1) ≤ N := by exact_mod_cast h1
    have h2' : N < 32 ^ (d - 1 + 1) := by
      rw [Nat.sub_add_cancel hd]; exact_mod_cast h2
    have := Nat.log_eq_of_pow_le_of_lt_pow h1' h2'
    omega

/-- Instance of `C6_depth_formula` on a concrete map, disk and file size. -/
theorem C6_depth_formula_witness :
    (1 ≤ ⌈((4224 : Int) : ℚ) / 128⌉ ∧
      (Allocate FileHeader.new clearMap40 zeroDisk 4224).1 = true) ∧
    (Allocate FileHeader.new clearMap40 zeroDisk 4224).2.1.numLevel =
      ⌊Real.logb 32 ((Allocate FileHeader.new clearMap40 zeroDisk 4224).2.1.numSectors : ℝ)⌋ + 1 ∧
    (32 : Int) ^ ((Allocate FileHeader.new clearMap40 zeroDisk 4224).2.1.numLevel.toNat - 1) ≤
      (Allocate FileHeader.new clearMap40 zeroDisk 4224).2.1.numSectors ∧
    (Allocate FileHeader.new clearMap40 zeroDisk 4224).2.1.numSectors <
      (32 : Int) ^ (Allocate FileHeader.new clearMap40 zeroDisk 4224).2.1.numLevel.toNat :=
  have h1 : 1 ≤ ⌈((4224 : Int) : ℚ) / 128⌉ := by rw [← divRoundUp_eq_ceil]; decide
  have h2 : (Allocate FileHeader.new clearMap40 zeroDisk 4224).1 = true := by decide
  have h := C6_depth_formula FileHeader.new clearMap40 zeroDisk 4224 h1 h2
  ⟨⟨h1, h2⟩, h.2.2.1, h.2.2.2.2.1, h.2.2.2.2.2.1⟩

/-- C7 (counterexample): for `fileSize = 0` on a map of 40 clear sectors `Allocate`
returns true with `numSectors = 0` and marks one sector, the root node, while
`sectorCount` plus the sum of `ceil(sectorCount / 32^k)` over `k = 1..treeDepth` is 0. -/
theorem C7_empty_file_claims_root :
    (Allocate FileHeader.new clearMap40 zeroDisk 0).1 = true ∧
    (Allocate FileHeader.new clearMap40 zeroDisk 0).2.1.numSectors = 0 ∧
    (Allocate FileHeader.new clearMap40 zeroDisk 0).2.2.claimed = [0] ∧
    (Allocate FileHeader.new clearMap40 zeroDisk 0).2.2.freeMap.NumClear + 1 =
      clearMap40.NumClear ∧
    ((Allocate FileHeader.new clearMap40 zeroDisk 0).2.2.claimed.length : Int) ≠
      (Allocate FileHeader.new clearMap40 zeroDisk 0).2.1.numSectors +
        ∑ k ∈ Finset.Icc 1 (Allocate FileHeader.new clearMap40 zeroDisk 0).2.1.numLevel.toNat,
          ⌈((Allocate FileHeader.new clearMap40 zeroDisk 0).2.1.numSectors : ℚ) / (32 : ℚ) ^ k⌉ := by
  have e1 : (Allocate FileHeader.new clearMap40 zeroDisk 0).2.2.claimed = [0] := by decide
  have e2 : (Allocate FileHeader.new clearMap40 zeroDisk 0).2.1.numSectors = 0 := by decide
  have e3 : (Allocate FileHeader.new clearMap40 zeroDisk 0).2.1.numLevel.toNat = 0 := by decide
  refine ⟨by decide, e2, e1, by decide, ?_⟩
  rw [e1, e2, e3]
  simp

/-- C7 (amended): for `fileSize ≥ 0` and a map with a clear bit for every sector of the
tree (at least one), `Allocate` returns true, `numSectors = ceil(fileSize / SectorSize)`,
and the sectors it claimed are pairwise distinct, were all clear before, and are exactly
the newly marked ones.  For `fileSize ≥ 1` their number is `numSectors` plus the sum over
`k = 1..numLevel` of `ceil(numSectors / 32^k)`; for `fileSize = 0` it is 1, the root. -/
theorem C7_sector_accounting (hdr : FileHeader) (fm : PersistentBitmap) (disk : SynchDisk)
    (fileSize : Int)
    (h0 : 0 ≤ fileSize) (hfree : max 1 (sectorsNeeded fileSize) ≤ fm.NumClear) :
    (Allocate hdr fm disk fileSize).1 = true ∧
    (Allocate hdr fm disk fileSize).2.1.numSectors = ⌈(fileSize : ℚ) / 128⌉ ∧
    (Allocate hdr fm disk fileSize).2.2.claimed.Nodup ∧
    (∀ x ∈ (Allocate hdr fm disk fileSize).2.2.claimed, 0 ≤ x ∧ fm.Test x = false) ∧
    (∀ x, (Allocate hdr fm disk fileSize).2.2.freeMap.Test x =
      (fm.Test x || decide (x ∈ (Allocate hdr fm disk fileSize).2.2.claimed))) ∧
    (Allocate hdr fm disk fileSize).2.2.freeMap.NumClear +
      (Allocate hdr fm disk fileSize).2.2.claimed.length = fm.NumClear ∧
    (1 ≤ fileSize →
      ((Allocate hdr fm disk fileSize).2.2.claimed.length : Int) =
        (Allocate hdr fm disk fileSize).2.1.numSectors +
          ∑ k ∈ Finset.Icc 1 (Allocate hdr fm disk fileSize).2.1.numLevel.toNat,
            ⌈((Allocate hdr fm disk fileSize).2.1.numSectors : ℚ) / (32 : ℚ) ^ k⌉) ∧
    (fileSize = 0 → (Allocate hdr fm disk fileSize).2.2.claimed.length = 1) := by
  have hc1 : 0 < fm.NumClear := by omega
  have hc2 : sectorsNeeded fileSize ≤ fm.NumClear := by omega
  have key : ∃ cl lv w, (Allocate hdr fm disk fileSize).1 = true ∧
      Grows ⟨fm, disk, 0, [], [], []⟩ (Allocate hdr fm disk fileSize).2.2 cl lv w ∧
      (1 ≤ fileSize → cl.length = sectorsNeeded fileSize) ∧
      (fileSize = 0 → cl.length = 1) := by
    rcases eq_or_lt_of_le h0 with h | h
    · subst h
      obtain ⟨hok, hg⟩ := Allocate_empty hdr fm disk hc1
      exact ⟨_, _, _, hok, hg, fun h => absurd h (by decide), fun _ => rfl⟩
    · obtain ⟨_, root, new, lv, w, _, hok, -, -, -, hg, -, -, hn, -⟩ :=
        Allocate_tree hdr fm disk fileSize (by omega) hc2
      exact ⟨_, _, _, hok, hg, fun _ => by rw [List.length_cons, hn], fun h => by omega⟩
  obtain ⟨cl, lv, w, hok, hg, hpos, hzero⟩ := key
  have hcl : (Allocate hdr fm disk fileSize).2.2.claimed = cl := by rw [hg.claimed]; rfl
  have hgate : ¬ (fm.NumClear : Int) < divRoundUp fileSize SectorSize := by
    intro hgt
    rw [Allocate_fail hdr fm disk fileSize hgt] at hok
    exact Bool.false_ne_true hok
  obtain ⟨-, -, h3, h4, -, -⟩ := Allocate_ok hdr fm disk fileSize hgate
  rw [hcl]
  refine ⟨hok, by rw [h3, divRoundUp_eq_ceil], hg.nodup,
    fun x hx => ⟨hg.nonneg x hx, hg.fresh x hx⟩, hg.test, hg.numClear, ?_, hzero⟩
  intro h1
  have hns := divRoundUp_pos h1
  rw [hpos h1, h3, h4]
  unfold sectorsNeeded
  rw [treeSectors_eq_sum, Int.toNat_of_nonneg (by omega)]

/-- Instance of `C7_sector_accounting` on a concrete map, disk and file size. -/
theorem C7_sector_accounting_witness :
    ((0 : Int) ≤ 4224 ∧ max 1 (sectorsNeeded 4224) ≤ clearMap40.NumClear) ∧
    (Allocate FileHeader.new clearMap40 zeroDisk 4224).1 = true ∧
    (Allocate FileHeader.new clearMap40 zeroDisk 4224).2.1.numSectors =
      ⌈((4224 : Int) : ℚ) / 128⌉ ∧
    (Allocate FileHeader.new clearMap40 zeroDisk 4224).2.2.claimed.Nodup ∧
    ((Allocate FileHeader.new clearMap40 zeroDisk 4224).2.2.claimed.length : Int) =
      (Allocate FileHeader.new clearMap40 zeroDisk 4224).2.1.numSectors +
        ∑ k ∈ Finset.Icc 1 (Allocate FileHeader.new clearMap40 zeroDisk 4224).2.1.numLevel.toNat,
          ⌈((Allocate FileHeader.new clearMap40 zeroDisk 4224).2.1.numSectors : ℚ) /
            (32 : ℚ) ^ k⌉ :=
  have h := C7_sector_accounting FileHeader.new clearMap40 zeroDisk 4224 (by decide) (by decide)
  ⟨⟨by decide, by decide⟩, h.1, h.2.1, h.2.2.1, h.2.2.2.2.2.2.1 (by decide)⟩

/-- C8 (counterexample): a failed `Allocate` on a fresh header leaves `numBytes` and
`numSectors` changed: they were -1 and are now 1000 and 8. -/
theorem C8_failed_allocate_changes_header :
    (Allocate FileHeader.new fullMap8 zeroDisk 1000).1 = false ∧
    FileHeader.new.numBytes = -1 ∧
    (Allocate FileHeader.new fullMap8 zeroDisk 1000).2.1.numBytes = 1000 ∧
    FileHeader.new.numSectors = -1 ∧
    (Allocate FileHeader.new fullMap8 zeroDisk 1000).2.1.numSectors = 8 ∧
    (Allocate FileHeader.new fullMap8 zeroDisk 1000).2.1 ≠ FileHeader.new := by
  decide

/-- C8 (amended): whenever `Allocate` returns false, the free map, the disk, and the
header fields `numLevel`, `dataSectors` and `fileDescriptor` are what they were before
the call, nothing was claimed or written; `numBytes` and `numSectors` hold `fileSize`
and `ceil(fileSize / SectorSize)`. -/
theorem C8_failed_allocate_frame (hdr : FileHeader) (fm : PersistentBitmap) (disk : SynchDisk)
    (fileSize : Int) (h : (Allocate hdr fm disk fileSize).1 = false) :
    (Allocate hdr fm disk fileSize).2.2.freeMap = fm ∧
    (Allocate hdr fm disk fileSize).2.2.disk = disk ∧
    (Allocate hdr fm disk fileSize).2.2.claimed = [] ∧
    (Allocate hdr fm disk fileSize).2.2.written = [] ∧
    (Allocate hdr fm disk fileSize).2.1.numLevel = hdr.numLevel ∧
    (Allocate hdr fm disk fileSize).2.1.dataSectors = hdr.dataSectors ∧
    (Allocate hdr fm disk fileSize).2.1.fileDescriptor = hdr.fileDescriptor ∧
    (Allocate hdr fm disk fileSize).2.1.numBytes = fileSize ∧
    (Allocate hdr fm disk fileSize).2.1.numSectors = ⌈(fileSize : ℚ) / 128⌉ := by
  by_cases hg : (fm.NumClear : Int) < divRoundUp fileSize SectorSize
  · rw [Allocate_fail hdr fm disk fileSize hg]
    exact ⟨rfl, rfl, rfl, rfl, rfl, rfl, rfl, rfl, divRoundUp_eq_ceil fileSize⟩
  · rw [(Allocate_ok hdr fm disk fileSize hg).1] at h
    exact absurd h (by decide)

/-- Instance of `C8_failed_allocate_frame` on a concrete map, disk and file size. -/
theorem C8_failed_allocate_frame_witness :
    (Allocate FileHeader.new fullMap8 zeroDisk 1000).1 = false ∧
    (Allocate FileHeader.new fullMap8 zeroDisk 1000).2.2.freeMap = fullMap8 ∧
    (Allocate FileHeader.new fullMap8 zeroDisk 1000).2.2.disk = zeroDisk ∧
    (Allocate FileHeader.new fullMap8 zeroDisk 1000).2.2.claimed = [] ∧
    (Allocate FileHeader.new fullMap8 zeroDisk 1000).2.2.written = [] ∧
    (Allocate FileHeader.new fullMap8 zeroDisk 1000).2.1.numLevel = FileHeader.new.numLevel ∧
    (Allocate FileHeader.new fullMap8 zeroDisk 1000).2.1.dataSectors =
      FileHeader.new.dataSectors ∧
    (Allocate FileHeader.new fullMap8 zeroDisk 1000).2.1.fileDescriptor =
      FileHeader.new.fileDescriptor ∧
    (Allocate FileHeader.new fullMap8 zeroDisk 1000).2.1.numBytes = 1000 ∧
    (Allocate FileHeader.new fullMap8 zeroDisk 1000).2.1.numSectors =
      ⌈((1000 : Int) : ℚ) / 128⌉ :=
  ⟨by decide, C8_failed_allocate_frame FileHeader.new fullMap8 zeroDisk 1000 (by decide)⟩

/-- C9 (translation walk length): after an `Allocate` with enough free sectors, for every
offset in `[0, fileSize)`, `ByteToSector` reads the root node `dataSectors[0]`, then
exactly `numLevel - 1` further sectors, each one written by `Allocate` as an indirection
node, and returns the leaf of index `offset / SectorSize`.  For `fileSize = 4224` and
offset 4223: `numSectors = 33`, `numLevel = 2`, the walk reads the root and the single
node `c` held in root slot 1, and returns slot 0 of `c`, the leaf of index 32. -/
theorem C9_walk_length (hdr : FileHeader) (fm : PersistentBitmap) (disk : SynchDisk)
    (fileSize o : Int)
    (hfree : sectorsNeeded fileSize ≤ fm.NumClear) (ho0 : 0 ≤ o) (ho1 : o < fileSize) :
    (Allocate hdr fm disk fileSize).1 = true ∧
    ∃ (path : List Int) (leaf : Int),
      ByteToSector (Allocate hdr fm disk fileSize).2.1 (Allocate hdr fm disk fileSize).2.2.disk o =
        ((Allocate hdr fm disk fileSize).2.1.dataSectors.getD 0 (-1) :: path, some leaf) ∧
      (path.length : Int) = (Allocate hdr fm disk fileSize).2.1.numLevel - 1 ∧
      (∀ x ∈ path, x ∈ (Allocate hdr fm disk fileSize).2.2.written) ∧
      (Allocate hdr fm disk fileSize).2.1.dataSectors.getD 0 (-1) ∈
        (Allocate hdr fm disk fileSize).2.2.written ∧
      (Allocate hdr fm disk fileSize).2.2.leaves[(o / SectorSize).toNat]? = some leaf ∧
      (fileSize = 4224 → o = 4223 →
        (Allocate hdr fm disk fileSize).2.1.numSectors = 33 ∧
        (Allocate hdr fm disk fileSize).2.1.numLevel = 2 ∧
        (Allocate hdr fm disk fileSize).2.2.leaves.length = 33 ∧
        (Allocate hdr fm disk fileSize).2.2.leaves[32]? = some leaf ∧
        ∃ c : Int, path = [c] ∧
          ((Allocate hdr fm disk fileSize).2.2.disk
            ((Allocate hdr fm disk fileSize).2.1.dataSectors.getD 0 (-1)))[1]? = some c ∧
          ((Allocate hdr fm disk fileSize).2.2.disk c)[0]? = some leaf) := by
  obtain ⟨L, root, path, tbl', hok, hlvl, hroot, htbl, hlen, hj, hlook, hb, hp, hw, hrw⟩ :=
    ByteToSector_alloc hdr fm disk fileSize o hfree ho0 ho1
  obtain ⟨leaf, hleaf⟩ : ∃ leaf,
      (Allocate hdr fm disk fileSize).2.2.leaves[(o / SectorSize).toNat]? = some leaf :=
    ⟨_, List.getElem?_eq_getElem hj⟩
  rw [hleaf] at hb hlook
  rw [hroot]
  refine ⟨hok, path, leaf, hb, by rw [hlvl, hp]; ring, hw, hrw, hleaf, ?_⟩
  intro hfs ho
  subst hfs ho
  have hg : ¬ (fm.NumClear : Int) < divRoundUp 4224 SectorSize := by
    intro hg
    rw [Allocate_fail hdr fm disk 4224 hg] at hok
    exact Bool.false_ne_true hok
  obtain ⟨-, -, h3, h4, -, -⟩ := Allocate_ok hdr fm disk 4224 hg
  have e1 : divRoundUp 4224 SectorSize = 33 := by decide
  have e2 : log32 33 + 1 = 2 := by decide
  have e3 : ((4223 : Int) / SectorSize).toNat = 32 := by decide
  rw [e1] at h3 h4 hlen
  rw [e2] at h4
  rw [e3] at hleaf hlook
  have hL : L = 1 := by rw [h4] at hlvl; omega
  subst hL
  refine ⟨h3, h4, by rw [hlen]; rfl, hleaf, ?_⟩
  rw [htbl]
  unfold lookup at hlook
  have q1 : 32 / 32 ^ 1 = 1 := by decide
  have q2 : 32 % 32 ^ 1 = 0 := by decide
  rw [q1, q2] at hlook
  cases hc : tbl'[1]? with
  | none =>
    rw [hc] at hlook
    simp at hlook
  | some c =>
    rw [hc] at hlook
    simp only [walkFrom, pow_zero, Nat.div_one] at hlook
    cases hv : ((Allocate hdr fm disk 4224).2.2.disk c)[0]? with
    | none =>
      rw [hv] at hlook
      simp at hlook
    | some v =>
      rw [hv] at hlook
      simp only [Prod.mk.injEq, Option.some.injEq] at hlook
      exact ⟨c, hlook.1.symm, rfl, by rw [hv, hlook.2]⟩

/-- Instance of `C9_walk_length` on a concrete map, disk and file size. -/
theorem C9_walk_length_witness :
    (sectorsNeeded 4224 ≤ clearMap40.NumClear ∧ (0 : Int) ≤ 4223 ∧ (4223 : Int) < 4224) ∧
    (Allocate FileHeader.new clearMap40 zeroDisk 4224).1 = true ∧
    ∃ (path : List Int) (leaf : Int),
      ByteToSector (Allocate FileHeader.new clearMap40 zeroDisk 4224).2.1
          (Allocate FileHeader.new clearMap40 zeroDisk 4224).2.2.disk 4223 =
        ((Allocate FileHeader.new clearMap40 zeroDisk 4224).2.1.dataSectors.getD 0 (-1) :: path,
          some leaf) ∧
      (path.length : Int) = (Allocate FileHeader.new clearMap40 zeroDisk 4224).2.1.numLevel - 1 :=
  have h := C9_walk_length FileHeader.new clearMap40 zeroDisk 4224 4223
    (by decide) (by decide) (by decide)
  ⟨⟨by decide, by decide, by decide⟩, h.1,
    h.2.elim fun path hp => hp.elim fun leaf hl => ⟨path, leaf, hl.1, hl.2.1⟩⟩

/-- C10 (persistence round trip): after `h.WriteBack(s)`, `FetchFrom(s)` on any header
yields a header equal to `h`, hence equal in `numBytes`, `numSectors`, `numLevel`,
`dataSectors` and `fileDescriptor`. -/
theorem C10_writeBack_fetchFrom (h fresh : FileHeader) (disk : SynchDisk) (s : Int) :
    FetchFrom fresh (WriteBack h disk s) s = h ∧
    (FetchFrom fresh (WriteBack h disk s) s).numBytes = h.numBytes ∧
    (FetchFrom fresh (WriteBack h disk s) s).numSectors = h.numSectors ∧
    (FetchFrom fresh (WriteBack h disk s) s).numLevel = h.numLevel ∧
    (FetchFrom fresh (WriteBack h disk s) s).dataSectors = h.dataSectors ∧
    (FetchFrom fresh (WriteBack h disk s) s).fileDescriptor = h.fileDescriptor := by
  have e : FetchFrom fresh (WriteBack h disk s) s = h := by
    unfold FetchFrom WriteBack SynchDisk.ReadSector SynchDisk.WriteSector
    rw [if_pos rfl]
    exact ofImage_image h
  rw [e]
  exact ⟨rfl, rfl, rfl, rfl, rfl, rfl⟩

/-! ## Nesting depth of the recursive helpers -/

theorem pow32_cast_facts (t : Nat) :
    ((32 ^ (t + 1) : Nat) : Int) ≠ 0 ∧ ((32 ^ (t + 1) : Nat) : Int) ≠ 1 ∧
      ((32 ^ (t + 1) : Nat) : Int).tdiv (NumInDirect : Int) = ((32 ^ t : Nat) : Int) := by
  have hP : 0 < 32 ^ (t + 1) := Nat.pow_pos (by decide)
  have hP1 : 1 < 32 ^ (t + 1) := Nat.one_lt_pow (by omega) (by decide)
  refine ⟨by exact_mod_cast hP.ne', by exact_mod_cast hP1.ne', ?_⟩
  rw [Int.tdiv_eq_ediv (by omega) (by simp [NumInDirect])]
  have : 32 ^ (t + 1) / NumInDirect = 32 ^ t := by
    rw [Nat.pow_succ]; exact Nat.mul_div_cancel _ (by decide)
  exact_mod_cast this

theorem GetSectorCallsF_safe (disk : SynchDisk) (t : Nat) :
    ∀ (fuel j : Nat) (tbl : indirectTable), j < 32 * 32 ^ t →
      ∀ c ∈ GetSectorCallsF disk fuel (j : Int) ((32 ^ t : Nat) : Int) tbl,
        (∃ e : Nat, e ≤ t ∧ c.2 = ((32 ^ e : Nat) : Int)) ∧ c.2 ≠ 0 ∧
          0 ≤ c.1.tdiv c.2 ∧ c.1.tdiv c.2 < (NumInDirect : Int) := by
  induction t with
  | zero =>
    intro fuel j tbl hj c hc
    have hc' : c = ((j : Int), ((32 ^ 0 : Nat) : Int)) := by
      cases fuel <;> simpa [GetSectorCallsF] using hc
    subst hc'
    refine ⟨⟨0, le_refl _, rfl⟩, by simp, ?_, ?_⟩
    · simp only [pow_zero, Nat.cast_one, Int.tdiv_one]; omega
    · simp only [pow_zero, Nat.cast_one, Int.tdiv_one, NumInDirect]; omega
  | succ t ih =>
    intro fuel j tbl hj c hc
    obtain ⟨h0, h1, h2⟩ := pow32_cast_facts t
    have hP : 0 < 32 ^ (t + 1) := Nat.pow_pos (by decide)
    have e1 : (j : Int).tdiv ((32 ^ (t + 1) : Nat) : Int) = ((j / 32 ^ (t + 1) : Nat) : Int) := by
      rw [Int.tdiv_eq_ediv (by omega) (by omega)]; norm_cast
    have e2 : (j : Int).tmod ((32 ^ (t + 1) : Nat) : Int) = ((j % 32 ^ (t + 1) : Nat) : Int) := by
      rw [Int.tmod_eq_emod (by omega) (by omega)]; norm_cast
    have hq : j / 32 ^ (t + 1) < 32 := (Nat.div_lt_iff_lt_mul hP).2 hj
    have hhead : (∃ e : Nat, e ≤ t + 1 ∧ ((32 ^ (t + 1) : Nat) : Int) = ((32 ^ e : Nat) : Int)) ∧
        ((32 ^ (t + 1) : Nat) : Int) ≠ 0 ∧
        0 ≤ (j : Int).tdiv ((32 ^ (t + 1) : Nat) : Int) ∧
        (j : Int).tdiv ((32 ^ (t + 1) : Nat) : Int) < (NumInDirect : Int) := by
      refine ⟨⟨t + 1, le_refl _, rfl⟩, h0, ?_, ?_⟩
      · rw [e1]; exact Int.ofNat_nonneg _
      · rw [e1]; simp only [NumInDirect]; exact_mod_cast hq
    cases fuel with
    | zero =>
      have hc' : c = ((j : Int), ((32 ^ (t + 1) : Nat) : Int)) := by
        simpa [GetSectorCallsF] using hc
      subst hc'; exact hhead
    | succ f =>
      rw [GetSectorCallsF] at hc
      simp only [h0, h1, if_false, h2] at hc
      cases hs : slot tbl ((j : Int).tdiv ((32 ^ (t + 1) : Nat) : Int)) with
      | none =>
        rw [hs] at hc
        have hc' : c = ((j : Int), ((32 ^ (t + 1) : Nat) : Int)) := by simpa using hc
        subst hc'; exact hhead
      | some sec =>
        rw [hs] at hc
        simp only [List.mem_cons] at hc
        rcases hc with hc | hc
        · subst hc; exact hhead
        · rw [e2] at hc
          have hlt : j % 32 ^ (t + 1) < 32 * 32 ^ t := by
            have := Nat.mod_lt j hP
            have hpw : 32 ^ (t + 1) = 32 * 32 ^ t := by rw [Nat.pow_succ, Nat.mul_comm]
            omega
          obtain ⟨⟨e, he, hce⟩, r2, r3, r4⟩ := ih f (j % 32 ^ (t + 1)) _ hlt c hc
          exact ⟨⟨e, by omega, hce⟩, r2, r3, r4⟩

theorem GetSectorCallsF_length_eq (disk : SynchDisk) (t : Nat) :
    ∀ (fuel : Nat) (secNum : Int) (tbl : indirectTable), t < fuel →
      (GetSectorF disk fuel secNum ((32 ^ t : Nat) : Int) tbl).2 ≠ none →
      (GetSectorCallsF disk fuel secNum ((32 ^ t : Nat) : Int) tbl).length = t + 1 := by
  induction t with
  | zero =>
    intro fuel secNum tbl hf _
    obtain ⟨f, rfl⟩ : ∃ f, fuel = f + 1 := ⟨fuel - 1, by omega⟩
    simp [GetSectorCallsF]
  | succ t ih =>
    intro fuel secNum tbl hf hres
    obtain ⟨f, rfl⟩ : ∃ f, fuel = f + 1 := ⟨fuel - 1, by omega⟩
    obtain ⟨h0, h1, h2⟩ := pow32_cast_facts t
    rw [GetSectorF] at hres
    rw [GetSectorCallsF]
    simp only [h0, h1, if_false, h2] at hres ⊢
    cases hs : slot tbl (secNum.tdiv ((32 ^ (t + 1) : Nat) : Int)) with
    | none => rw [hs] at hres; exact absurd rfl hres
    | some sec =>
      rw [hs] at hres
      simp only at hres
      have := ih f (secNum.tmod ((32 ^ (t + 1) : Nat) : Int)) (disk.ReadSector sec) (by omega) hres
      simp only [List.length_cons, this]

theorem GetSectorCalls_length_eq (disk : SynchDisk) (t : Nat) (secNum : Int) (tbl : indirectTable)
    (h : (GetSector disk secNum ((32 ^ t : Nat) : Int) tbl).2 ≠ none) :
    (GetSectorCalls disk secNum ((32 ^ t : Nat) : Int) tbl).length = t + 1 := by
  unfold GetSectorCalls
  unfold GetSector at h
  apply GetSectorCallsF_length_eq disk t _ secNum tbl _ h
  rw [Int.natAbs_ofNat]
  exact Nat.lt_pow_self (by decide) t

/-! ## `GetSector` depends on the disk only through the sectors it reads -/

theorem GetSectorF_footprint (disk disk2 : SynchDisk) :
    ∀ (fuel : Nat) (secNum LvlNum : Int) (tbl : indirectTable),
      (∀ x ∈ (GetSectorF disk fuel secNum LvlNum tbl).1, disk2 x = disk x) →
      GetSectorF disk2 fuel secNum LvlNum tbl = GetSectorF disk fuel secNum LvlNum tbl := by
  intro fuel
  induction fuel with
  | zero => intro secNum LvlNum tbl _; rfl
  | succ f ih =>
    intro secNum LvlNum tbl h
    rw [GetSectorF] at h
    rw [GetSectorF, GetSectorF]
    by_cases h0 : LvlNum = 0
    · simp [h0]
    · by_cases h1 : LvlNum = 1
      · simp [h1]
      · simp only [h0, h1, if_false] at h ⊢
        cases hs : slot tbl (secNum.tdiv LvlNum) with
        | none => rfl
        | some sec =>
          rw [hs] at h
          simp only [List.mem_cons, forall_eq_or_imp] at h
          simp only [SynchDisk.ReadSector] at h ⊢
          rw [h.1, ih _ _ _ h.2]

theorem ByteToSector_footprint (hdr : FileHeader) (disk disk2 : SynchDisk) (o : Int)
    (h : ∀ x ∈ (ByteToSector hdr disk o).1, disk2 x = disk x) :
    ByteToSector hdr disk2 o = ByteToSector hdr disk o := by
  unfold ByteToSector at h ⊢
  simp only [List.mem_cons, forall_eq_or_imp] at h
  simp only [SynchDisk.ReadSector, GetSector] at h ⊢
  rw [h.1, GetSectorF_footprint disk disk2 _ _ _ _ h.2]

/-! ## The header of a successful `Allocate` -/

theorem Allocate_level (hdr : FileHeader) (fm : PersistentBitmap) (disk : SynchDisk)
    (fileSize : Int) (hok : (Allocate hdr fm disk fileSize).1 = true) (h1 : 1 ≤ fileSize) :
    ∃ L : Nat, (Allocate hdr fm disk fileSize).2.1.numLevel = (L : Int) + 1 ∧
      32 ^ L ≤ (divRoundUp fileSize SectorSize).toNat ∧
      (divRoundUp fileSize SectorSize).toNat < 32 ^ (L + 1) ∧
      (Allocate hdr fm disk fileSize).2.1.numSectors = divRoundUp fileSize SectorSize := by
  obtain ⟨-, -, h3, h4, -, -⟩ := Allocate_ok hdr fm disk fileSize (Allocate_gate hok)
  have hns := divRoundUp_pos h1
  rw [log32_of_pos hns] at h4
  exact ⟨_, h4, Nat.pow_log_le_self 32 (by omega), Nat.lt_pow_succ_log_self (by decide) _, h3⟩

theorem Allocate_traces (hdr : FileHeader) (fm : PersistentBitmap) (disk : SynchDisk)
    (fileSize : Int) (h1 : 1 ≤ fileSize) (hfree : sectorsNeeded fileSize ≤ fm.NumClear) :
    (Allocate hdr fm disk fileSize).2.2.claimed.Nodup ∧
    (∀ x ∈ (Allocate hdr fm disk fileSize).2.2.claimed,
      0 ≤ x ∧ fm.Test x = false ∧ (Allocate hdr fm disk fileSize).2.2.freeMap.Test x = true) ∧
    (∀ x ∈ (Allocate hdr fm disk fileSize).2.2.written,
      x ∈ (Allocate hdr fm disk fileSize).2.2.claimed) ∧
    (∀ x ∈ (Allocate hdr fm disk fileSize).2.2.leaves,
      x ∈ (Allocate hdr fm disk fileSize).2.2.claimed) ∧
    (∀ x, (Allocate hdr fm disk fileSize).2.2.freeMap.Test x =
      (fm.Test x || decide (x ∈ (Allocate hdr fm disk fileSize).2.2.claimed))) := by
  obtain ⟨L, root, new, lv, w, tbl', -, -, -, -, hg, -⟩ :=
    Allocate_tree hdr fm disk fileSize h1 hfree
  have hc : (Allocate hdr fm disk fileSize).2.2.claimed = root :: new := by rw [hg.claimed]; rfl
  have hw : (Allocate hdr fm disk fileSize).2.2.written = w ++ [root] := by rw [hg.written]; rfl
  have hl : (Allocate hdr fm disk fileSize).2.2.leaves = lv := by rw [hg.leaves]; rfl
  rw [hc, hw, hl]
  exact ⟨hg.nodup, fun x hx => ⟨hg.nonneg x hx, hg.fresh x hx, hg.marked hx⟩, hg.w_sub, hg.lv_sub,
    hg.test⟩

/-- C12 (idempotent translation): `ByteToSector` takes the header and the disk and
returns only the sectors it read and its result, so it changes neither header, map nor
disk; its result is determined by the header and by the sectors it reads, hence a second
call returns what the first returned whenever those sectors are unchanged in between, in
particular when nothing was mutated. -/
theorem C12_byteToSector_idempotent (hdr : FileHeader) (disk disk2 : SynchDisk) (o : Int)
    (h : ∀ x ∈ (ByteToSector hdr disk o).1, disk2 x = disk x) :
    ByteToSector hdr disk2 o = ByteToSector hdr disk o ∧
    (ByteToSector hdr disk2 o).2 = (ByteToSector hdr disk o).2 := by
  rw [ByteToSector_footprint hdr disk disk2 o h]
  exact ⟨rfl, rfl⟩

/-- Instance of `C12_byteToSector_idempotent`: after `Allocate` of 4224 bytes, rewriting
the unrelated sector 39 between two calls of `ByteToSector(4223)` leaves the result
unchanged. -/
theorem C12_byteToSector_idempotent_witness :
    (∀ x ∈ (ByteToSector (Allocate FileHeader.new clearMap40 zeroDisk 4224).2.1
        (Allocate FileHeader.new clearMap40 zeroDisk 4224).2.2.disk 4223).1,
      ((Allocate FileHeader.new clearMap40 zeroDisk 4224).2.2.disk.WriteSector 39 []) x =
        (Allocate FileHeader.new clearMap40 zeroDisk 4224).2.2.disk x) ∧
    (ByteToSector (Allocate FileHeader.new clearMap40 zeroDisk 4224).2.1
      ((Allocate FileHeader.new clearMap40 zeroDisk 4224).2.2.disk.WriteSector 39 []) 4223).2 =
    (ByteToSector (Allocate FileHeader.new clearMap40 zeroDisk 4224).2.1
      (Allocate FileHeader.new clearMap40 zeroDisk 4224).2.2.disk 4223).2 :=
  have h : ∀ x ∈ (ByteToSector (Allocate FileHeader.new clearMap40 zeroDisk 4224).2.1
        (Allocate FileHeader.new clearMap40 zeroDisk 4224).2.2.disk 4223).1,
      ((Allocate FileHeader.new clearMap40 zeroDisk 4224).2.2.disk.WriteSector 39 []) x =
        (Allocate FileHeader.new clearMap40 zeroDisk 4224).2.2.disk x := by decide
  ⟨h, (C12_byteToSector_idempotent _ _ _ 4223 h).2⟩

/-- The part of index safety that holds: after a successful `Allocate`, for every
offset in `[0, fileSize)` and whatever the disk holds, every call of `GetSector` made by
`ByteToSector` has a `LvlNum` that is a power of 32, hence positive, and a slot index
`secNum / LvlNum` in `[0, NumInDirect)`.  When the map had a clear bit for every sector of
the tree, the walk makes exactly `numLevel` calls and every slot it dereferences holds a
sector claimed by this `Allocate`: the nodes it reads were written by it and the sector
it returns is one of its leaves. -/
theorem ByteToSector_index_safety (hdr : FileHeader) (fm : PersistentBitmap) (disk : SynchDisk)
    (fileSize o : Int) (hok : (Allocate hdr fm disk fileSize).1 = true)
    (ho0 : 0 ≤ o) (ho1 : o < fileSize) :
    (∀ (disk2 : SynchDisk),
      ∀ c ∈ ByteToSectorCalls (Allocate hdr fm disk fileSize).2.1 disk2 o,
        (∃ e : Nat, c.2 = (32 : Int) ^ e) ∧ 0 < c.2 ∧
        0 ≤ c.1.tdiv c.2 ∧ c.1.tdiv c.2 < (NumInDirect : Int)) ∧
    (sectorsNeeded fileSize ≤ fm.NumClear →
      ((ByteToSectorCalls (Allocate hdr fm disk fileSize).2.1
        (Allocate hdr fm disk fileSize).2.2.disk o).length : Int) =
          (Allocate hdr fm disk fileSize).2.1.numLevel ∧
      ∃ (path : List Int) (leaf : Int),
        ByteToSector (Allocate hdr fm disk fileSize).2.1
            (Allocate hdr fm disk fileSize).2.2.disk o =
          ((Allocate hdr fm disk fileSize).2.1.dataSectors.getD 0 (-1) :: path, some leaf) ∧
        (∀ x ∈ (Allocate hdr fm disk fileSize).2.1.dataSectors.getD 0 (-1) :: path,
          0 ≤ x ∧ x ∈ (Allocate hdr fm disk fileSize).2.2.claimed ∧
            x ∈ (Allocate hdr fm disk fileSize).2.2.written) ∧
        0 ≤ leaf ∧ leaf ∈ (Allocate hdr fm disk fileSize).2.2.claimed ∧
        leaf ∈ (Allocate hdr fm disk fileSize).2.2.leaves) := by
  have h1 : 1 ≤ fileSize := by omega
  obtain ⟨hj1, hj2⟩ := leafIndex_lt ho0 ho1
  constructor
  · intro disk2 c hc
    obtain ⟨L, hlvl, hL, hN, -⟩ := Allocate_level hdr fm disk fileSize hok h1
    unfold ByteToSectorCalls GetSectorCalls at hc
    rw [powNumInDirect_of_level hlvl (Allocate_level_le hok hL), hj1] at hc
    obtain ⟨⟨e, -, he⟩, r2, r3, r4⟩ := GetSectorCallsF_safe disk2 L _ _ _
      (by rw [Nat.pow_succ, Nat.mul_comm] at hN; omega) c hc
    exact ⟨⟨e, by rw [he]; push_cast; rfl⟩, by rw [he]; positivity, r3, r4⟩
  · intro hfree
    obtain ⟨L, root, path, tbl', -, hlvl, hroot, htbl, -, hj, -, hb, hp, hw, hrw⟩ :=
      ByteToSector_alloc hdr fm disk fileSize o hfree ho0 ho1
    obtain ⟨-, hcl, hwc, hlc, -⟩ := Allocate_traces hdr fm disk fileSize h1 hfree
    obtain ⟨L2, hlvl2, hL2, -, -⟩ := Allocate_level hdr fm disk fileSize hok h1
    have hL6 : L ≤ 6 := by
      have : L2 = L := by omega
      subst this
      exact Allocate_level_le hok hL2
    have hleaf := List.getElem?_eq_getElem hj
    rw [hleaf] at hb
    have hmem : (Allocate hdr fm disk fileSize).2.2.leaves[(o / SectorSize).toNat] ∈
        (Allocate hdr fm disk fileSize).2.2.leaves := List.getElem_mem _
    constructor
    · have hres : (GetSector (Allocate hdr fm disk fileSize).2.2.disk (o.tdiv SectorSize)
          ((32 ^ L : Nat) : Int) tbl').2 ≠ none := by
        have := congrArg Prod.snd hb
        unfold ByteToSector at this
        simp only [hroot, SynchDisk.ReadSector, htbl, powNumInDirect_of_level hlvl hL6] at this
        rw [this]; simp
      have := GetSectorCalls_length_eq _ L _ _ hres
      unfold ByteToSectorCalls
      rw [powNumInDirect_of_level hlvl hL6]
      simp only [hroot, SynchDisk.ReadSector, htbl, this, hlvl]
      push_cast; rfl
    · rw [hroot]
      refine ⟨path, _, hb, ?_, (hcl _ (hlc _ hmem)).1, hlc _ hmem, hmem⟩
      intro x hx
      have hxw : x ∈ (Allocate hdr fm disk fileSize).2.2.written := by
        rcases List.mem_cons.1 hx with hx | hx
        · rw [hx]; exact hrw
        · exact hw x hx
      exact ⟨(hcl _ (hwc _ hxw)).1, hwc _ hxw, hxw⟩

/-! ## The walk on a well-formed disk -/

set_option maxRecDepth 20000 in
/-- C11 (failing input): after `Allocate` of 128 bytes on 40 clear sectors the file's
only leaf is sector 1 and `ByteToSector(0)` returns it, but `Print` reads sector 0, the
root indirection node held in `dataSectors[0]`, and renders its 128 bytes.  After
`Allocate` of 256 bytes the leaves are sectors 1 and 2 and `Print` reads sector 0 and
sector -1, the unset `dataSectors[1]`. -/
theorem C11_print_reads_header_slots :
    (Allocate FileHeader.new clearMap40 zeroDisk 128).1 = true ∧
    (Allocate FileHeader.new clearMap40 zeroDisk 128).2.2.leaves = [1] ∧
    (ByteToSector (Allocate FileHeader.new clearMap40 zeroDisk 128).2.1
      (Allocate FileHeader.new clearMap40 zeroDisk 128).2.2.disk 0).2 = some 1 ∧
    (Print (Allocate FileHeader.new clearMap40 zeroDisk 128).2.1
      (Allocate FileHeader.new clearMap40 zeroDisk 128).2.2.disk).map PrintOutput.readSecs =
        some [0] ∧
    (Print (Allocate FileHeader.new clearMap40 zeroDisk 128).2.1
      (Allocate FileHeader.new clearMap40 zeroDisk 128).2.2.disk).map
        (fun p => (p.contents.map List.length).sum) = some 128 ∧
    (Allocate FileHeader.new clearMap40 zeroDisk 256).2.2.leaves = [1, 2] ∧
    (Print (Allocate FileHeader.new clearMap40 zeroDisk 256).2.1
      (Allocate FileHeader.new clearMap40 zeroDisk 256).2.2.disk).map PrintOutput.readSecs =
        some [0, -1] := by
  refine ⟨by decide, by decide, by decide, by decide, by decide, by decide, by decide⟩

/-! ## Lists read off a forest -/

namespace Forest

theorem roots_append (f g : Forest) : roots (append f g) = roots f ++ roots g := by
  induction f with
  | nil => rfl
  | cons s k r _ ih => simp [append, roots, ih]

theorem pre_append (f g : Forest) : pre (append f g) = pre f ++ pre g := by
  induction f with
  | nil => rfl
  | cons s k r _ ih => simp [append, pre, ih]

theorem leavesAt_append (t : Nat) (f g : Forest) :
    leavesAt t (append f g) = leavesAt t f ++ leavesAt t g := by
  induction f with
  | nil => cases t <;> simp [append, leavesAt]
  | cons s k r _ ih => cases t <;> simp [append, leavesAt, ih]

theorem nodesPost_append (t : Nat) (f g : Forest) :
    nodesPost t (append f g) = nodesPost t f ++ nodesPost t g := by
  induction f with
  | nil => cases t <;> simp [append, nodesPost]
  | cons s k r _ ih => cases t <;> simp [append, nodesPost, ih]

theorem kidCounts_append (f g : Forest) :
    kidCounts (append f g) = kidCounts f ++ kidCounts g := by
  induction f with
  | nil => rfl
  | cons s k r _ ih => simp [append, kidCounts, ih]

theorem append_nil (f : Forest) : append f nil = f := by
  induction f with
  | nil => rfl
  | cons s k r _ ih => simp [append, ih]

theorem length_kidCounts (f : Forest) : (kidCounts f).length = (roots f).length := by
  induction f with
  | nil => rfl
  | cons s k r _ ih => simp [kidCounts, roots, ih]

end Forest

/-! ## The forest built by `AllocSector` -/

theorem Shape_cons_join {n : Nat} {s : Int} {k r : Forest} {a b : Nat}
    (h1 : Shape n (Forest.cons s k Forest.nil) a) (h2 : Shape n r b)
    (ha : a = min (a + b) (32 ^ n)) :
    Shape n (Forest.cons s k r) (a + b) := by
  cases n with
  | zero =>
    simp only [Shape] at h1 ⊢
    obtain ⟨hk, hpos, hz⟩ := h1
    have : a + b - 1 = b := by omega
    rw [this]
    exact ⟨hk, by omega, h2⟩
  | succ t =>
    simp only [Shape] at h1 ⊢
    obtain ⟨hpos, hk, hz⟩ := h1
    have hB : 0 < 32 ^ (t + 1) := Nat.pow_pos (by decide)
    have e1 : min (a + b) (32 ^ (t + 1)) = min a (32 ^ (t + 1)) := by omega
    have e2 : a + b - min a (32 ^ (t + 1)) = b := by omega
    rw [e1, e2]
    exact ⟨by omega, hk, h2⟩

theorem stepTree_zero (need : Int) : StepTree need 0 := by
  intro i tbl s m hm hpos hfree
  have hlt : s.allocSecNum < need := by omega
  have hm1 : min m (32 ^ 0) = 1 := by simp; omega
  refine ⟨s.freeMap.FindAndSet.1, Forest.nil, rfl, ?_, ?_, ?_, ?_, ?_⟩
  · simp [allocStep, AllocSectorN, hlt, Forest.pre]
  · simp [allocStep, AllocSectorN, hlt, Forest.leavesAt]
  · simp [allocStep, AllocSectorN, hlt, Forest.nodesPost]
  · rw [hm1]; simp [Shape]
  · intro d _
    refine ⟨by simp [OnDisk], ?_⟩
    intro j _
    simp [walkFrom]

theorem Forest.pre_cons (s : Int) (k r : Forest) :
    Forest.pre (Forest.cons s k r) = Forest.pre (Forest.cons s k Forest.nil) ++ Forest.pre r := by
  simp [Forest.pre]

theorem Forest.leavesAt_cons (t : Nat) (s : Int) (k r : Forest) :
    Forest.leavesAt t (Forest.cons s k r) =
      Forest.leavesAt t (Forest.cons s k Forest.nil) ++ Forest.leavesAt t r := by
  cases t <;> simp [Forest.leavesAt]

theorem Forest.nodesPost_cons (t : Nat) (s : Int) (k r : Forest) :
    Forest.nodesPost t (Forest.cons s k r) =
      Forest.nodesPost t (Forest.cons s k Forest.nil) ++ Forest.nodesPost t r := by
  cases t <;> simp [Forest.nodesPost]

theorem OnDisk_cons (d : SynchDisk) (t : Nat) (s : Int) (k r : Forest) :
    OnDisk d t (Forest.cons s k r) ↔ OnDisk d t (Forest.cons s k Forest.nil) ∧ OnDisk d t r := by
  cases t <;> simp [OnDisk, and_assoc]

theorem loopTree_of_stepTree (need : Int) (n : Nat) (hstep : StepTree need n) :
    LoopTree need n := by
  intro k
  induction k with
  | zero =>
    intro i tbl s m hm hlen hfree
    refine ⟨Forest.nil, ?_, ?_, ?_, ?_, ?_, ?_, ?_, ?_⟩
    · simp [allocLoop, Forest.pre]
    · cases n <;> simp [allocLoop, Forest.leavesAt]
    · cases n <;> simp [allocLoop, Forest.nodesPost]
    · cases n <;> simp [Shape]
    · simp [Forest.roots]
    · intro j hj; simp [Forest.roots] at hj
    · intro idx _; simp [allocLoop]
    · intro d _
      refine ⟨by cases n <;> simp [OnDisk], ?_⟩
      intro j hj
      cases n <;> simp [Forest.leavesAt] at hj
  | succ k ih =>
    intro i tbl s m hm hlen hfree
    have hB : 0 < 32 ^ n := Nat.pow_pos (by decide)
    rcases Nat.eq_zero_or_pos m with hm0 | hpos
    · subst hm0
      have hnlt : ¬ s.allocSecNum < need := by omega
      refine ⟨Forest.nil, ?_, ?_, ?_, ?_, ?_, ?_, ?_, ?_⟩
      · simp [allocLoop, hnlt, Forest.pre]
      · cases n <;> simp [allocLoop, hnlt, Forest.leavesAt]
      · cases n <;> simp [allocLoop, hnlt, Forest.nodesPost]
      · cases n <;> simp [Shape]
      · simp [Forest.roots]
      · intro j hj; simp [Forest.roots] at hj
      · intro idx _; simp [allocLoop, hnlt]
      · intro d _
        refine ⟨by cases n <;> simp [OnDisk], ?_⟩
        intro j hj
        cases n <;> simp [Forest.leavesAt] at hj
    · have hlt : s.allocSecNum < need := by omega
      have hfree0 := hfree
      rw [treeSectors_split] at hfree
      obtain ⟨sec0, new1, lv1, w1, ht1, hg1, ha1, hn1, hl1, -⟩ :=
        stepSpec_all need n i tbl s m hm hpos (by omega)
      obtain ⟨sec, kids, ht, hc, hl, hw, hshape, hdisk⟩ := hstep i tbl s m hm hpos (by omega)
      have hrw : allocLoop (AllocSectorN need n) need (k + 1) i tbl s =
          allocLoop (AllocSectorN need n) need k (i + 1)
            (allocStep (AllocSectorN need n) need i tbl s).1
            (allocStep (AllocSectorN need n) need i tbl s).2 := by
        simp [allocLoop, hlt]
      rw [hrw]
      generalize allocStep (AllocSectorN need n) need i tbl s = r1 at *
      obtain ⟨tbl1, s1⟩ := r1
      simp only at ht1 hg1 ha1 ht hc hl hw hdisk
      subst ht
      have hpre1 : Forest.pre (Forest.cons sec kids Forest.nil) = sec0 :: new1 :=
        List.append_cancel_left (hc.symm.trans hg1.claimed)
      have hlv1 : Forest.leavesAt n (Forest.cons sec kids Forest.nil) = lv1 :=
        List.append_cancel_left (hl.symm.trans hg1.leaves)
      have hnc := hg1.numClear
      simp only [List.length_cons] at hnc
      obtain ⟨new2, lv2, w2, hg2, ha2, hn2, hl2, hlen2, hpre2, -⟩ :=
        loopSpec_all need n k (i + 1) (tbl.set i sec) s1 (m - min m (32 ^ n))
          (by rw [ha1]; omega) (by rw [List.length_set]; omega) (by omega)
      obtain ⟨f2, hc2, hl2', hw2, hshape2, hroots2, hslots2, hrest2, hdisk2⟩ :=
        ih (i + 1) (tbl.set i sec) s1 (m - min m (32 ^ n))
          (by rw [ha1]; omega) (by rw [List.length_set]; omega) (by omega)
      generalize allocLoop (AllocSectorN need n) need k (i + 1) (tbl.set i sec) s1 = r2 at *
      obtain ⟨tbl2, s2⟩ := r2
      simp only at hg2 ha2 hlen2 hpre2 hc2 hl2' hw2 hslots2 hrest2 hdisk2
      have hpre2' : Forest.pre f2 = new2 :=
        List.append_cancel_left (hc2.symm.trans hg2.claimed)
      have hlv2 : Forest.leavesAt n f2 = lv2 :=
        List.append_cancel_left (hl2'.symm.trans hg2.leaves)
      have hnd := (hg1.trans hg2).nodup
      refine ⟨Forest.cons sec kids f2, ?_, ?_, ?_, ?_, ?_, ?_, ?_, ?_⟩
      · show s2.claimed = _
        rw [hc2, hc, Forest.pre_cons sec kids f2, List.append_assoc]
      · show s2.leaves = _
        rw [hl2', hl, Forest.leavesAt_cons n sec kids f2, List.append_assoc]
      · show s2.written = _
        rw [hw2, hw, Forest.nodesPost_cons n sec kids f2, List.append_assoc]
      · rw [min_split]
        apply Shape_cons_join hshape hshape2
        rw [← min_split]
        have : 32 ^ n ≤ (k + 1) * 32 ^ n := Nat.le_mul_of_pos_left _ (by omega)
        omega
      · simp only [Forest.roots, List.length_cons]; omega
      · intro j hj
        simp only [Forest.roots, List.length_cons] at hj
        show tbl2[i + j]? = _
        cases j with
        | zero =>
          rw [Nat.add_zero, hpre2 i (by omega), List.getElem?_set]
          have : i < tbl.length := by omega
          simp [this, Forest.roots]
        | succ j =>
          have := hslots2 j (by omega)
          rw [show i + (j + 1) = i + 1 + j by omega, this]
          simp [Forest.roots]
      · intro idx hidx
        simp only [Forest.roots, List.length_cons] at hidx
        show tbl2[idx]? = _
        rw [hrest2 idx (by omega), List.getElem?_set]
        have : i ≠ idx := by omega
        simp [this]
      · intro d hd
        have hd1 : ∀ x ∈ Forest.pre (Forest.cons sec kids Forest.nil), d x = s1.disk x := by
          intro x hx
          rw [hd x (by rw [Forest.pre_cons]; exact List.mem_append_left _ hx)]
          apply hg2.disk
          intro hx2
          rw [hpre1] at hx
          exact (List.nodup_append.1 hnd).2.2 hx hx2
        have hd2 : ∀ x ∈ Forest.pre f2, d x = s2.disk x := by
          intro x hx
          exact hd x (by rw [Forest.pre_cons]; exact List.mem_append_right _ hx)
        obtain ⟨hon1, hwalk1⟩ := hdisk d hd1
        obtain ⟨hon2, hwalk2⟩ := hdisk2 d hd2
        refine ⟨(OnDisk_cons d n sec kids f2).2 ⟨hon1, hon2⟩, ?_⟩
        intro j hj
        rw [Forest.leavesAt_cons, List.length_append, hlv1, hlv2] at hj
        rw [Forest.nodesPost_cons]
        show ∃ c, tbl2[i + j / 32 ^ n]? = some c ∧ _
        by_cases hj1 : j < lv1.length
        · have hjB : j < 32 ^ n := by rw [hl1] at hj1; omega
          refine ⟨sec, ?_, ?_⟩
          · rw [Nat.div_eq_of_lt hjB, Nat.add_zero, hpre2 i (by omega), List.getElem?_set]
            have : i < tbl.length := by omega
            simp [this]
          · rw [Nat.mod_eq_of_lt hjB]
            exact (hwalk1 j (by rw [hlv1]; exact hj1)).trans (List.sublist_append_left _ _)
        · have hl1B : lv1.length = 32 ^ n := by
            rw [hl2] at hj
            rw [hl1] at hj ⊢
            omega
          have hj2 : j - 32 ^ n < lv2.length := by omega
          obtain ⟨c, hc1, hc2'⟩ := hwalk2 (j - 32 ^ n) (by rw [hlv2]; exact hj2)
          have hje : j = (j - 32 ^ n) + 32 ^ n := by omega
          refine ⟨c, ?_, ?_⟩
          · rw [hje, Nat.add_div_right _ hB, ← hc1]
            congr 1
            omega
          · rw [hje, Nat.add_mod_right]
            exact hc2'.trans (List.sublist_append_right _ _)

theorem eq_padded {t : indirectTable} {l : List Int} (_hlen : t.length = NumInDirect)
    (hl : l.length ≤ NumInDirect) (h1 : ∀ j, j < l.length → t[j]? = l[j]?)
    (h2 : ∀ idx, l.length ≤ idx → t[idx]? = emptyTable[idx]?) : t = padded l := by
  apply List.ext_getElem?
  intro idx
  unfold padded
  by_cases hi : idx < l.length
  · rw [h1 idx hi, List.getElem?_append_left hi]
  · rw [h2 idx (by omega), List.getElem?_append_right (by omega)]
    unfold emptyTable
    by_cases hi2 : idx < NumInDirect
    · rw [List.getElem?_replicate, List.getElem?_replicate, if_pos hi2, if_pos (by omega)]
    · rw [List.getElem?_replicate, List.getElem?_replicate, if_neg hi2, if_neg (by omega)]

theorem stepTree_succ (need : Int) (n : Nat) (hloop : LoopTree need n) :
    StepTree need (n + 1) := by
  intro i tbl s m hm hpos hfree
  have hB : 0 < 32 ^ (n + 1) := Nat.pow_pos (by decide)
  have hx0 : 0 < min m (32 ^ (n + 1)) := by omega
  rw [treeSectors_succ hx0 (Nat.min_le_right _ _)] at hfree
  have hclear : 0 < s.freeMap.NumClear := by omega
  have hg0 := Grows.claim s hclear
  have hne : s.allocSecNum ≠ need := by omega
  have hpow : 32 ^ (n + 1) = NumInDirect * 32 ^ n := by
    rw [Nat.pow_succ, Nat.mul_comm]; rfl
  have hnc0 := hg0.numClear
  simp only [List.length_singleton] at hnc0
  have hfree1 : treeSectors n (min m (NumInDirect * 32 ^ n)) ≤
      ({ s with freeMap := s.freeMap.FindAndSet.2,
                claimed := s.claimed ++ [s.freeMap.FindAndSet.1] } : AllocState).freeMap.NumClear := by
    rw [← hpow]
    show _ ≤ s.freeMap.FindAndSet.2.NumClear
    omega
  obtain ⟨new, lv, w, hg, -, -, -, hlen, -, -⟩ :=
    loopSpec_all need n NumInDirect 0 emptyTable
      { s with freeMap := s.freeMap.FindAndSet.2,
               claimed := s.claimed ++ [s.freeMap.FindAndSet.1] } m hm
      (by simp [emptyTable]) hfree1
  obtain ⟨f, hc, hl, hw, hshape, hroots, hslots, hrest, hdisk⟩ :=
    hloop NumInDirect 0 emptyTable
      { s with freeMap := s.freeMap.FindAndSet.2,
               claimed := s.claimed ++ [s.freeMap.FindAndSet.1] } m hm
      (by simp [emptyTable]) hfree1
  have hstep : allocStep (AllocSectorN need (n + 1)) need i tbl s =
      (tbl.set i s.freeMap.FindAndSet.1,
        { (allocLoop (AllocSectorN need n) need NumInDirect 0 emptyTable
            { s with freeMap := s.freeMap.FindAndSet.2,
                     claimed := s.claimed ++ [s.freeMap.FindAndSet.1] }).2 with
          disk := (allocLoop (AllocSectorN need n) need NumInDirect 0 emptyTable
            { s with freeMap := s.freeMap.FindAndSet.2,
                     claimed := s.claimed ++ [s.freeMap.FindAndSet.1] }).2.disk.WriteSector
              s.freeMap.FindAndSet.1
              (allocLoop (AllocSectorN need n) need NumInDirect 0 emptyTable
                { s with freeMap := s.freeMap.FindAndSet.2,
                         claimed := s.claimed ++ [s.freeMap.FindAndSet.1] }).1
          written := (allocLoop (AllocSectorN need n) need NumInDirect 0 emptyTable
            { s with freeMap := s.freeMap.FindAndSet.2,
                     claimed := s.claimed ++ [s.freeMap.FindAndSet.1] }).2.written ++
              [s.freeMap.FindAndSet.1] }) := by
    simp [allocStep, AllocSectorN, hne]
  rw [hstep]
  generalize allocLoop (AllocSectorN need n) need NumInDirect 0 emptyTable
      { s with freeMap := s.freeMap.FindAndSet.2,
               claimed := s.claimed ++ [s.freeMap.FindAndSet.1] } = r at *
  obtain ⟨tbl', s2⟩ := r
  simp only at hg hlen hc hl hw hslots hrest hdisk ⊢
  generalize s.freeMap.FindAndSet.1 = sec at *
  have hsec : sec ∉ new := hg.not_mem_of_marked (hg0.marked (List.mem_singleton.2 rfl))
  have hpre : Forest.pre f = new := List.append_cancel_left (hc.symm.trans hg.claimed)
  have htbl : tbl' = padded (Forest.roots f) := by
    apply eq_padded (by rw [hlen]; simp [emptyTable]) hroots
    · intro j hj
      have := hslots j hj
      rwa [Nat.zero_add] at this
    · intro idx hidx
      exact hrest idx (by omega)
  refine ⟨sec, f, rfl, ?_, ?_, ?_, ?_, ?_⟩
  · rw [hc]; simp [Forest.pre]
  · rw [hl]; simp [Forest.leavesAt]
  · rw [hw]; simp [Forest.nodesPost]
  · simp only [Shape]
    refine ⟨hx0, ?_, by omega⟩
    rw [Nat.min_assoc, Nat.min_self, hpow]
    exact hshape
  · intro d hd
    have hdsec : d sec = tbl' := by
      rw [hd sec (by simp [Forest.pre])]
      simp [SynchDisk.WriteSector]
    have hd2 : ∀ x ∈ Forest.pre f, d x = s2.disk x := by
      intro x hx
      rw [hd x (by simp [Forest.pre, hx])]
      have : x ≠ sec := fun e => hsec (by rw [← hpre, ← e]; exact hx)
      simp [SynchDisk.WriteSector, this]
    obtain ⟨hon, hwalk⟩ := hdisk d hd2
    refine ⟨?_, ?_⟩
    · simp only [OnDisk]
      exact ⟨by rw [hdsec, htbl], hon, trivial⟩
    · intro j hj
      have hj' : j < (Forest.leavesAt n f).length := by
        simpa [Forest.leavesAt] using hj
      obtain ⟨c, hc1, hc2⟩ := hwalk j hj'
      rw [Nat.zero_add] at hc1
      simp only [walkFrom, hdsec, hc1, List.reverse_cons, Forest.nodesPost, List.append_nil]
      exact hc2.append_right [sec]

theorem stepTree_all (need : Int) : ∀ n, StepTree need n
  | 0 => stepTree_zero need
  | n + 1 => stepTree_succ need n (loopTree_of_stepTree need n (stepTree_all need n))

theorem loopTree_all (need : Int) (n : Nat) : LoopTree need n :=
  loopTree_of_stepTree need n (stepTree_all need n)

/-! ## The forest built by `Allocate` -/

theorem Allocate_forest (hdr : FileHeader) (fm : PersistentBitmap) (disk : SynchDisk)
    (fileSize : Int) (h1 : 1 ≤ fileSize) (hfree : sectorsNeeded fileSize ≤ fm.NumClear) :
    ∃ (L : Nat) (root : Int) (f : Forest),
      (Allocate hdr fm disk fileSize).2.1.numLevel = (L : Int) + 1 ∧
      (Allocate hdr fm disk fileSize).2.1.numSectors = divRoundUp fileSize SectorSize ∧
      (Allocate hdr fm disk fileSize).2.1.dataSectors.getD 0 (-1) = root ∧
      (Allocate hdr fm disk fileSize).2.2.claimed =
        Forest.pre (Forest.cons root f Forest.nil) ∧
      (Allocate hdr fm disk fileSize).2.2.leaves =
        Forest.leavesAt (L + 1) (Forest.cons root f Forest.nil) ∧
      (Allocate hdr fm disk fileSize).2.2.written =
        Forest.nodesPost (L + 1) (Forest.cons root f Forest.nil) ∧
      Shape (L + 1) (Forest.cons root f Forest.nil) (divRoundUp fileSize SectorSize).toNat ∧
      OnDisk (Allocate hdr fm disk fileSize).2.2.disk (L + 1) (Forest.cons root f Forest.nil) ∧
      ∀ j, j < (Forest.leavesAt L f).length →
        ∃ c, ((Allocate hdr fm disk fileSize).2.2.disk root)[j / 32 ^ L]? = some c ∧
          (walkFrom (Allocate hdr fm disk fileSize).2.2.disk L c (j % 32 ^ L)).1.reverse.Sublist
            (Forest.nodesPost L f) := by
  have hns := divRoundUp_pos h1
  have hneed0 : sectorsNeeded fileSize =
      treeSectors (log32 (divRoundUp fileSize SectorSize) + 1).toNat
        (divRoundUp fileSize SectorSize).toNat := rfl
  generalize hnse : divRoundUp fileSize SectorSize = ns at *
  obtain ⟨N, rfl⟩ : ∃ N : Nat, ns = (N : Int) := ⟨ns.toNat, by omega⟩
  have hN : 1 ≤ N := by omega
  have hlog := log32_of_pos hns
  simp only [Int.toNat_ofNat] at hlog
  have hL2 : N < 32 ^ (Nat.log 32 N + 1) := Nat.lt_pow_succ_log_self (by decide) N
  generalize Nat.log 32 N = L at *
  have hneed : sectorsNeeded fileSize = treeSectors (L + 1) N := by
    rw [hneed0, hlog]
    have : ((L : Int) + 1).toNat = L + 1 := by omega
    rw [this, Int.toNat_ofNat]
  rw [hneed] at hfree
  rw [treeSectors_succ hN (le_of_lt hL2)] at hfree
  have hclear : 0 < fm.NumClear := by omega
  have hgate : ¬ (fm.NumClear : Int) < divRoundUp fileSize SectorSize := by
    have := le_treeSectors L N
    rw [hnse]; omega
  obtain ⟨-, -, ok3, ok4, ok5, -⟩ := Allocate_ok hdr fm disk fileSize hgate
  have hst := Allocate_state hdr fm disk fileSize hgate
  rw [hnse] at ok3 ok4 hst
  rw [hlog] at ok4 hst
  rw [root_slot] at hst
  have hg0 := Grows.claim ⟨fm, disk, 0, [], [], []⟩ hclear
  simp only [List.nil_append] at hg0
  have hnc0 := hg0.numClear
  simp only [List.length_singleton] at hnc0
  have hpow : 32 ^ (L + 1) = NumInDirect * 32 ^ L := by
    rw [Nat.pow_succ, Nat.mul_comm]; rfl
  have hmin : min N (NumInDirect * 32 ^ L) = N := by rw [← hpow]; omega
  have hfree1 : treeSectors L (min N (NumInDirect * 32 ^ L)) ≤
      (⟨fm.FindAndSet.2, disk, 0, [fm.FindAndSet.1], [], []⟩ : AllocState).freeMap.NumClear := by
    rw [hmin]
    show _ ≤ fm.FindAndSet.2.NumClear
    omega
  obtain ⟨new, lv, w, hg, -, -, -, hlen, -, -⟩ :=
    loopSpec_all (N : Int) L NumInDirect 0 emptyTable
      ⟨fm.FindAndSet.2, disk, 0, [fm.FindAndSet.1], [], []⟩ N (by simp)
      (by simp [emptyTable]) hfree1
  obtain ⟨f, hc, hl, hw, hshape, hroots, hslots, hrest, hdisk⟩ :=
    loopTree_all (N : Int) L NumInDirect 0 emptyTable
      ⟨fm.FindAndSet.2, disk, 0, [fm.FindAndSet.1], [], []⟩ N (by simp)
      (by simp [emptyTable]) hfree1
  rw [hmin] at hshape
  have hAS : AllocSector ((L : Int) + 1) emptyTable
      ⟨fm.FindAndSet.2, disk, 0, [fm.FindAndSet.1], [], []⟩ (N : Int) =
      (true, allocLoop (AllocSectorN (N : Int) L) (N : Int) NumInDirect 0 emptyTable
        ⟨fm.FindAndSet.2, disk, 0, [fm.FindAndSet.1], [], []⟩) := by
    have e : ((L : Int) + 1).toNat = L + 1 := by omega
    have hne : ¬ (0 : Int) = (N : Int) := by omega
    simp [AllocSector, e, AllocSectorN, hne]
  rw [hAS] at hst
  generalize allocLoop (AllocSectorN (N : Int) L) (N : Int) NumInDirect 0 emptyTable
      ⟨fm.FindAndSet.2, disk, 0, [fm.FindAndSet.1], [], []⟩ = r at *
  obtain ⟨tbl', s2⟩ := r
  simp only at hg hlen hc hl hw hslots hrest hdisk hst
  generalize hroot : fm.FindAndSet.1 = root at *
  have hsec : root ∉ new := hg.not_mem_of_marked (hg0.marked (List.mem_singleton.2 rfl))
  have hpre : Forest.pre f = new := List.append_cancel_left (hc.symm.trans hg.claimed)
  have htbl : tbl' = padded (Forest.roots f) := by
    apply eq_padded (by rw [hlen]; simp [emptyTable]) hroots
    · intro j hj
      have := hslots j hj
      rwa [Nat.zero_add] at this
    · intro idx hidx
      exact hrest idx (by omega)
  have hdroot : (Allocate hdr fm disk fileSize).2.2.disk root = tbl' := by
    rw [hst]; simp [SynchDisk.WriteSector]
  have hd2 : ∀ x ∈ Forest.pre f, (Allocate hdr fm disk fileSize).2.2.disk x = s2.disk x := by
    intro x hx
    rw [hst]
    have : x ≠ root := fun e => hsec (by rw [← hpre, ← e]; exact hx)
    simp [SynchDisk.WriteSector, this]
  obtain ⟨hon, hwalk⟩ := hdisk _ hd2
  refine ⟨L, root, f, ok4, ok3, by rw [ok5, root_slot], ?_, ?_, ?_, ?_, ?_, ?_⟩
  · rw [hst]; simp [hc, Forest.pre]
  · rw [hst]; simp [hl, Forest.leavesAt]
  · rw [hst]; simp [hw, Forest.nodesPost]
  · simp only [Shape, Int.toNat_ofNat]
    refine ⟨hN, ?_, by omega⟩
    rw [Nat.min_eq_left (le_of_lt hL2)]
    exact hshape
  · simp only [OnDisk]
    exact ⟨by rw [hdroot, htbl], hon, trivial⟩
  · intro j hj
    obtain ⟨c, hc1, hc2⟩ := hwalk j hj
    rw [Nat.zero_add] at hc1
    exact ⟨c, by rw [hdroot]; exact hc1, hc2⟩

/-! ## Properties of filled forests -/

namespace Forest

theorem nodesPost_zero (f : Forest) : nodesPost 0 f = [] := by
  induction f with
  | nil => rfl
  | cons s k r _ ih => simp [nodesPost, ih]

theorem leavesAt_zero (f : Forest) : leavesAt 0 f = roots f := by
  induction f with
  | nil => rfl
  | cons s k r _ ih => simp [leavesAt, roots, ih]

theorem leavesAt_succ (t : Nat) (f : Forest) : leavesAt (t + 1) f = leavesAt t (kidsAll f) := by
  induction f with
  | nil => cases t <;> rfl
  | cons s k r _ ih => simp [leavesAt, kidsAll, leavesAt_append, ih]

theorem roots_subset_pre (f : Forest) : ∀ x ∈ roots f, x ∈ pre f := by
  induction f with
  | nil => intro x hx; simp [roots] at hx
  | cons s k r _ ih =>
    intro x hx
    simp only [roots, List.mem_cons] at hx
    simp only [pre, List.mem_cons, List.mem_append]
    rcases hx with hx | hx
    · exact Or.inl hx
    · exact Or.inr (Or.inr (ih x hx))

theorem pre_kidsAll_subset (f : Forest) : ∀ x ∈ pre (kidsAll f), x ∈ pre f := by
  induction f with
  | nil => intro x hx; simp [kidsAll, pre] at hx
  | cons s k r _ ih =>
    intro x hx
    simp only [kidsAll, pre_append, List.mem_append] at hx
    simp only [pre, List.mem_cons, List.mem_append]
    rcases hx with hx | hx
    · exact Or.inr (Or.inl hx)
    · exact Or.inr (Or.inr (ih x hx))

theorem count_nodesPost_succ (t : Nat) (f : Forest) (a : Int) :
    (nodesPost (t + 1) f).count a = (roots f).count a + (nodesPost t (kidsAll f)).count a := by
  induction f with
  | nil => cases t <;> simp [nodesPost, roots, kidsAll]
  | cons s k r _ ih =>
    simp only [nodesPost, roots, kidsAll, nodesPost_append, List.count_append, List.count_cons,
      ih, List.count_nil]
    omega

end Forest

theorem Shape_nil_iff (t m : Nat) : Shape t Forest.nil m ↔ m = 0 := by
  cases t <;> simp [Shape]

theorem Shape_zero_eq_nil {t : Nat} {f : Forest} (h : Shape t f 0) : f = Forest.nil := by
  cases f with
  | nil => rfl
  | cons s k r =>
    cases t with
    | zero => simp only [Shape] at h; omega
    | succ t => simp only [Shape] at h; omega

theorem Shape_count_pre {t : Nat} {f : Forest} {m : Nat} (h : Shape t f m) (a : Int) :
    (Forest.pre f).count a = (Forest.leavesAt t f).count a + (Forest.nodesPost t f).count a := by
  induction f generalizing t m with
  | nil => cases t <;> simp [Forest.pre, Forest.leavesAt, Forest.nodesPost]
  | cons s k r ihk ihr =>
    cases t with
    | zero =>
      simp only [Shape] at h
      obtain ⟨hk, -, hr⟩ := h
      subst hk
      simp only [Forest.pre, Forest.leavesAt, Forest.nodesPost, List.nil_append, List.count_cons,
        ihr hr]
      omega
    | succ t =>
      simp only [Shape] at h
      obtain ⟨-, hk, hr⟩ := h
      simp only [Forest.pre, Forest.leavesAt, Forest.nodesPost, List.count_cons,
        List.count_append, ihk hk, ihr hr, List.count_nil]
      omega

theorem Shape_perm_pre {t : Nat} {f : Forest} {m : Nat} (h : Shape t f m) :
    (Forest.pre f).Perm (Forest.leavesAt t f ++ Forest.nodesPost t f) := by
  rw [List.perm_iff_count]
  intro a
  rw [List.count_append]
  exact Shape_count_pre h a

theorem Shape_length_leaves {t : Nat} {f : Forest} {m : Nat} (h : Shape t f m) :
    (Forest.leavesAt t f).length = m := by
  induction f generalizing t m with
  | nil => cases t <;> simp_all [Shape, Forest.leavesAt]
  | cons s k r ihk ihr =>
    cases t with
    | zero =>
      simp only [Shape] at h
      obtain ⟨-, hpos, hr⟩ := h
      simp only [Forest.leavesAt, List.length_cons, ihr hr]
      omega
    | succ t =>
      simp only [Shape] at h
      obtain ⟨hpos, hk, hr⟩ := h
      simp only [Forest.leavesAt, List.length_append, ihk hk, ihr hr]
      omega

theorem Shape_length_roots {t : Nat} {f : Forest} {m : Nat} (h : Shape t f m) :
    m ≤ (Forest.roots f).length * 32 ^ t ∧ (Forest.roots f).length * 32 ^ t < m + 32 ^ t := by
  have hB : 0 < 32 ^ t := Nat.pow_pos (by decide)
  induction f generalizing m with
  | nil =>
    rw [Shape_nil_iff] at h
    subst h
    simp [Forest.roots, hB]
  | cons s k r _ ihr =>
    have hr : Shape t r (m - min m (32 ^ t)) ∧ 0 < m := by
      cases t with
      | zero =>
        simp only [Shape] at h
        have : min m (32 ^ 0) = 1 := by simp; omega
        rw [this]
        exact ⟨h.2.2, h.2.1⟩
      | succ t =>
        simp only [Shape] at h
        exact ⟨h.2.2, h.1⟩
    obtain ⟨h1, h2⟩ := ihr hr.1
    have hpos := hr.2
    have hX : (Forest.roots r).length * 32 ^ t = 0 ∨ 32 ^ t ≤ (Forest.roots r).length * 32 ^ t := by
      rcases Nat.eq_zero_or_pos (Forest.roots r).length with h0 | h0
      · left; rw [h0, Nat.zero_mul]
      · right; exact Nat.le_mul_of_pos_left _ h0
    simp only [Forest.roots, List.length_cons, Nat.add_mul, Nat.one_mul]
    generalize (Forest.roots r).length * 32 ^ t = X at h1 h2 hX ⊢
    generalize 32 ^ t = B at hB h1 h2 hX ⊢
    omega

theorem Shape_append {t : Nat} {a b : Forest} {ma mb : Nat} (ha : Shape t a ma)
    (hb : Shape t b mb) (hd : mb = 0 ∨ 32 ^ t ∣ ma) :
    Shape t (Forest.append a b) (ma + mb) := by
  induction a generalizing ma with
  | nil =>
    rw [Shape_nil_iff] at ha
    subst ha
    simpa [Forest.append] using hb
  | cons s k r _ ihr =>
    cases t with
    | zero =>
      simp only [Shape] at ha
      obtain ⟨hk, hpos, hr⟩ := ha
      simp only [Forest.append, Shape]
      refine ⟨hk, by omega, ?_⟩
      have := ihr hr (Or.inr (by simp))
      have e : ma + mb - 1 = ma - 1 + mb := by omega
      rw [e]; exact this
    | succ t =>
      simp only [Shape] at ha
      obtain ⟨hpos, hk, hr⟩ := ha
      simp only [Forest.append, Shape]
      have hB : 0 < 32 ^ (t + 1) := Nat.pow_pos (by decide)
      rcases hd with hd | hd
      · subst hd
        have := ihr hr (Or.inl rfl)
        simp only [Nat.add_zero] at this ⊢
        exact ⟨hpos, hk, this⟩
      · have hge : 32 ^ (t + 1) ≤ ma := Nat.le_of_dvd hpos hd
        have e1 : min ma (32 ^ (t + 1)) = 32 ^ (t + 1) := by omega
        have e2 : min (ma + mb) (32 ^ (t + 1)) = 32 ^ (t + 1) := by omega
        rw [e1] at hk hr
        rw [e2]
        have := ihr hr (Or.inr (Nat.dvd_sub' hd (dvd_refl _)))
        have e3 : ma + mb - 32 ^ (t + 1) = ma - 32 ^ (t + 1) + mb := by omega
        rw [e3]
        exact ⟨by omega, hk, this⟩

theorem Shape_kidsAll {t : Nat} {g : Forest} {m : Nat} (h : Shape (t + 1) g m) :
    Shape t (Forest.kidsAll g) m := by
  induction g generalizing m with
  | nil =>
    rw [Shape_nil_iff] at h
    subst h
    simp [Forest.kidsAll, Shape_nil_iff]
  | cons s k r _ ihr =>
    simp only [Shape] at h
    obtain ⟨hpos, hk, hr⟩ := h
    have hB : 0 < 32 ^ (t + 1) := Nat.pow_pos (by decide)
    have := Shape_append hk (ihr hr) (by
      rcases Nat.le_total m (32 ^ (t + 1)) with hle | hle
      · left; omega
      · right
        rw [Nat.min_eq_right hle, Nat.pow_succ]
        exact Dvd.intro _ rfl)
    have e : min m (32 ^ (t + 1)) + (m - min m (32 ^ (t + 1))) = m := by omega
    rw [e] at this
    exact this

theorem Shape_down {t : Nat} (dd : Nat) {g : Forest} {m : Nat} (h : Shape (t + dd) g m) :
    Shape t (Forest.down dd g) m := by
  induction dd generalizing g with
  | zero => exact h
  | succ dd ih =>
    simp only [Forest.down]
    exact ih (Shape_kidsAll (t := t + dd) h)

theorem OnDisk_nil (d : SynchDisk) (t : Nat) : OnDisk d t Forest.nil := by
  cases t <;> simp [OnDisk]

theorem OnDisk_append {d : SynchDisk} {t : Nat} {a b : Forest} (ha : OnDisk d t a)
    (hb : OnDisk d t b) : OnDisk d t (Forest.append a b) := by
  induction a with
  | nil => exact hb
  | cons s k r _ ihr =>
    cases t with
    | zero =>
      simp only [OnDisk] at ha
      simp only [Forest.append, OnDisk]
      exact ⟨ha.1, ihr ha.2⟩
    | succ t =>
      simp only [OnDisk] at ha
      simp only [Forest.append, OnDisk]
      exact ⟨ha.1, ha.2.1, ihr ha.2.2⟩

theorem OnDisk_kidsAll {d : SynchDisk} {t : Nat} {g : Forest} (h : OnDisk d (t + 1) g) :
    OnDisk d t (Forest.kidsAll g) := by
  induction g with
  | nil => exact OnDisk_nil d t
  | cons s k r _ ihr =>
    simp only [OnDisk] at h
    exact OnDisk_append h.2.1 (ihr h.2.2)

theorem OnDisk_down {d : SynchDisk} {t : Nat} (dd : Nat) {g : Forest}
    (h : OnDisk d (t + dd) g) : OnDisk d t (Forest.down dd g) := by
  induction dd generalizing g with
  | zero => exact h
  | succ dd ih =>
    simp only [Forest.down]
    exact ih (OnDisk_kidsAll (t := t + dd) h)

theorem pre_down_subset (dd : Nat) (g : Forest) :
    ∀ x ∈ Forest.pre (Forest.down dd g), x ∈ Forest.pre g := by
  induction dd generalizing g with
  | zero => intro x hx; exact hx
  | succ dd ih =>
    intro x hx
    exact Forest.pre_kidsAll_subset g x (ih (Forest.kidsAll g) x hx)

theorem leavesAt_down (t dd : Nat) (g : Forest) :
    Forest.leavesAt (t + dd) g = Forest.leavesAt t (Forest.down dd g) := by
  induction dd generalizing g with
  | zero => rfl
  | succ dd ih =>
    simp only [Forest.down]
    rw [← ih, ← Forest.leavesAt_succ]
    rfl

/-! ## Reading a forest back from the disk -/

theorem populated_append_pad {l pad : List Int} (hl : ∀ x ∈ l, x ≠ -1)
    (hp : ∀ x ∈ pad, x = -1) : populated (l ++ pad) = l := by
  unfold populated
  rw [List.filter_append]
  have h1 : l.filter (fun x => decide (x ≠ -1)) = l := by
    rw [List.filter_eq_self]
    intro a ha
    simpa using hl a ha
  have h2 : pad.filter (fun x => decide (x ≠ -1)) = [] := by
    rw [List.filter_eq_nil_iff]
    intro a ha
    simpa using hp a ha
  rw [h1, h2, List.append_nil]

theorem populated_padded {l : List Int} (hl : ∀ x ∈ l, x ≠ -1) : populated (padded l) = l := by
  unfold padded
  apply populated_append_pad hl
  intro x hx
  exact (List.mem_replicate.1 hx).2

theorem length_padded {l : List Int} (hl : l.length ≤ NumInDirect) :
    (padded l).length = NumInDirect := by
  unfold padded
  rw [List.length_append, List.length_replicate]
  omega

theorem flatMap_roots {d : SynchDisk} {t : Nat} {g : Forest} (h : OnDisk d (t + 1) g)
    (hne : ∀ x ∈ Forest.pre g, x ≠ -1) :
    (Forest.roots g).flatMap (fun s => populated (d s)) = Forest.roots (Forest.kidsAll g) := by
  induction g with
  | nil => rfl
  | cons s k r _ ihr =>
    simp only [OnDisk] at h
    obtain ⟨hs, -, hr⟩ := h
    have hk : ∀ x ∈ Forest.roots k, x ≠ -1 := by
      intro x hx
      apply hne
      simp only [Forest.pre, List.mem_cons, List.mem_append]
      exact Or.inr (Or.inl (Forest.roots_subset_pre k x hx))
    have hr' : ∀ x ∈ Forest.pre r, x ≠ -1 := by
      intro x hx
      apply hne
      simp only [Forest.pre, List.mem_cons, List.mem_append]
      exact Or.inr (Or.inr hx)
    simp only [Forest.roots, List.flatMap_cons, Forest.kidsAll, Forest.roots_append, hs,
      populated_padded hk, ihr hr hr']

theorem levelNodes_roots {d : SynchDisk} (dd : Nat) {t : Nat} {g : Forest}
    (h : OnDisk d (t + dd) g) (hne : ∀ x ∈ Forest.pre g, x ≠ -1) :
    levelNodes d dd (Forest.roots g) = Forest.roots (Forest.down dd g) := by
  induction dd generalizing g with
  | zero => rfl
  | succ dd ih =>
    simp only [levelNodes, Forest.down]
    rw [flatMap_roots (t := t + dd) h hne]
    exact ih (OnDisk_kidsAll (t := t + dd) h)
      (fun x hx => hne x (Forest.pre_kidsAll_subset g x hx))

theorem treeSecs_roots {d : SynchDisk} {t : Nat} {f : Forest} (h : OnDisk d t f)
    (hne : ∀ x ∈ Forest.pre f, x ≠ -1) (pad : List Int) (hp : ∀ x ∈ pad, x = -1) :
    treeSecs d t (Forest.roots f ++ pad) = Forest.pre f := by
  induction f generalizing t pad with
  | nil =>
    have : populated pad = [] := by
      have := @populated_append_pad [] pad (by simp) hp
      simpa using this
    cases t <;> simp [treeSecs, Forest.roots, Forest.pre, this]
  | cons s k r ihk ihr =>
    have hs : s ≠ -1 := hne s (by simp [Forest.pre])
    have hk' : ∀ x ∈ Forest.pre k, x ≠ -1 := by
      intro x hx
      apply hne
      simp only [Forest.pre, List.mem_cons, List.mem_append]
      exact Or.inr (Or.inl hx)
    have hr' : ∀ x ∈ Forest.pre r, x ≠ -1 := by
      intro x hx
      apply hne
      simp only [Forest.pre, List.mem_cons, List.mem_append]
      exact Or.inr (Or.inr hx)
    have hpop : populated (Forest.roots (Forest.cons s k r) ++ pad) =
        s :: populated (Forest.roots r ++ pad) := by
      simp [populated, Forest.roots, List.filter_cons, hs]
    cases t with
    | zero =>
      simp only [OnDisk] at h
      obtain ⟨hk, hr⟩ := h
      subst hk
      have := ihr hr hr' pad hp
      simp only [treeSecs] at this ⊢
      rw [hpop, this]
      simp [Forest.pre]
    | succ t =>
      simp only [OnDisk] at h
      obtain ⟨hds, hk, hr⟩ := h
      have e1 := ihk hk hk' (List.replicate (NumInDirect - (Forest.roots k).length) (-1))
        (fun x hx => (List.mem_replicate.1 hx).2)
      have e2 := ihr hr hr' pad hp
      simp only [treeSecs] at e2 ⊢
      rw [hpop, List.flatMap_cons, e2, hds]
      unfold padded
      rw [e1]
      simp [Forest.pre]

theorem node_table {d : SynchDisk} {t : Nat} {g : Forest} {m : Nat} (h : OnDisk d (t + 1) g)
    (hs : Shape (t + 1) g m) (hne : ∀ x ∈ Forest.pre g, x ≠ -1) :
    ∀ x ∈ Forest.roots g,
      (d x).length = NumInDirect ∧ populated (d x) ≠ [] ∧
      d x = populated (d x) ++ List.replicate (NumInDirect - (populated (d x)).length) (-1) := by
  induction g generalizing m with
  | nil => intro x hx; simp [Forest.roots] at hx
  | cons s k r _ ihr =>
    simp only [OnDisk] at h
    obtain ⟨hds, -, hr⟩ := h
    simp only [Shape] at hs
    obtain ⟨hpos, hk, hsr⟩ := hs
    have hk' : ∀ x ∈ Forest.roots k, x ≠ -1 := by
      intro x hx
      apply hne
      simp only [Forest.pre, List.mem_cons, List.mem_append]
      exact Or.inr (Or.inl (Forest.roots_subset_pre k x hx))
    have hr' : ∀ x ∈ Forest.pre r, x ≠ -1 := by
      intro x hx
      apply hne
      simp only [Forest.pre, List.mem_cons, List.mem_append]
      exact Or.inr (Or.inr hx)
    intro x hx
    simp only [Forest.roots, List.mem_cons] at hx
    rcases hx with hx | hx
    · subst hx
      have hpop := populated_padded hk'
      obtain ⟨b1, b2⟩ := Shape_length_roots hk
      have hB : 0 < 32 ^ t := Nat.pow_pos (by decide)
      have hB' : 0 < 32 ^ (t + 1) := Nat.pow_pos (by decide)
      have hlen : (Forest.roots k).length ≤ NumInDirect := by
        have : (Forest.roots k).length * 32 ^ t < 33 * 32 ^ t := by
          have e : 32 ^ (t + 1) = 32 * 32 ^ t := by rw [Nat.pow_succ, Nat.mul_comm]
          omega
        have := Nat.lt_of_mul_lt_mul_right this
        simp only [NumInDirect]; omega
      have hne0 : Forest.roots k ≠ [] := by
        intro h0
        rw [h0] at b1
        simp at b1
        omega
      rw [hds, hpop]
      exact ⟨length_padded hlen, hne0, rfl⟩
    · exact ihr hr hsr hr' x hx

theorem kidCounts_map {d : SynchDisk} {t : Nat} {g : Forest} (h : OnDisk d (t + 1) g)
    (hne : ∀ x ∈ Forest.pre g, x ≠ -1) :
    (Forest.roots g).map (fun x => (populated (d x)).length) = Forest.kidCounts g := by
  induction g with
  | nil => rfl
  | cons s k r _ ihr =>
    simp only [OnDisk] at h
    obtain ⟨hds, -, hr⟩ := h
    have hk' : ∀ x ∈ Forest.roots k, x ≠ -1 := by
      intro x hx
      apply hne
      simp only [Forest.pre, List.mem_cons, List.mem_append]
      exact Or.inr (Or.inl (Forest.roots_subset_pre k x hx))
    have hr' : ∀ x ∈ Forest.pre r, x ≠ -1 := by
      intro x hx
      apply hne
      simp only [Forest.pre, List.mem_cons, List.mem_append]
      exact Or.inr (Or.inr hx)
    simp only [Forest.roots, List.map_cons, Forest.kidCounts, hds, populated_padded hk',
      ihr hr hr']

theorem kidCounts_full {t : Nat} {g : Forest} {m : Nat} (hs : Shape (t + 1) g m) :
    ∀ c ∈ (Forest.kidCounts g).dropLast, c = NumInDirect := by
  induction g generalizing m with
  | nil => intro c hc; simp [Forest.kidCounts] at hc
  | cons s k r _ ihr =>
    simp only [Shape] at hs
    obtain ⟨hpos, hk, hsr⟩ := hs
    cases r with
    | nil => intro c hc; simp [Forest.kidCounts] at hc
    | cons s2 k2 r2 =>
      intro c hc
      simp only [Forest.kidCounts, List.dropLast_cons₂, List.mem_cons] at hc
      rcases hc with hc | hc
      · subst hc
        have hB' : 0 < 32 ^ (t + 1) := Nat.pow_pos (by decide)
        have hB : 0 < 32 ^ t := Nat.pow_pos (by decide)
        have hm : 0 < m - min m (32 ^ (t + 1)) := by
          simp only [Shape] at hsr
          exact hsr.1
        have e1 : min m (32 ^ (t + 1)) = 32 ^ (t + 1) := by omega
        rw [e1] at hk
        obtain ⟨b1, b2⟩ := Shape_length_roots hk
        have e : 32 ^ (t + 1) = 32 * 32 ^ t := by rw [Nat.pow_succ, Nat.mul_comm]
        have u1 : (Forest.roots k).length * 32 ^ t < 33 * 32 ^ t := by omega
        have u2 : 31 * 32 ^ t < (Forest.roots k).length * 32 ^ t := by omega
        have v1 := Nat.lt_of_mul_lt_mul_right u1
        have v2 := Nat.lt_of_mul_lt_mul_right u2
        simp only [NumInDirect]; omega
      · apply ihr hsr c
        simpa [Forest.kidCounts] using hc

theorem count_nodesPost_levels (t : Nat) (g : Forest) (a : Int) :
    (Forest.nodesPost t g).count a =
      ((List.range t).flatMap (fun dd => Forest.roots (Forest.down dd g))).count a := by
  induction t generalizing g with
  | zero => simp [Forest.nodesPost_zero]
  | succ t ih =>
    rw [Forest.count_nodesPost_succ, ih (Forest.kidsAll g), List.range_succ_eq_map,
      List.flatMap_cons, List.count_append, List.flatMap_map]
    rfl

theorem nodesPost_perm_levels (t : Nat) (g : Forest) :
    (Forest.nodesPost t g).Perm
      ((List.range t).flatMap (fun dd => Forest.roots (Forest.down dd g))) := by
  rw [List.perm_iff_count]
  exact count_nodesPost_levels t g

/-! ## Consequences for the tree on disk -/

/-- Facts about the tree of a successful `Allocate` shared by the claims on its shape. -/
theorem Allocate_shape (hdr : FileHeader) (fm : PersistentBitmap) (disk : SynchDisk)
    (fileSize : Int) (h1 : 1 ≤ fileSize) (hfree : sectorsNeeded fileSize ≤ fm.NumClear) :
    ∃ (L : Nat) (root : Int) (f : Forest),
      (Allocate hdr fm disk fileSize).2.1.numLevel.toNat = L + 1 ∧
      (Allocate hdr fm disk fileSize).2.1.numSectors = divRoundUp fileSize SectorSize ∧
      (Allocate hdr fm disk fileSize).2.1.dataSectors.getD 0 (-1) = root ∧
      (Allocate hdr fm disk fileSize).2.2.claimed =
        Forest.pre (Forest.cons root f Forest.nil) ∧
      (Allocate hdr fm disk fileSize).2.2.leaves =
        Forest.leavesAt (L + 1) (Forest.cons root f Forest.nil) ∧
      (Allocate hdr fm disk fileSize).2.2.written =
        Forest.nodesPost (L + 1) (Forest.cons root f Forest.nil) ∧
      Shape (L + 1) (Forest.cons root f Forest.nil) (divRoundUp fileSize SectorSize).toNat ∧
      OnDisk (Allocate hdr fm disk fileSize).2.2.disk (L + 1) (Forest.cons root f Forest.nil) ∧
      (∀ x ∈ Forest.pre (Forest.cons root f Forest.nil), x ≠ -1) ∧
      (Allocate hdr fm disk fileSize).2.2.leaves.Nodup ∧
      (Allocate hdr fm disk fileSize).2.2.written.Nodup ∧
      (∀ x ∈ (Allocate hdr fm disk fileSize).2.2.leaves,
        x ∉ (Allocate hdr fm disk fileSize).2.2.written) := by
  obtain ⟨L, root, f, hlvl, hns, hroot, hc, hl, hw, hshape, hon, -⟩ :=
    Allocate_forest hdr fm disk fileSize h1 hfree
  obtain ⟨hnd, hcl, -, -, -⟩ := Allocate_traces hdr fm disk fileSize h1 hfree
  have hne : ∀ x ∈ Forest.pre (Forest.cons root f Forest.nil), x ≠ -1 := by
    intro x hx
    have := (hcl x (by rw [hc]; exact hx)).1
    omega
  have hperm := Shape_perm_pre hshape
  rw [← hc, ← hl, ← hw] at hperm
  have hnd2 := hperm.nodup hnd
  rw [List.nodup_append] at hnd2
  exact ⟨L, root, f, by omega, hns, hroot, hc, hl, hw, hshape, hon, hne, hnd2.1, hnd2.2.1,
    fun x hx hx2 => hnd2.2.2 hx hx2⟩

theorem ByteToSector_order (hdr : FileHeader) (fm : PersistentBitmap) (disk : SynchDisk)
    (fileSize o : Int) (hfree : sectorsNeeded fileSize ≤ fm.NumClear)
    (ho0 : 0 ≤ o) (ho1 : o < fileSize) :
    (ByteToSector (Allocate hdr fm disk fileSize).2.1
      (Allocate hdr fm disk fileSize).2.2.disk o).1.reverse.Sublist
        (Allocate hdr fm disk fileSize).2.2.written := by
  obtain ⟨L, root, f, hlvl, -, hroot, -, hl, hw, -, -, hwalk⟩ :=
    Allocate_forest hdr fm disk fileSize (by omega) hfree
  obtain ⟨L', root', path, tbl', -, hlvl', hroot', htbl', -, hj, hlook, hb, -⟩ :=
    ByteToSector_alloc hdr fm disk fileSize o hfree ho0 ho1
  have hLL : L' = L := by rw [hlvl] at hlvl'; omega
  subst hLL
  rw [hroot] at hroot'
  subst hroot'
  rw [hl] at hj
  have hj' : (o / SectorSize).toNat < (Forest.leavesAt L' f).length := by
    simpa [Forest.leavesAt] using hj
  obtain ⟨c, hc1, hc2⟩ := hwalk _ hj'
  rw [htbl'] at hc1
  unfold lookup at hlook
  rw [hc1] at hlook
  simp only at hlook
  have hpath : path = (walkFrom (Allocate hdr fm disk fileSize).2.2.disk L' c
      ((o / SectorSize).toNat % 32 ^ L')).1 := by rw [hlook]
  rw [hb, hw, List.reverse_cons, hpath]
  simp only [Forest.nodesPost, List.append_nil]
  exact hc2.append_right [root]

/-- C14 (map/tree agreement): for `fileSize ≥ 1` and a map with a clear bit for every
sector of the tree, `Allocate` returns true and the sectors reachable from
`dataSectors[0]` by following populated slots for `numLevel` levels (the root, every
interior node, every leaf) are, slot before subtree and left to right, exactly the
sectors claimed by this `Allocate`: they are pairwise distinct, none was marked before
the call and all are marked after it.  `ByteToSector` returns a claimed sector that is
not an indirection node, and different sectors for different leaf indices. -/
theorem C14_map_tree_agreement (hdr : FileHeader) (fm : PersistentBitmap) (disk : SynchDisk)
    (fileSize : Int) (h1 : 1 ≤ fileSize) (hfree : sectorsNeeded fileSize ≤ fm.NumClear) :
    (Allocate hdr fm disk fileSize).1 = true ∧
    treeSecs (Allocate hdr fm disk fileSize).2.2.disk
        (Allocate hdr fm disk fileSize).2.1.numLevel.toNat
        [(Allocate hdr fm disk fileSize).2.1.dataSectors.getD 0 (-1)] =
      (Allocate hdr fm disk fileSize).2.2.claimed ∧
    (Allocate hdr fm disk fileSize).2.2.claimed.Nodup ∧
    (∀ x ∈ (Allocate hdr fm disk fileSize).2.2.claimed,
      0 ≤ x ∧ fm.Test x = false ∧ (Allocate hdr fm disk fileSize).2.2.freeMap.Test x = true) ∧
    (∀ o : Int, 0 ≤ o → o < fileSize →
      ∃ leaf, (ByteToSector (Allocate hdr fm disk fileSize).2.1
          (Allocate hdr fm disk fileSize).2.2.disk o).2 = some leaf ∧
        leaf ∈ (Allocate hdr fm disk fileSize).2.2.claimed ∧
        leaf ∉ (Allocate hdr fm disk fileSize).2.2.written) ∧
    (∀ o1 o2 : Int, 0 ≤ o1 → o1 < fileSize → 0 ≤ o2 → o2 < fileSize →
      o1 / SectorSize ≠ o2 / SectorSize →
      (ByteToSector (Allocate hdr fm disk fileSize).2.1
          (Allocate hdr fm disk fileSize).2.2.disk o1).2 ≠
        (ByteToSector (Allocate hdr fm disk fileSize).2.1
          (Allocate hdr fm disk fileSize).2.2.disk o2).2) := by
  obtain ⟨L, root, f, hlvl, -, hroot, hc, hl, hw, hshape, hon, hne, hlnd, -, hdisj⟩ :=
    Allocate_shape hdr fm disk fileSize h1 hfree
  obtain ⟨hnd, hcl, -, hlc, -⟩ := Allocate_traces hdr fm disk fileSize h1 hfree
  obtain ⟨_, _, _, _, _, _, hok, _⟩ := Allocate_tree hdr fm disk fileSize h1 hfree
  refine ⟨hok, ?_, hnd, hcl, ?_, ?_⟩
  · rw [hlvl, hroot, hc]
    have := treeSecs_roots hon hne [] (by simp)
    simpa [Forest.roots] using this
  · intro o ho0 ho1
    obtain ⟨_, _, _, _, -, -, -, -, -, hj, -, hb, -⟩ :=
      ByteToSector_alloc hdr fm disk fileSize o hfree ho0 ho1
    have hmem : (Allocate hdr fm disk fileSize).2.2.leaves[(o / SectorSize).toNat] ∈
        (Allocate hdr fm disk fileSize).2.2.leaves := List.getElem_mem _
    exact ⟨_, by rw [hb, List.getElem?_eq_getElem hj], hlc _ hmem, hdisj _ hmem⟩
  · intro o1 o2 h10 h11 h20 h21 hne12 heq
    obtain ⟨_, _, _, _, -, -, -, -, -, hj1, -, hb1, -⟩ :=
      ByteToSector_alloc hdr fm disk fileSize o1 hfree h10 h11
    obtain ⟨_, _, _, _, -, -, -, -, -, -, -, hb2, -⟩ :=
      ByteToSector_alloc hdr fm disk fileSize o2 hfree h20 h21
    rw [hb1, hb2] at heq
    have := List.getElem?_inj hj1 hlnd heq
    have hd1 : 0 ≤ o1 / SectorSize := Int.ediv_nonneg h10 (by decide)
    have hd2 : 0 ≤ o2 / SectorSize := Int.ediv_nonneg h20 (by decide)
    omega

/-- Instance of `C14_map_tree_agreement` for a file of 4224 bytes on 40 clear sectors. -/
theorem C14_map_tree_agreement_witness :
    ((1 : Int) ≤ 4224 ∧ sectorsNeeded 4224 ≤ clearMap40.NumClear) ∧
    treeSecs (Allocate FileHeader.new clearMap40 zeroDisk 4224).2.2.disk
        (Allocate FileHeader.new clearMap40 zeroDisk 4224).2.1.numLevel.toNat
        [(Allocate FileHeader.new clearMap40 zeroDisk 4224).2.1.dataSectors.getD 0 (-1)] =
      (Allocate FileHeader.new clearMap40 zeroDisk 4224).2.2.claimed ∧
    (Allocate FileHeader.new clearMap40 zeroDisk 4224).2.2.claimed.Nodup :=
  have h := C14_map_tree_agreement FileHeader.new clearMap40 zeroDisk 4224
    (by decide) (by decide)
  ⟨⟨by decide, by decide⟩, h.2.1, h.2.2.1⟩

/-- C15 (shape of the persisted tree): for `fileSize ≥ 1` and a map with a clear bit for
every sector of the tree, after `Allocate` the sectors found `numLevel` levels below
`dataSectors[0]` are exactly the leaves placed, `numSectors` of them, while every sector
found at a smaller depth is an indirection node written by `Allocate`, distinct from all
leaves; the table of every such node has `NumInDirect` slots, at least one populated, and
consists of its populated slots followed by slots holding -1; and at every depth every
node but the right-most has all `NumInDirect` slots populated. -/
theorem C15_tree_shape (hdr : FileHeader) (fm : PersistentBitmap) (disk : SynchDisk)
    (fileSize : Int) (h1 : 1 ≤ fileSize) (hfree : sectorsNeeded fileSize ≤ fm.NumClear) :
    levelNodes (Allocate hdr fm disk fileSize).2.2.disk
        (Allocate hdr fm disk fileSize).2.1.numLevel.toNat
        [(Allocate hdr fm disk fileSize).2.1.dataSectors.getD 0 (-1)] =
      (Allocate hdr fm disk fileSize).2.2.leaves ∧
    ((Allocate hdr fm disk fileSize).2.2.leaves.length : Int) =
      (Allocate hdr fm disk fileSize).2.1.numSectors ∧
    (∀ dd, dd < (Allocate hdr fm disk fileSize).2.1.numLevel.toNat →
      ∀ x ∈ levelNodes (Allocate hdr fm disk fileSize).2.2.disk dd
          [(Allocate hdr fm disk fileSize).2.1.dataSectors.getD 0 (-1)],
        x ∈ (Allocate hdr fm disk fileSize).2.2.written ∧
        x ∉ (Allocate hdr fm disk fileSize).2.2.leaves ∧
        ((Allocate hdr fm disk fileSize).2.2.disk x).length = NumInDirect ∧
        populated ((Allocate hdr fm disk fileSize).2.2.disk x) ≠ [] ∧
        (Allocate hdr fm disk fileSize).2.2.disk x =
          populated ((Allocate hdr fm disk fileSize).2.2.disk x) ++
            List.replicate
              (NumInDirect - (populated ((Allocate hdr fm disk fileSize).2.2.disk x)).length)
              (-1)) ∧
    (∀ dd, dd < (Allocate hdr fm disk fileSize).2.1.numLevel.toNat →
      ∀ x ∈ (levelNodes (Allocate hdr fm disk fileSize).2.2.disk dd
          [(Allocate hdr fm disk fileSize).2.1.dataSectors.getD 0 (-1)]).dropLast,
        (populated ((Allocate hdr fm disk fileSize).2.2.disk x)).length = NumInDirect) := by
  obtain ⟨L, root, f, hlvl, hns, hroot, hc, hl, hw, hshape, hon, hne, -, -, hdisj⟩ :=
    Allocate_shape hdr fm disk fileSize h1 hfree
  have hnspos := divRoundUp_pos h1
  rw [hlvl, hroot]
  have hlev : ∀ dd t, t + dd = L + 1 →
      levelNodes (Allocate hdr fm disk fileSize).2.2.disk dd [root] =
        Forest.roots (Forest.down dd (Forest.cons root f Forest.nil)) := by
    intro dd t ht
    have := levelNodes_roots (d := (Allocate hdr fm disk fileSize).2.2.disk) dd (t := t)
      (g := Forest.cons root f Forest.nil) (by rw [ht]; exact hon) hne
    simpa [Forest.roots] using this
  refine ⟨?_, ?_, ?_, ?_⟩
  · rw [hlev (L + 1) 0 (by omega), hl, ← Forest.leavesAt_zero]
    have := leavesAt_down 0 (L + 1) (Forest.cons root f Forest.nil)
    rw [Nat.zero_add] at this
    exact this.symm
  · rw [hl, Shape_length_leaves hshape, hns]
    omega
  · intro dd hdd x hx
    obtain ⟨t, ht⟩ : ∃ t, t + 1 + dd = L + 1 := ⟨L - dd, by omega⟩
    rw [hlev dd (t + 1) ht] at hx
    have hon' := OnDisk_down (t := t + 1) dd (by rw [ht]; exact hon)
    have hsh' := Shape_down (t := t + 1) dd (by rw [ht]; exact hshape)
    have hne' : ∀ y ∈ Forest.pre (Forest.down dd (Forest.cons root f Forest.nil)), y ≠ -1 :=
      fun y hy => hne y (pre_down_subset dd _ y hy)
    have hxw : x ∈ (Allocate hdr fm disk fileSize).2.2.written := by
      rw [hw]
      apply (nodesPost_perm_levels (L + 1) (Forest.cons root f Forest.nil)).mem_iff.2
      rw [List.mem_flatMap]
      exact ⟨dd, List.mem_range.2 hdd, hx⟩
    exact ⟨hxw, fun hxl => hdisj x hxl hxw, node_table hon' hsh' hne' x hx⟩
  · intro dd hdd x hx
    obtain ⟨t, ht⟩ : ∃ t, t + 1 + dd = L + 1 := ⟨L - dd, by omega⟩
    rw [hlev dd (t + 1) ht] at hx
    have hon' := OnDisk_down (t := t + 1) dd (by rw [ht]; exact hon)
    have hsh' := Shape_down (t := t + 1) dd (by rw [ht]; exact hshape)
    have hne' : ∀ y ∈ Forest.pre (Forest.down dd (Forest.cons root f Forest.nil)), y ≠ -1 :=
      fun y hy => hne y (pre_down_subset dd _ y hy)
    have hmap := kidCounts_map hon' hne'
    have hmem : (populated ((Allocate hdr fm disk fileSize).2.2.disk x)).length ∈
        ((Forest.roots (Forest.down dd (Forest.cons root f Forest.nil))).dropLast.map
          (fun x => (populated ((Allocate hdr fm disk fileSize).2.2.disk x)).length)) :=
      List.mem_map.2 ⟨x, hx, rfl⟩
    rw [List.map_dropLast, hmap] at hmem
    exact kidCounts_full hsh' _ hmem

/-- Instance of `C15_tree_shape` for a file of 4224 bytes on 40 clear sectors. -/
theorem C15_tree_shape_witness :
    ((1 : Int) ≤ 4224 ∧ sectorsNeeded 4224 ≤ clearMap40.NumClear) ∧
    levelNodes (Allocate FileHeader.new clearMap40 zeroDisk 4224).2.2.disk
        (Allocate FileHeader.new clearMap40 zeroDisk 4224).2.1.numLevel.toNat
        [(Allocate FileHeader.new clearMap40 zeroDisk 4224).2.1.dataSectors.getD 0 (-1)] =
      (Allocate FileHeader.new clearMap40 zeroDisk 4224).2.2.leaves ∧
    ((Allocate FileHeader.new clearMap40 zeroDisk 4224).2.2.leaves.length : Int) =
      (Allocate FileHeader.new clearMap40 zeroDisk 4224).2.1.numSectors :=
  have h := C15_tree_shape FileHeader.new clearMap40 zeroDisk 4224 (by decide) (by decide)
  ⟨⟨by decide, by decide⟩, h.1, h.2.1⟩

/-- C16 (write discipline of `Allocate`): for `fileSize ≥ 1` and a map with a clear bit
for every sector of the tree, the sectors written by `Allocate` are pairwise distinct and
are, up to order, the indirection nodes of the tree, that is the sectors found at depths
`0 .. numLevel - 1` below `dataSectors[0]`, the root included; every written sector is
one claimed by this `Allocate` and none is a leaf; and for every offset of the file the
nodes that `ByteToSector` reads, root first, were written in the opposite order, so each
node after the nodes below it. -/
theorem C16_write_discipline (hdr : FileHeader) (fm : PersistentBitmap) (disk : SynchDisk)
    (fileSize : Int) (h1 : 1 ≤ fileSize) (hfree : sectorsNeeded fileSize ≤ fm.NumClear) :
    (Allocate hdr fm disk fileSize).2.2.written.Nodup ∧
    (Allocate hdr fm disk fileSize).2.2.written.Perm
      ((List.range (Allocate hdr fm disk fileSize).2.1.numLevel.toNat).flatMap
        (fun dd => levelNodes (Allocate hdr fm disk fileSize).2.2.disk dd
          [(Allocate hdr fm disk fileSize).2.1.dataSectors.getD 0 (-1)])) ∧
    (∀ x ∈ (Allocate hdr fm disk fileSize).2.2.written,
      x ∈ (Allocate hdr fm disk fileSize).2.2.claimed ∧
      x ∉ (Allocate hdr fm disk fileSize).2.2.leaves ∧ fm.Test x = false) ∧
    (∀ o : Int, 0 ≤ o → o < fileSize →
      (ByteToSector (Allocate hdr fm disk fileSize).2.1
        (Allocate hdr fm disk fileSize).2.2.disk o).1.reverse.Sublist
          (Allocate hdr fm disk fileSize).2.2.written) := by
  obtain ⟨L, root, f, hlvl, -, hroot, hc, hl, hw, hshape, hon, hne, -, hwnd, hdisj⟩ :=
    Allocate_shape hdr fm disk fileSize h1 hfree
  obtain ⟨-, hcl, hwc, -, -⟩ := Allocate_traces hdr fm disk fileSize h1 hfree
  refine ⟨hwnd, ?_, fun x hx => ⟨hwc x hx, fun hxl => hdisj x hxl hx, (hcl x (hwc x hx)).2.1⟩,
    fun o ho0 ho1 => ByteToSector_order hdr fm disk fileSize o hfree ho0 ho1⟩
  rw [hlvl, hroot, hw]
  have hcongr : (List.range (L + 1)).flatMap
      (fun dd => levelNodes (Allocate hdr fm disk fileSize).2.2.disk dd [root]) =
      (List.range (L + 1)).flatMap
        (fun dd => Forest.roots (Forest.down dd (Forest.cons root f Forest.nil))) := by
    apply List.flatMap_congr
    intro dd hdd
    have hdd' := List.mem_range.1 hdd
    have := levelNodes_roots (d := (Allocate hdr fm disk fileSize).2.2.disk) dd
      (t := L + 1 - dd) (g := Forest.cons root f Forest.nil)
      (by rw [show L + 1 - dd + dd = L + 1 by omega]; exact hon) hne
    simpa [Forest.roots] using this
  rw [hcongr]
  exact nodesPost_perm_levels (L + 1) _

/-- Instance of `C16_write_discipline` for a file of 4224 bytes on 40 clear sectors. -/
theorem C16_write_discipline_witness :
    ((1 : Int) ≤ 4224 ∧ sectorsNeeded 4224 ≤ clearMap40.NumClear) ∧
    (Allocate FileHeader.new clearMap40 zeroDisk 4224).2.2.written.Nodup ∧
    (ByteToSector (Allocate FileHeader.new clearMap40 zeroDisk 4224).2.1
      (Allocate FileHeader.new clearMap40 zeroDisk 4224).2.2.disk 4223).1.reverse.Sublist
        (Allocate FileHeader.new clearMap40 zeroDisk 4224).2.2.written :=
  have h := C16_write_discipline FileHeader.new clearMap40 zeroDisk 4224 (by decide) (by decide)
  ⟨⟨by decide, by decide⟩, h.1, h.2.2.2 4223 (by decide) (by decide)⟩

/-! ## `Deallocate` over the tree built by `Allocate` -/

theorem Test_Clear (b : PersistentBitmap) (x y : Int) :
    (b.Clear x).Test y = (b.Test y && !decide (y = x)) := by
  unfold PersistentBitmap.Clear PersistentBitmap.Test
  by_cases hx : 0 ≤ x
  · simp only [hx, if_true]
    by_cases hy : y = x
    · subst hy
      simp only [hx, decide_True, Bool.true_and, decide_True, Bool.not_true, Bool.and_false]
      rw [List.getD_eq_getElem?_getD, List.getElem?_set]
      by_cases hl : y.toNat < b.map.length
      · simp [hl]
      · simp [hl]
    · by_cases hy0 : 0 ≤ y
      · have hne : x.toNat ≠ y.toNat := by omega
        simp only [hy0, decide_True, Bool.true_and, hy, decide_False, Bool.not_false, Bool.and_true]
        rw [List.getD_eq_getElem?_getD, List.getD_eq_getElem?_getD, List.getElem?_set_ne hne]
      · simp [hy0]
  · simp only [hx, if_false]
    by_cases hy : y = x
    · subst hy
      simp [hx]
    · simp [hy]

theorem Test_foldl_Clear (xs : List Int) (b : PersistentBitmap) (y : Int) :
    (xs.foldl PersistentBitmap.Clear b).Test y = (b.Test y && !decide (y ∈ xs)) := by
  induction xs generalizing b with
  | nil => simp
  | cons x xs ih =>
    rw [List.foldl_cons, ih, Test_Clear]
    by_cases h1 : y = x <;> by_cases h2 : y ∈ xs <;> simp [h1, h2]

theorem padded_getD (l : List Int) (j : Nat) (hj : j < l.length) :
    (padded l).getD j (-1) = l.getD j (-1) := by
  unfold padded
  rw [List.getD_eq_getElem?_getD, List.getD_eq_getElem?_getD, List.getElem?_append_left hj]

theorem deallocLoop_stop (child : indirectTable → DeallocState → Bool × DeallocState)
    (disk : SynchDisk) (need : Int) (k i : Nat) (tbl : indirectTable) (s : DeallocState)
    (h : ¬ s.deallocSecNum < need) : deallocLoop child disk need k i tbl s = s := by
  cases k with
  | zero => rfl
  | succ k => simp [deallocLoop, h]

/-- The loop of `DeallocSector` over slots of height `t` that hold a forest stored on
disk and filled from the left: it counts the leaves of the forest, and passes to `Clear`
every sector of the forest, each after the sectors of its subtree. -/
theorem dealloc_sim (disk : SynchDisk) (need : Int) (f : Forest) :
    ∀ (t k i : Nat) (tbl : indirectTable) (s : DeallocState) (m : Nat),
      s.deallocSecNum + (m : Int) = need →
      Shape t f (min m (k * 32 ^ t)) → OnDisk disk t f →
      (∀ j, j < (Forest.roots f).length →
        tbl.getD (i + j) (-1) = (Forest.roots f).getD j (-1)) →
      (deallocLoop (DeallocSectorN disk need t) disk need k i tbl s).deallocSecNum =
          s.deallocSecNum + ((min m (k * 32 ^ t) : Nat) : Int) ∧
      (deallocLoop (DeallocSectorN disk need t) disk need k i tbl s).cleared =
          s.cleared ++ Forest.post t f ∧
      (deallocLoop (DeallocSectorN disk need t) disk need k i tbl s).freeMap =
          (Forest.post t f).foldl PersistentBitmap.Clear s.freeMap := by
  induction f with
  | nil =>
    intro t k i tbl s m hm hsh _ _
    rw [Shape_nil_iff] at hsh
    have hB : 0 < 32 ^ t := Nat.pow_pos (by decide)
    have hstop : deallocLoop (DeallocSectorN disk need t) disk need k i tbl s = s := by
      cases k with
      | zero => rfl
      | succ k =>
        have : 0 < (k + 1) * 32 ^ t := Nat.mul_pos (by omega) hB
        exact deallocLoop_stop _ _ _ _ _ _ _ (by omega)
    rw [hstop, hsh]
    cases t <;> simp [Forest.post]
  | cons sec kids rest ihk ihr =>
    intro t k i tbl s m hm hsh hon htbl
    have hsec : tbl.getD i (-1) = sec := by
      have := htbl 0 (by simp [Forest.roots])
      simpa [Forest.roots] using this
    have htbl' : ∀ j, j < (Forest.roots rest).length →
        tbl.getD (i + 1 + j) (-1) = (Forest.roots rest).getD j (-1) := by
      intro j hj
      have := htbl (j + 1) (by simp [Forest.roots]; omega)
      rw [show i + 1 + j = i + (j + 1) by omega, this]
      simp [Forest.roots]
    cases t with
    | zero =>
      simp only [Shape] at hsh
      simp only [OnDisk] at hon
      obtain ⟨hk, hpos, hr⟩ := hsh
      cases k with
      | zero => simp at hpos
      | succ k =>
        have hlt : s.deallocSecNum < need := by omega
        have hr' : Shape 0 rest (min (m - 1) (k * 32 ^ 0)) := by
          have : min m ((k + 1) * 32 ^ 0) - 1 = min (m - 1) (k * 32 ^ 0) := by
            simp only [Nat.pow_zero, Nat.mul_one]; omega
          rw [← this]; exact hr
        have hstep : deallocLoop (DeallocSectorN disk need 0) disk need (k + 1) i tbl s =
            deallocLoop (DeallocSectorN disk need 0) disk need k (i + 1) tbl
              { freeMap := s.freeMap.Clear sec, deallocSecNum := s.deallocSecNum + 1,
                readSecs := s.readSecs ++ [sec], cleared := s.cleared ++ [sec] } := by
          rw [deallocLoop]
          simp only [hlt, if_true, hsec, DeallocSectorN]
          rfl
        rw [hstep]
        obtain ⟨e1, e2, e3⟩ := ihr 0 k (i + 1) tbl
          { freeMap := s.freeMap.Clear sec, deallocSecNum := s.deallocSecNum + 1,
            readSecs := s.readSecs ++ [sec], cleared := s.cleared ++ [sec] } (m - 1)
          (by show s.deallocSecNum + 1 + ((m - 1 : Nat) : Int) = need; omega) hr' hon.2 htbl'
        refine ⟨?_, ?_, ?_⟩
        · rw [e1]
          show s.deallocSecNum + 1 + _ = _
          simp only [Nat.pow_zero, Nat.mul_one] at hpos ⊢
          omega
        · rw [e2]; simp [Forest.post]
        · rw [e3]; simp [Forest.post]
    | succ t =>
      simp only [Shape] at hsh
      simp only [OnDisk] at hon
      obtain ⟨hpos, hk, hr⟩ := hsh
      obtain ⟨hd, honk, honr⟩ := hon
      have hB : 0 < 32 ^ (t + 1) := Nat.pow_pos (by decide)
      cases k with
      | zero => simp at hpos
      | succ k =>
        have hlt : s.deallocSecNum < need := by omega
        have hmin : min (min m ((k + 1) * 32 ^ (t + 1))) (32 ^ (t + 1)) = min m (32 * 32 ^ t) := by
          have : 32 ^ (t + 1) = 32 * 32 ^ t := by rw [Nat.pow_succ, Nat.mul_comm]
          rw [← this, Nat.add_mul, Nat.one_mul]
          omega
        rw [hmin] at hk hr
        obtain ⟨c1, c2, c3⟩ := ihk t NumInDirect 0 (disk sec)
          { s with readSecs := s.readSecs ++ [sec] } m hm hk honk
          (by
            intro j hj
            rw [hd, Nat.zero_add]
            exact padded_getD _ _ hj)
        have hstep : ∀ s1, s1 = deallocLoop (DeallocSectorN disk need t) disk need NumInDirect 0
              (disk sec) { s with readSecs := s.readSecs ++ [sec] } →
            deallocLoop (DeallocSectorN disk need (t + 1)) disk need (k + 1) i tbl s =
            deallocLoop (DeallocSectorN disk need (t + 1)) disk need k (i + 1) tbl
              { freeMap := s1.freeMap.Clear sec, deallocSecNum := s1.deallocSecNum,
                readSecs := s1.readSecs, cleared := s1.cleared ++ [sec] } := by
          intro s1 hs1
          subst hs1
          rw [deallocLoop]
          simp only [hlt, if_true, hsec]
          rfl
        generalize hs1 : deallocLoop (DeallocSectorN disk need t) disk need NumInDirect 0
          (disk sec) { s with readSecs := s.readSecs ++ [sec] } = s1 at c1 c2 c3
        rw [hstep s1 hs1.symm]
        have h32 : NumInDirect * 32 ^ t = 32 * 32 ^ t := rfl
        have hp : 32 ^ (t + 1) = 32 * 32 ^ t := by rw [Nat.pow_succ, Nat.mul_comm]
        rw [h32] at c1
        have c1' : s1.deallocSecNum = s.deallocSecNum + ((min m (32 * 32 ^ t) : Nat) : Int) := c1
        have c2' : s1.cleared = s.cleared ++ Forest.post t kids := c2
        have c3' : s1.freeMap = List.foldl PersistentBitmap.Clear s.freeMap (Forest.post t kids) :=
          c3
        have hr' : Shape (t + 1) rest
            (min (m - min m (32 * 32 ^ t)) (k * 32 ^ (t + 1))) := by
          have : min m ((k + 1) * 32 ^ (t + 1)) - min m (32 * 32 ^ t) =
              min (m - min m (32 * 32 ^ t)) (k * 32 ^ (t + 1)) := by
            rw [hp, Nat.add_mul, Nat.one_mul]
            omega
          rw [← this]; exact hr
        obtain ⟨e1, e2, e3⟩ := ihr (t + 1) k (i + 1) tbl
          { freeMap := s1.freeMap.Clear sec, deallocSecNum := s1.deallocSecNum,
            readSecs := s1.readSecs, cleared := s1.cleared ++ [sec] }
          (m - min m (32 * 32 ^ t))
          (by
            show s1.deallocSecNum + _ = need
            rw [c1']
            omega) hr' honr htbl'
        refine ⟨?_, ?_, ?_⟩
        · rw [e1]
          show s1.deallocSecNum + _ = _
          rw [c1', hp, Nat.add_mul, Nat.one_mul]
          omega
        · rw [e2]
          show s1.cleared ++ [sec] ++ _ = _
          rw [c2']
          simp [Forest.post]
        · rw [e3]
          show List.foldl PersistentBitmap.Clear (s1.freeMap.Clear sec) _ = _
          rw [c3']
          simp [Forest.post, List.foldl_append]

theorem Shape_count_post {t : Nat} {f : Forest} {m : Nat} (h : Shape t f m) (a : Int) :
    (Forest.post t f).count a = (Forest.pre f).count a := by
  induction f generalizing t m with
  | nil => cases t <;> simp [Forest.pre, Forest.post]
  | cons s k r ihk ihr =>
    cases t with
    | zero =>
      simp only [Shape] at h
      obtain ⟨hk, -, hr⟩ := h
      subst hk
      simp only [Forest.pre, Forest.post, List.nil_append, List.count_cons, ihr hr]
    | succ t =>
      simp only [Shape] at h
      obtain ⟨-, hk, hr⟩ := h
      simp only [Forest.pre, Forest.post, List.count_append, List.count_cons, List.count_nil,
        ihk hk, ihr hr]
      omega

theorem Shape_perm_post {t : Nat} {f : Forest} {m : Nat} (h : Shape t f m) :
    (Forest.post t f).Perm (Forest.pre f) := by
  rw [List.perm_iff_count]
  exact Shape_count_post h

/-- `Deallocate` after `Allocate`: the sectors passed to `Clear` are the sectors of the
forest below the root, each after its subtree, and the map is the map left by `Allocate`
with these sectors cleared. -/
theorem Deallocate_forest (hdr : FileHeader) (fm : PersistentBitmap) (disk : SynchDisk)
    (fileSize : Int) (h1 : 1 ≤ fileSize) (hfree : sectorsNeeded fileSize ≤ fm.NumClear) :
    ∃ (root : Int) (rest : List Int),
      (Allocate hdr fm disk fileSize).2.2.claimed = root :: rest ∧
      (Allocate hdr fm disk fileSize).2.1.dataSectors.getD 0 (-1) = root ∧
      (Deallocate (Allocate hdr fm disk fileSize).2.1 (Allocate hdr fm disk fileSize).2.2.freeMap
        (Allocate hdr fm disk fileSize).2.2.disk).cleared.Perm rest ∧
      (Deallocate (Allocate hdr fm disk fileSize).2.1 (Allocate hdr fm disk fileSize).2.2.freeMap
        (Allocate hdr fm disk fileSize).2.2.disk).deallocSecNum =
          (Allocate hdr fm disk fileSize).2.1.numSectors ∧
      ∀ x, (Deallocate (Allocate hdr fm disk fileSize).2.1
          (Allocate hdr fm disk fileSize).2.2.freeMap
          (Allocate hdr fm disk fileSize).2.2.disk).freeMap.Test x =
        ((Allocate hdr fm disk fileSize).2.2.freeMap.Test x && !decide (x ∈ rest)) := by
  obtain ⟨L, root, f, hlvl, hns, hroot, hc, -, -, hshape, hon, -⟩ :=
    Allocate_shape hdr fm disk fileSize h1 hfree
  have hnspos := divRoundUp_pos h1
  have hNle : (divRoundUp fileSize SectorSize).toNat ≤ 1 * 32 ^ (L + 1) := by
    simpa [Forest.roots] using (Shape_length_roots hshape).1
  simp only [Shape] at hshape
  simp only [OnDisk] at hon
  obtain ⟨-, hshf, -⟩ := hshape
  obtain ⟨hd, honf, -⟩ := hon
  have hp : 32 ^ (L + 1) = NumInDirect * 32 ^ L := by
    rw [Nat.pow_succ, Nat.mul_comm]; rfl
  rw [hp] at hshf
  have hD : Deallocate (Allocate hdr fm disk fileSize).2.1
      (Allocate hdr fm disk fileSize).2.2.freeMap (Allocate hdr fm disk fileSize).2.2.disk =
      deallocLoop (DeallocSectorN (Allocate hdr fm disk fileSize).2.2.disk
          (divRoundUp fileSize SectorSize) L) (Allocate hdr fm disk fileSize).2.2.disk
        (divRoundUp fileSize SectorSize) NumInDirect 0
        ((Allocate hdr fm disk fileSize).2.2.disk root)
        ⟨(Allocate hdr fm disk fileSize).2.2.freeMap, 0, [root], []⟩ := by
    unfold Deallocate DeallocSector
    rw [hlvl, hns, hroot]
    rfl
  obtain ⟨e1, e2, e3⟩ := dealloc_sim (Allocate hdr fm disk fileSize).2.2.disk
    (divRoundUp fileSize SectorSize) f L NumInDirect 0
    ((Allocate hdr fm disk fileSize).2.2.disk root)
    ⟨(Allocate hdr fm disk fileSize).2.2.freeMap, 0, [root], []⟩
    (divRoundUp fileSize SectorSize).toNat
    (by show (0 : Int) + _ = _; omega) hshf honf
    (by
      intro j hj
      rw [hd, Nat.zero_add]
      exact padded_getD _ _ hj)
  have hperm := Shape_perm_post hshf
  refine ⟨root, Forest.pre f, ?_, hroot, ?_, ?_, ?_⟩
  · rw [hc]; simp [Forest.pre]
  · rw [hD, e2]; simpa using hperm
  · rw [hD, e1, hns]
    show (0 : Int) + _ = _
    rw [hp] at hNle
    have : min (divRoundUp fileSize SectorSize).toNat (NumInDirect * 32 ^ L) =
        (divRoundUp fileSize SectorSize).toNat := by omega
    rw [this]
    omega
  · intro x
    rw [hD, e3, Test_foldl_Clear]
    show ((Allocate hdr fm disk fileSize).2.2.freeMap.Test x && _) = _
    congr 2
    exact decide_eq_decide.2 (hperm.mem_iff)

/-- C18 (footprint of `Deallocate`): for `fileSize ≥ 1` and a map with a clear bit for
every sector of the tree, after `Allocate` followed by `Deallocate` on the resulting
header, map and disk, the sectors passed to `Clear` are, up to order and each exactly
once, the sectors that `Allocate` claimed inside `AllocSector` (all claimed sectors but
the first, the root): every leaf and every indirection node other than the root is among
them, each of them is clear in the final map, the final map agrees with the map left by
`Allocate` on every other sector, and every sector marked before `Allocate` is still
marked. -/
theorem C18_deallocate_footprint (hdr : FileHeader) (fm : PersistentBitmap) (disk : SynchDisk)
    (fileSize : Int) (h1 : 1 ≤ fileSize) (hfree : sectorsNeeded fileSize ≤ fm.NumClear) :
    (Deallocate (Allocate hdr fm disk fileSize).2.1 (Allocate hdr fm disk fileSize).2.2.freeMap
      (Allocate hdr fm disk fileSize).2.2.disk).cleared.Perm
        (Allocate hdr fm disk fileSize).2.2.claimed.tail ∧
    (Deallocate (Allocate hdr fm disk fileSize).2.1 (Allocate hdr fm disk fileSize).2.2.freeMap
      (Allocate hdr fm disk fileSize).2.2.disk).cleared.Nodup ∧
    (∀ x ∈ (Allocate hdr fm disk fileSize).2.2.leaves,
      x ∈ (Deallocate (Allocate hdr fm disk fileSize).2.1
        (Allocate hdr fm disk fileSize).2.2.freeMap
        (Allocate hdr fm disk fileSize).2.2.disk).cleared) ∧
    (∀ x ∈ (Allocate hdr fm disk fileSize).2.2.written,
      x ≠ (Allocate hdr fm disk fileSize).2.1.dataSectors.getD 0 (-1) →
      x ∈ (Deallocate (Allocate hdr fm disk fileSize).2.1
        (Allocate hdr fm disk fileSize).2.2.freeMap
        (Allocate hdr fm disk fileSize).2.2.disk).cleared) ∧
    (∀ x ∈ (Deallocate (Allocate hdr fm disk fileSize).2.1
        (Allocate hdr fm disk fileSize).2.2.freeMap
        (Allocate hdr fm disk fileSize).2.2.disk).cleared,
      fm.Test x = false ∧ (Allocate hdr fm disk fileSize).2.2.freeMap.Test x = true ∧
      (Deallocate (Allocate hdr fm disk fileSize).2.1
        (Allocate hdr fm disk fileSize).2.2.freeMap
        (Allocate hdr fm disk fileSize).2.2.disk).freeMap.Test x = false) ∧
    (∀ x, x ∉ (Allocate hdr fm disk fileSize).2.2.claimed.tail →
      (Deallocate (Allocate hdr fm disk fileSize).2.1
        (Allocate hdr fm disk fileSize).2.2.freeMap
        (Allocate hdr fm disk fileSize).2.2.disk).freeMap.Test x =
      (Allocate hdr fm disk fileSize).2.2.freeMap.Test x) ∧
    (∀ x, fm.Test x = true →
      (Deallocate (Allocate hdr fm disk fileSize).2.1
        (Allocate hdr fm disk fileSize).2.2.freeMap
        (Allocate hdr fm disk fileSize).2.2.disk).freeMap.Test x = true) := by
  obtain ⟨root, rest, hc, hroot, hperm, -, htest⟩ :=
    Deallocate_forest hdr fm disk fileSize h1 hfree
  obtain ⟨hnd, hcl, hwc, hlc, hfm⟩ := Allocate_traces hdr fm disk fileSize h1 hfree
  obtain ⟨L, root2, f, -, -, hroot2, -, -, hw, -, -, -, -, -, hdisj⟩ :=
    Allocate_shape hdr fm disk fileSize h1 hfree
  rw [hc] at hnd hcl hwc hlc hfm ⊢
  rw [hroot]
  have hrw : root ∈ (Allocate hdr fm disk fileSize).2.2.written := by
    rw [hw, ← hroot2, hroot]
    simp [Forest.nodesPost]
  rw [List.tail_cons]
  have hndr : rest.Nodup := (List.nodup_cons.1 hnd).2
  refine ⟨hperm, hperm.symm.nodup hndr, ?_, ?_, ?_, ?_, ?_⟩
  · intro x hx
    apply hperm.mem_iff.2
    have hxc := hlc x hx
    rcases List.mem_cons.1 hxc with h | h
    · subst h
      exact absurd hrw (hdisj _ hx)
    · exact h
  · intro x hx hne
    apply hperm.mem_iff.2
    rcases List.mem_cons.1 (hwc x hx) with h | h
    · exact absurd h hne
    · exact h
  · intro x hx
    have hxr := hperm.mem_iff.1 hx
    have := hcl x (List.mem_cons_of_mem _ hxr)
    refine ⟨this.2.1, this.2.2, ?_⟩
    rw [htest]
    simp [hxr]
  · intro x hx
    rw [htest]
    simp [hx]
  · intro x hx
    have hxr : x ∉ rest := by
      intro hmem
      have := (hcl x (List.mem_cons_of_mem _ hmem)).2.1
      rw [hx] at this
      exact Bool.noConfusion this
    rw [htest, hfm, hx]
    simp [hxr]

/-- Instance of `C18_deallocate_footprint` for a file of 4224 bytes on 40 clear
sectors. -/
theorem C18_deallocate_footprint_witness :
    ((1 : Int) ≤ 4224 ∧ sectorsNeeded 4224 ≤ clearMap40.NumClear) ∧
    (Deallocate (Allocate FileHeader.new clearMap40 zeroDisk 4224).2.1
      (Allocate FileHeader.new clearMap40 zeroDisk 4224).2.2.freeMap
      (Allocate FileHeader.new clearMap40 zeroDisk 4224).2.2.disk).cleared.Perm
        (Allocate FileHeader.new clearMap40 zeroDisk 4224).2.2.claimed.tail ∧
    (Deallocate (Allocate FileHeader.new clearMap40 zeroDisk 4224).2.1
      (Allocate FileHeader.new clearMap40 zeroDisk 4224).2.2.freeMap
      (Allocate FileHeader.new clearMap40 zeroDisk 4224).2.2.disk).cleared.Nodup :=
  have h := C18_deallocate_footprint FileHeader.new clearMap40 zeroDisk 4224
    (by decide) (by decide)
  ⟨⟨by decide, by decide⟩, h.1, h.2.1⟩

/-! ## Walks that leave the tree -/

/-- C13 (failing input): on a map of 8 sectors of which only sector 7 is clear, `Allocate`
of 100 bytes returns true with `numLevel = 1` and the root in sector 7.  For offset 0 the
single call of `GetSector` has `LvlNum = 1` and slot index 0, inside the table, but the
slot it dereferences, slot 0 of the root table, holds -1: `FindAndSet` found no clear bit
for the leaf, no slot of the root table is populated, and `ByteToSector(0)` returns -1,
a sector that is not marked in the map. -/
theorem C13_walk_dereferences_unset_slot :
    (Allocate FileHeader.new lastFreeMap8 zeroDisk 100).1 = true ∧
    (Allocate FileHeader.new lastFreeMap8 zeroDisk 100).2.1.numLevel = 1 ∧
    (Allocate FileHeader.new lastFreeMap8 zeroDisk 100).2.1.dataSectors.getD 0 (-1) = 7 ∧
    ByteToSectorCalls (Allocate FileHeader.new lastFreeMap8 zeroDisk 100).2.1
      (Allocate FileHeader.new lastFreeMap8 zeroDisk 100).2.2.disk 0 = [(0, 1)] ∧
    slot ((Allocate FileHeader.new lastFreeMap8 zeroDisk 100).2.2.disk 7) 0 = some (-1) ∧
    populated ((Allocate FileHeader.new lastFreeMap8 zeroDisk 100).2.2.disk 7) = [] ∧
    ByteToSector (Allocate FileHeader.new lastFreeMap8 zeroDisk 100).2.1
      (Allocate FileHeader.new lastFreeMap8 zeroDisk 100).2.2.disk 0 = ([7], some (-1)) ∧
    (Allocate FileHeader.new lastFreeMap8 zeroDisk 100).2.2.freeMap.Test (-1) = false := by
  refine ⟨by decide, by decide, by decide, by decide, by decide, by decide, by decide,
    by decide⟩

end NachOS
